import Mathlib

/-!
# Verification of the sudachiclone-rs analyzer core

This file gives a shallow embedding, in Lean 4, of the parts of the
sudachiclone-rs morphological analyzer that the specification claims
C1..C10 talk about, and settles each claim against the embedding.

Machine integers are modelled as `Int` together with explicit wrapping
(`wrapI16`, `wrapI32`) at the operations where the Rust source performs
fixed-width arithmetic, and as `Nat` where the source uses `usize`/`u32`.
Rust index panics are modelled with `Option`/`Except` or, where a claim
only concerns states in which the source invariant makes the access be
in bounds, with `getD` defaults (noted at each definition).
-/

/-- Wrap an integer into the `i16` range, the semantics of Rust's
`as i16` cast and of wrapping 16-bit arithmetic. -/
def wrapI16 (x : Int) : Int := (x + 32768) % 65536 - 32768

/-- Wrap an integer into the `i32` range (Rust release-mode `i32` ops). -/
def wrapI32 (x : Int) : Int := (x + 2147483648) % 4294967296 - 2147483648

/-- Clamp an integer into the `i16` range. -/
def clampI16 (x : Int) : Int := max (min x 32767) (-32768)

theorem wrapI16_eq_self {x : Int} (h1 : -32768 ≤ x) (h2 : x ≤ 32767) : wrapI16 x = x := by
  unfold wrapI16
  omega

theorem wrapI32_eq_self {x : Int} (h1 : -2147483648 ≤ x) (h2 : x ≤ 2147483647) :
    wrapI32 x = x := by
  unfold wrapI32
  omega

/-! ## §C2 — Grammar connection-cost matrix (`dictionary_lib/grammar.rs`)

`Grammar::from_reader` reads `left_id_size` (= L), `right_id_size` (= R) and a
buffer of L·R `i16` costs, then builds
`matrix_view : Vec<Vec<i16>>` with L rows of R columns via
`matrix_view[i][j] = buf[(i * left_id_size) + j]` (note the stride is
`left_id_size`, exactly as in the source).  `get_connect_cost(left, right)`
returns `matrix_view[right][left]`.  Out-of-bounds reads (Rust panics) are
modelled as `none`. -/

namespace Grammar

/-- The sentinel connection cost meaning "inhibited" (`INHIBITED_CONNECTION`). -/
def INHIBITED_CONNECTION : Int := 0x7fff

/-- `matrix_view` as constructed by `Grammar::from_reader`
(grammar.rs lines 41-53): L rows, R columns, entry `(i, j)` read from
`buf[(i * left_id_size) + j]`. `none` models a Rust index panic. -/
def matrixViewFromReader (leftIdSize rightIdSize : Nat) (buf : List Int) :
    Option (List (List Int)) :=
  if leftIdSize = 0 ∨ rightIdSize = 0 then some []
  else
    (List.range leftIdSize).mapM fun i =>
      (List.range rightIdSize).mapM fun j => buf.get? (i * leftIdSize + j)

/-- `Grammar::get_connect_cost(left, right) = matrix_view[right][left]`
(grammar.rs lines 73-75). `none` models a Rust index panic. -/
def getConnectCost (matrixView : List (List Int)) (left right : Nat) : Option Int :=
  (matrixView.get? right).bind fun row => row.get? left

/-- The binary-format serialization of the connection matrix, as described
by the spec (§4.3): L·R costs in row-major order by left-id, the cost for
the pair `(l, r)` at index `l·R + r`. -/
def fileConnectCost (rightIdSize : Nat) (buf : List Int) (l r : Nat) : Option Int :=
  buf.get? (l * rightIdSize + r)

end Grammar

/-- C2: the claim states that after `Grammar::from_reader`,
`get_connect_cost(left, right)` returns the file's cost for the pair
`(l = right, r = left)` for every `left < L`, `right < R`.  The code is
wrong for every non-square matrix: with L = 2, R = 3 and file costs
`[0, 1, 2, 3, 4, 5]`, `get_connect_cost(0, 1)` returns `buf[1·L + 0] = 2`,
while the file's cost for the pair `(l = 1, r = 0)` sits at index
`1·R + 0` and is `3` (the construction loop uses stride `left_id_size`
where the row-major layout has `right_id_size` columns). -/
theorem grammar_c2_connect_cost_mismatch :
    (Grammar.matrixViewFromReader 2 3 [0, 1, 2, 3, 4, 5]).bind
        (fun mv => Grammar.getConnectCost mv 0 1) = some 2
      ∧ Grammar.fileConnectCost 3 [0, 1, 2, 3, 4, 5] 1 0 = some 3
      ∧ (2 : Int) ≠ 3 := by
  refine ⟨rfl, rfl, by decide⟩

/-! ## §C3 — Dictionary version checks (`dictionary_lib/binary_dictionary.rs`)

`BinaryDictionary::read_dictionary_from_reader` reads the header, rejects a
version outside the five recognized constants with
`InvalidDictionaryVersionErr`, rejects `USER_DICT_VERSION_1` with
`NotFoundGrammarErr`, and otherwise proceeds to parse the grammar and the
lexicon.  The grammar/lexicon parsing outcome is abstracted as a parameter
`parseRest` (its errors map to `IOError`/`LexiconErr` variants, never to the
two version errors). -/

namespace BinaryDictionary

/-- Modelled from the spec: the module `system_dictionary_version` with the
five recognized version constants is not part of the sources at hand, so the
constants are modelled, per spec §4.3, as five pairwise distinct `u64`
values. Only their distinctness is relevant to the claims. -/
def SYSTEM_DICT_VERSION_1 : Nat := 0x7366d3f18bd111e7

/-- Modelled from the spec: second recognized system-dictionary version. -/
def SYSTEM_DICT_VERSION_2 : Nat := 0xce9f011a92394434

/-- Modelled from the spec: first user-dictionary version (no grammar section). -/
def USER_DICT_VERSION_1 : Nat := 0xa50f31188bd211e7

/-- Modelled from the spec: second user-dictionary version. -/
def USER_DICT_VERSION_2 : Nat := 0x9fdeb5a90168d868

/-- Modelled from the spec: third user-dictionary version. -/
def USER_DICT_VERSION_3 : Nat := 0xca9811756ff64fb0

/-- Error variants of `ReadDictionaryErr` relevant to the version gate; every
error raised by the grammar/lexicon readers lands in `otherErr` (the source's
`IOError`/`DictionaryHeaderErr`/`LexiconErr` wrappers). -/
inductive ReadDictionaryErr where
  | invalidDictionaryVersionErr : ReadDictionaryErr
  | invalidSystemDictionaryErr : ReadDictionaryErr
  | invalidUserDictionaryErr : ReadDictionaryErr
  | notFoundGrammarErr : ReadDictionaryErr
  | otherErr : ReadDictionaryErr
deriving DecidableEq, Repr

/-- `BinaryDictionary::read_dictionary_from_reader` (binary_dictionary.rs
lines 51-71), with the header already read (its version is `version`) and the
grammar+lexicon parse abstracted as `parseRest : Except ReadDictionaryErr α`
whose errors are never the two version errors. -/
def readDictionaryFromReader {α : Type} (version : Nat)
    (parseRest : Except ReadDictionaryErr α) : Except ReadDictionaryErr α :=
  if SYSTEM_DICT_VERSION_1 ≠ version ∧ SYSTEM_DICT_VERSION_2 ≠ version
      ∧ USER_DICT_VERSION_1 ≠ version ∧ USER_DICT_VERSION_2 ≠ version
      ∧ USER_DICT_VERSION_3 ≠ version then
    Except.error ReadDictionaryErr.invalidDictionaryVersionErr
  else if version = USER_DICT_VERSION_1 then
    Except.error ReadDictionaryErr.notFoundGrammarErr
  else
    parseRest

/-- The set of recognized header versions. -/
def recognizedVersion (version : Nat) : Prop :=
  version = SYSTEM_DICT_VERSION_1 ∨ version = SYSTEM_DICT_VERSION_2
    ∨ version = USER_DICT_VERSION_1 ∨ version = USER_DICT_VERSION_2
    ∨ version = USER_DICT_VERSION_3

instance (version : Nat) : Decidable (recognizedVersion version) := by
  unfold recognizedVersion; infer_instance

end BinaryDictionary

/-- C3: loading fails with the invalid-dictionary-version error iff the
header version is none of the five recognized versions; a `USER_DICT_v1`
header fails with not-found-grammar; and a `USER_DICT_v2` or `USER_DICT_v3`
header passes the version check, so that loading proceeds to parse the
grammar and the lexicon (the result is whatever the grammar+lexicon parse
returns).  `parseRest` never produces the version error itself
(hypothesis `hp`), matching the source where the grammar/lexicon readers
only raise IO/lexicon errors. -/
theorem binaryDictionary_c3_version_gate {α : Type}
    (version : Nat) (parseRest : Except BinaryDictionary.ReadDictionaryErr α)
    (hp : parseRest ≠ Except.error
      BinaryDictionary.ReadDictionaryErr.invalidDictionaryVersionErr) :
    (BinaryDictionary.readDictionaryFromReader version parseRest =
        Except.error BinaryDictionary.ReadDictionaryErr.invalidDictionaryVersionErr
      ↔ ¬ BinaryDictionary.recognizedVersion version)
    ∧ (version = BinaryDictionary.USER_DICT_VERSION_1 →
        BinaryDictionary.readDictionaryFromReader version parseRest =
          Except.error BinaryDictionary.ReadDictionaryErr.notFoundGrammarErr)
    ∧ (version = BinaryDictionary.USER_DICT_VERSION_2
        ∨ version = BinaryDictionary.USER_DICT_VERSION_3 →
        BinaryDictionary.readDictionaryFromReader version parseRest = parseRest) := by
  by_cases hrec : BinaryDictionary.recognizedVersion version
  · have hcond : ¬ (BinaryDictionary.SYSTEM_DICT_VERSION_1 ≠ version
        ∧ BinaryDictionary.SYSTEM_DICT_VERSION_2 ≠ version
        ∧ BinaryDictionary.USER_DICT_VERSION_1 ≠ version
        ∧ BinaryDictionary.USER_DICT_VERSION_2 ≠ version
        ∧ BinaryDictionary.USER_DICT_VERSION_3 ≠ version) := by
      rcases hrec with h1 | h1 | h1 | h1 | h1 <;> subst h1 <;> simp
    have hred : BinaryDictionary.readDictionaryFromReader version parseRest =
        if version = BinaryDictionary.USER_DICT_VERSION_1 then
          Except.error BinaryDictionary.ReadDictionaryErr.notFoundGrammarErr
        else parseRest := by
      unfold BinaryDictionary.readDictionaryFromReader
      rw [if_neg hcond]
    refine ⟨?_, ?_, ?_⟩
    · rw [hred]
      constructor
      · intro h
        by_cases h1 : version = BinaryDictionary.USER_DICT_VERSION_1
        · rw [if_pos h1] at h
          simp at h
        · rw [if_neg h1] at h
          exact absurd h hp
      · intro h
        exact absurd hrec h
    · intro h1
      rw [hred, if_pos h1]
    · intro h1
      have h2 : version ≠ BinaryDictionary.USER_DICT_VERSION_1 := by
        rcases h1 with h1 | h1 <;> subst h1 <;> decide
      rw [hred, if_neg h2]
  · have hcond : BinaryDictionary.SYSTEM_DICT_VERSION_1 ≠ version
        ∧ BinaryDictionary.SYSTEM_DICT_VERSION_2 ≠ version
        ∧ BinaryDictionary.USER_DICT_VERSION_1 ≠ version
        ∧ BinaryDictionary.USER_DICT_VERSION_2 ≠ version
        ∧ BinaryDictionary.USER_DICT_VERSION_3 ≠ version := by
      refine ⟨fun e => hrec (Or.inl e.symm), fun e => hrec (Or.inr (Or.inl e.symm)),
        fun e => hrec (Or.inr (Or.inr (Or.inl e.symm))),
        fun e => hrec (Or.inr (Or.inr (Or.inr (Or.inl e.symm)))),
        fun e => hrec (Or.inr (Or.inr (Or.inr (Or.inr e.symm))))⟩
    have hred : BinaryDictionary.readDictionaryFromReader version parseRest =
        Except.error BinaryDictionary.ReadDictionaryErr.invalidDictionaryVersionErr := by
      unfold BinaryDictionary.readDictionaryFromReader
      rw [if_pos hcond]
    refine ⟨⟨fun _ => hrec, fun _ => hred⟩, ?_, ?_⟩
    · intro h1
      exact absurd (Or.inr (Or.inr (Or.inl h1))) hrec
    · intro h1
      rcases h1 with h1 | h1
      · exact absurd (Or.inr (Or.inr (Or.inr (Or.inl h1)))) hrec
      · exact absurd (Or.inr (Or.inr (Or.inr (Or.inr h1)))) hrec

/-- Witness for C3 at a concrete point: a `USER_DICT_v3` header with a
successful grammar+lexicon parse passes the version gate. -/
theorem binaryDictionary_c3_version_gate_witness :
    BinaryDictionary.readDictionaryFromReader BinaryDictionary.USER_DICT_VERSION_3
        (Except.ok (0 : Nat)) = Except.ok 0
      ∧ ¬ (BinaryDictionary.readDictionaryFromReader 12345
          (Except.ok (0 : Nat)) = Except.ok 0) := by
  have h := binaryDictionary_c3_version_gate (α := Nat)
    BinaryDictionary.USER_DICT_VERSION_3 (Except.ok 0) (by simp)
  have h2 := binaryDictionary_c3_version_gate (α := Nat) 12345 (Except.ok 0) (by simp)
  refine ⟨h.2.2 (Or.inr rfl), ?_⟩
  have hrec : ¬ BinaryDictionary.recognizedVersion 12345 := by decide
  have := (h2.1).mpr hrec
  rw [this]
  simp

/-! ## §C4 — MeCab OOV definitions reader (`plugin/mecab_oov_plugin.rs`)

`MecabOovPlugin::read_oov_from_reader` iterates the lines of `unk.def`.
The source guard is `if !line.is_empty() { continue; }` — i.e. it *skips*
every line whose trimmed text is non-empty and only processes blank lines
(which then fail the 10-column check).  The embedding reproduces this
exactly. -/

namespace MecabOov

/-- `CategoryType` (dictionary_lib/category_type.rs). -/
inductive CategoryType where
  | DEFAULT | SPACE | KANJI | SYMBOL | NUMERIC | ALPHA | HIRAGANA | KATAKANA
  | KANJINUMERIC | GREEK | CYRILLIC | USER1 | USER2 | USER3 | USER4 | NOOOVBOW
deriving DecidableEq, Repr

/-- `CategoryType::from_str` (category_type.rs lines 32-55); `none` models
the `CategoryTypeKeyErr` result. -/
def categoryTypeFromStr (key : String) : Option CategoryType :=
  match key with
  | "DEFAULT" => some CategoryType.DEFAULT
  | "SPACE" => some CategoryType.SPACE
  | "KANJI" => some CategoryType.KANJI
  | "SYMBOL" => some CategoryType.SYMBOL
  | "NUMERIC" => some CategoryType.NUMERIC
  | "ALPHA" => some CategoryType.ALPHA
  | "HIRAGANA" => some CategoryType.HIRAGANA
  | "KATAKANA" => some CategoryType.KATAKANA
  | "KANJINUMERIC" => some CategoryType.KANJINUMERIC
  | "GREEK" => some CategoryType.GREEK
  | "CYRILLIC" => some CategoryType.CYRILLIC
  | "USER1" => some CategoryType.USER1
  | "USER2" => some CategoryType.USER2
  | "USER3" => some CategoryType.USER3
  | "USER4" => some CategoryType.USER4
  | "NOOOVBOW" => some CategoryType.NOOOVBOW
  | _ => none

/-- One OOV template entry (struct `Oov`). -/
structure Oov where
  leftId : Nat
  rightId : Nat
  cost : Int
  posId : Option Nat
deriving DecidableEq, Repr

/-- Error variants of `MecabOovPluginSetupErr` reachable from
`read_oov_from_reader`. -/
inductive MecabOovErr where
  | invalidUnkFormatErr (line : Nat) : MecabOovErr
  | invalidTypeErr (line : Nat) (key : String) : MecabOovErr
  | notDefinedErr (line : Nat) (key : String) : MecabOovErr
  | parseIntError : MecabOovErr
deriving DecidableEq, Repr

/-- Rust `str::trim`: drop whitespace from both ends (structural version,
so that concrete inputs evaluate definitionally). -/
def rustTrim (s : String) : String :=
  String.mk (((s.toList.dropWhile Char.isWhitespace).reverse.dropWhile
    Char.isWhitespace).reverse)

/-- `List Char` splitter underlying `str::split(',')`: splitting the empty
string yields one empty field, as in Rust. -/
def splitCommaChars : List Char → List (List Char)
  | [] => [[]]
  | c :: rest =>
    let r := splitCommaChars rest
    if c = ',' then [] :: r
    else
      match r with
      | h :: t => (c :: h) :: t
      | [] => [[c]]

/-- Rust `str::split(',').collect::<Vec<_>>()`. -/
def splitComma (s : String) : List String :=
  (splitCommaChars s.toList).map String.mk

/-- Value of a decimal digit. -/
def digitVal (c : Char) : Option Nat :=
  if '0' ≤ c ∧ c ≤ '9' then some (c.toNat - 48) else none

/-- Accumulate decimal digits. -/
def parseNatAux : List Char → Nat → Option Nat
  | [], acc => some acc
  | c :: rest, acc => (digitVal c).bind fun d => parseNatAux rest (acc * 10 + d)

/-- Parse a non-empty all-digit string. -/
def parseNatDigits (l : List Char) : Option Nat :=
  if l = [] then none else parseNatAux l 0

/-- Rust `u32::from_str` on the digit-only strings exercised here (`none`
models `ParseIntError`; the optional leading `+` sign Rust also accepts
never occurs in the inputs considered). -/
def parseU32 (s : String) : Option Nat :=
  (parseNatDigits s.toList).bind fun n => if n < 4294967296 then some n else none

/-- Rust `i32::from_str` (digits with an optional leading minus sign). -/
def parseI32 (s : String) : Option Int :=
  match s.toList with
  | '-' :: rest =>
    (parseNatDigits rest).bind fun n =>
      if n ≤ 2147483648 then some (-(n : Int)) else none
  | l => (parseNatDigits l).bind fun n => if n < 2147483648 then some (n : Int) else none

/-- `oovs_list.get_mut(&t).push(oov)` or `oovs_list.insert(t, vec![oov])`:
the `HashMap<CategoryType, Vec<Oov>>` is modelled as an association list. -/
def upsert (acc : List (CategoryType × List Oov)) (t : CategoryType) (oov : Oov) :
    List (CategoryType × List Oov) :=
  match acc with
  | [] => [(t, [oov])]
  | (t', oovs) :: rest =>
    if t' = t then (t', oovs ++ [oov]) :: rest else (t', oovs) :: upsert rest t oov

/-- The line loop of `MecabOovPlugin::read_oov_from_reader`
(mecab_oov_plugin.rs lines 150-195): `i` is the 1-based line number.
Note the source guard `if !line.is_empty() { continue; }`: a non-empty
trimmed line is skipped, a blank line falls through to the column check. -/
def readOovLines (categories : List CategoryType) (posOf : List String → Option Nat) :
    Nat → List String → List (CategoryType × List Oov) →
    Except MecabOovErr (List (CategoryType × List Oov))
  | _, [], acc => Except.ok acc
  | i, rawLine :: rest, acc =>
    let line := rustTrim rawLine
    if ¬ (line = "") then
      readOovLines categories posOf (i + 1) rest acc
    else
      let cols := splitComma line
      if cols.length < 10 then
        Except.error (MecabOovErr.invalidUnkFormatErr i)
      else
        match categoryTypeFromStr (cols.getD 0 "") with
        | none => Except.error (MecabOovErr.invalidTypeErr i (cols.getD 0 ""))
        | some t =>
          if t ∈ categories then
            match parseU32 (cols.getD 1 ""), parseU32 (cols.getD 2 ""),
                parseI32 (cols.getD 3 "") with
            | some l, some r, some c =>
              readOovLines categories posOf (i + 1) rest
                (upsert acc t ⟨l, r, c, posOf ((cols.drop 4).take 6)⟩)
            | _, _, _ => Except.error MecabOovErr.parseIntError
          else
            Except.error (MecabOovErr.notDefinedErr i (cols.getD 0 ""))

/-- `MecabOovPlugin::read_oov_from_reader`, starting at line number 1 with
an empty map. `posOf` abstracts `grammar.get_part_of_speech_id(&cols[4..10])`. -/
def readOovFromReader (lines : List String) (categories : List CategoryType)
    (posOf : List String → Option Nat) :
    Except MecabOovErr (List (CategoryType × List Oov)) :=
  readOovLines categories posOf 1 lines []

end MecabOov

/-- C4: the claim states that a well-formed `unk.def` input (each non-blank
line a CSV record with a declared category) is read successfully with one
template entry per line.  The code disagrees: its guard
`if !line.is_empty() { continue; }` skips every non-blank line, so the
well-formed record `DEFAULT,1,2,3000,a,b,c,d,e,f` (10 columns, category
declared) contributes nothing and the result is the empty map; a blank line,
the only kind processed, fails the column check with invalid-format. -/
theorem mecabOov_c4_wellformed_line_contributes_nothing :
    MecabOov.readOovFromReader ["DEFAULT,1,2,3000,a,b,c,d,e,f"]
        [MecabOov.CategoryType.DEFAULT] (fun _ => some 0) = Except.ok []
      ∧ (MecabOov.splitComma
          (MecabOov.rustTrim "DEFAULT,1,2,3000,a,b,c,d,e,f")).length = 10
      ∧ MecabOov.readOovFromReader [""] [MecabOov.CategoryType.DEFAULT]
          (fun _ => some 0)
          = Except.error (MecabOov.MecabOovErr.invalidUnkFormatErr 1) := by
  refine ⟨rfl, rfl, rfl⟩

/-! ## §C10 — Word-info records (`dictionary_lib/word_info_list.rs`)

`WordInfoList::get_word_info` parses the record of a word id out of the raw
byte blob and then resolves the dictionary form: it recurses into
`get_word_info(dictionary_form_word_id)` only when that stored id is
non-negative and different from the queried id, and otherwise uses the
word's own surface.  Bytes are modelled as `List Nat` (each < 256), strings
as their lists of UTF-16 code units (the source decodes the same units with
`UTF_16LE.decode`), and the recursion carries explicit fuel; every
out-of-bounds read (a Rust slice panic) is `none`. -/

namespace WordInfoList

/-- Read one byte. -/
def readU8 (bytes : List Nat) (i : Nat) : Option Nat := bytes.get? i

/-- Read a little-endian `u16`. -/
def readU16 (bytes : List Nat) (i : Nat) : Option Nat := do
  let a ← bytes.get? i
  let b ← bytes.get? (i + 1)
  pure (a + 256 * b)

/-- Read a little-endian `u32`. -/
def readU32 (bytes : List Nat) (i : Nat) : Option Nat := do
  let a ← bytes.get? i
  let b ← bytes.get? (i + 1)
  let c ← bytes.get? (i + 2)
  let d ← bytes.get? (i + 3)
  pure (a + 256 * b + 65536 * c + 16777216 * d)

/-- Reinterpret a `u16` bit pattern as `i16` (the source's `as i16`). -/
def asI16 (n : Nat) : Int := if n < 32768 then (n : Int) else (n : Int) - 65536

/-- Reinterpret a `u32` bit pattern as `i32` (the source's `read_i32`). -/
def asI32 (n : Nat) : Int :=
  if n < 2147483648 then (n : Int) else (n : Int) - 4294967296

/-- `WordInfoList::buffer_to_string_length` (word_info_list.rs lines 86-93):
one length byte, or two when the first has its high bit set. -/
def bufferToStringLength (bytes : List Nat) (i : Nat) : Option (Nat × Nat) := do
  let len ← bytes.get? i
  if len < 128 then
    pure (len, i + 1)
  else do
    let low ← bytes.get? (i + 1)
    pure (((len % 128) * 256) + low, i + 2)

/-- `WordInfoList::buffer_to_string` (lines 94-99), kept as the list of
UTF-16LE code units that the source hands to `UTF_16LE.decode`. -/
def bufferToString (bytes : List Nat) (i : Nat) : Option (List Nat × Nat) := do
  let (len, off) ← bufferToStringLength bytes i
  let units ← (List.range len).mapM fun k => readU16 bytes (off + 2 * k)
  pure (units, off + 2 * len)

/-- `WordInfoList::buffer_to_int_array` (lines 100-110). -/
def bufferToIntArray (bytes : List Nat) (i : Nat) : Option (List Int × Nat) := do
  let len ← bytes.get? i
  let vals ← (List.range len).mapM fun k => (readU32 bytes (i + 1 + 4 * k)).map asI32
  pure (vals, i + 1 + 4 * len)

/-- The record fields of `WordInfo` (dictionary_lib/word_info.rs), with
strings as UTF-16 code-unit lists. -/
structure WordInfo where
  surface : List Nat
  headWordLength : Nat
  posId : Int
  normalizedForm : List Nat
  dictionaryFormWordId : Int
  dictionaryForm : List Nat
  readingForm : List Nat
  aUnitSplit : List Int
  bUnitSplit : List Int
  wordStructure : List Int
deriving DecidableEq, Repr

/-- All fields of one parsed record except the resolved dictionary form
(word_info_list.rs lines 29-58, including the empty-string defaulting of the
normalized and reading forms). -/
structure RawRecord where
  surface : List Nat
  headWordLength : Nat
  posId : Int
  normalizedForm : List Nat
  dictionaryFormWordId : Int
  readingForm : List Nat
  aUnitSplit : List Int
  bUnitSplit : List Int
  wordStructure : List Int
deriving DecidableEq, Repr

/-- `WordInfoList::word_id_to_offset` (lines 81-85). -/
def wordIdToOffset (bytes : List Nat) (wordId : Nat) : Option Nat :=
  readU32 bytes (4 * wordId)

/-- The sequential field parsing of `WordInfoList::get_word_info`
(lines 29-58). `self.offset` is `origin`; the source's
`offset - self.offset` is a `usize` subtraction whose underflow (a panic in
a debug build) is modelled as `none`. -/
def parseRecord (bytes : List Nat) (origin : Nat) (wordId : Nat) : Option RawRecord := do
  let absOffset ← wordIdToOffset bytes wordId
  if absOffset < origin then none
  else do
    let off := absOffset - origin
    let (surface, off) ← bufferToString bytes off
    let (headWordLength, off) ← bufferToStringLength bytes off
    let posIdRaw ← readU16 bytes off
    let off := off + 2
    let (normalizedForm, off) ← bufferToString bytes off
    let normalizedForm := if normalizedForm.isEmpty then surface else normalizedForm
    let dfRaw ← readU32 bytes off
    let off := off + 4
    let (readingForm, off) ← bufferToString bytes off
    let readingForm := if readingForm.isEmpty then surface else readingForm
    let (aUnitSplit, off) ← bufferToIntArray bytes off
    let (bUnitSplit, off) ← bufferToIntArray bytes off
    let (wordStructure, _off) ← bufferToIntArray bytes off
    pure {
      surface := surface
      headWordLength := headWordLength
      posId := asI16 posIdRaw
      normalizedForm := normalizedForm
      dictionaryFormWordId := asI32 dfRaw
      readingForm := readingForm
      aUnitSplit := aUnitSplit
      bUnitSplit := bUnitSplit
      wordStructure := wordStructure }

/-- Build the returned `WordInfo` from a parsed record and the resolved
dictionary form (lines 68-79). -/
def assemble (r : RawRecord) (dictionaryForm : List Nat) : WordInfo :=
  { surface := r.surface
    headWordLength := r.headWordLength
    posId := r.posId
    normalizedForm := r.normalizedForm
    dictionaryFormWordId := r.dictionaryFormWordId
    dictionaryForm := dictionaryForm
    readingForm := r.readingForm
    aUnitSplit := r.aUnitSplit
    bUnitSplit := r.bUnitSplit
    wordStructure := r.wordStructure }

/-- `WordInfoList::get_word_info` (lines 29-80) with explicit recursion
fuel; the recursive lookup happens exactly when the stored dictionary-form
word id is non-negative and differs from the queried id (lines 60-66). -/
def getWordInfo (bytes : List Nat) (origin : Nat) :
    Nat → Nat → Option WordInfo
  | _, 0 => none
  | wordId, fuel + 1 =>
    (parseRecord bytes origin wordId).bind fun r =>
      if 0 ≤ r.dictionaryFormWordId ∧ r.dictionaryFormWordId ≠ (wordId : Int) then
        (getWordInfo bytes origin r.dictionaryFormWordId.toNat fuel).map fun wi =>
          assemble r wi.surface
      else
        some (assemble r r.surface)

end WordInfoList

/-- C10: for every word-info byte blob and word id whose record parses, if
the stored dictionary-form word id is negative or equals the queried id
itself, `get_word_info` returns (with fuel 1 — i.e. with no recursion
budget, for any fuel) the record with `dictionary_form` equal to the word's
own surface; and the recursive lookup happens exactly in the remaining
case, a non-negative stored id different from the queried id. -/
theorem wordInfoList_c10_dictionary_form_guard
    (bytes : List Nat) (origin wordId fuel : Nat) (r : WordInfoList.RawRecord)
    (hp : WordInfoList.parseRecord bytes origin wordId = some r) :
    ((r.dictionaryFormWordId < 0 ∨ r.dictionaryFormWordId = (wordId : Int)) →
      WordInfoList.getWordInfo bytes origin wordId (fuel + 1)
          = some (WordInfoList.assemble r r.surface)
        ∧ (WordInfoList.assemble r r.surface).dictionaryForm
            = (WordInfoList.assemble r r.surface).surface)
    ∧ (0 ≤ r.dictionaryFormWordId → r.dictionaryFormWordId ≠ (wordId : Int) →
      WordInfoList.getWordInfo bytes origin wordId (fuel + 1)
          = (WordInfoList.getWordInfo bytes origin
              r.dictionaryFormWordId.toNat fuel).map
              fun wi => WordInfoList.assemble r wi.surface) := by
  constructor
  · intro h
    have hc : ¬ (0 ≤ r.dictionaryFormWordId
        ∧ r.dictionaryFormWordId ≠ (wordId : Int)) := by
      rcases h with h | h
      · intro hc
        omega
      · intro hc
        exact hc.2 h
    constructor
    · simp [WordInfoList.getWordInfo, hp, hc]
    · rfl
  · intro h1 h2
    simp [WordInfoList.getWordInfo, hp, h1, h2]

/-- Witness for C10: a concrete one-record blob (word id 0, surface the
single UTF-16 unit 97, stored dictionary-form word id −1) where
`get_word_info` with fuel 1 already answers, with `dictionary_form` equal
to the surface. -/
theorem wordInfoList_c10_dictionary_form_guard_witness :
    WordInfoList.getWordInfo
        [4, 0, 0, 0, 1, 97, 0, 1, 0, 0, 0, 255, 255, 255, 255, 0, 0, 0, 0] 0 0 1
        = some (WordInfoList.assemble
            { surface := [97], headWordLength := 1, posId := 0,
              normalizedForm := [97], dictionaryFormWordId := -1,
              readingForm := [97], aUnitSplit := [], bUnitSplit := [],
              wordStructure := [] } [97]) := by
  exact (wordInfoList_c10_dictionary_form_guard
    [4, 0, 0, 0, 1, 97, 0, 1, 0, 0, 0, 255, 255, 255, 255, 0, 0, 0, 0] 0 0 0
    { surface := [97], headWordLength := 1, posId := 0,
      normalizedForm := [97], dictionaryFormWordId := -1,
      readingForm := [97], aUnitSplit := [], bUnitSplit := [],
      wordStructure := [] } (by decide)).1 (Or.inl (by decide)) |>.1

/-! ## §C1 — Lattice and Viterbi search (`lattice.rs`, `lattice_node.rs`)

The lattice arena: nodes are identified by their creation index (the source
holds `Arc<Mutex<LatticeNode>>` aliases and compares the random `id` field;
two distinct nodes are distinct `Arc`s, so the creation index is the node
identity, with the BOS node at index 0).  `end_lists[e]` stores arena
indices.  `i32` arithmetic wraps via `wrapI32` exactly where the source
operates on `i32`. -/

namespace Lattice

/-- `LatticeNode` (lattice_node.rs): the fields the lattice algorithms in
`lattice.rs` read and write.  `best_previous_node` is the arena index of the
best predecessor.  The word-info related fields (`word_id`, `lexicon`,
`extra_word_info`, `is_defined`, `_is_oov`) play no role in claims C1/C9 and
are omitted. -/
structure LatticeNode where
  start : Nat
  endPos : Nat
  leftId : Nat
  rightId : Nat
  cost : Int
  totalCost : Int
  bestPreviousNode : Option Nat
  isConnectedToBos : Bool
deriving DecidableEq, Repr, Inhabited

/-- `LatticeNode::empty(left_id, right_id, cost)`. -/
def emptyNode (leftId rightId : Nat) (cost : Int) : LatticeNode :=
  { start := 0, endPos := 0, leftId := leftId, rightId := rightId, cost := cost,
    totalCost := 0, bestPreviousNode := none, isConnectedToBos := false }

/-- The BOS node placed in `end_lists[0]` by `Lattice::new`: built from the
grammar's BOS parameters, which are `[0, 0, 0]` (grammar.rs line 56), with
`is_connected_to_bos` set. -/
def bosNode : LatticeNode :=
  { emptyNode 0 0 0 with isConnectedToBos := true }

/-- The lattice state (lattice.rs): `size`, the node arena, per-end-position
index lists, and the EOS node created by `resize`. -/
structure Lattice where
  size : Nat
  arena : List LatticeNode
  endLists : List (List Nat)
  eosNode : LatticeNode
deriving Repr

/-- `Lattice::new` followed by `resize(size)` — the initialization performed
by `Tokenizer::build_lattice`: BOS alone in `end_lists[0]`, `size` empty
lists appended, EOS (parameters `[0, 0, 0]`) spanning `[size, size]`. -/
def latticeNew (size : Nat) : Lattice :=
  { size := size
    arena := [bosNode]
    endLists := [[0]] ++ List.replicate size []
    eosNode := { emptyNode 0 0 0 with start := size, endPos := size } }

/-- The loop of `Lattice::connect_node` (lattice.rs lines 73-89) over the
predecessor list, carried state `(total_cost, best_previous_node)`,
initially `(i32::max_value(), None)`. -/
def connectScan (connect : Nat → Nat → Int) (arena : List LatticeNode)
    (rNode : LatticeNode) : List Nat → Int × Option Nat → Int × Option Nat
  | [], st => st
  | lIdx :: rest, (tc, bp) =>
    let lNode := arena.getD lIdx default
    if lNode.isConnectedToBos = false then
      connectScan connect arena rNode rest (tc, bp)
    else
      let connectCost := connect lNode.rightId rNode.leftId
      if connectCost = Grammar.INHIBITED_CONNECTION then
        connectScan connect arena rNode rest (tc, bp)
      else
        let cost := wrapI32 (lNode.totalCost + connectCost)
        if cost < tc then
          connectScan connect arena rNode rest (cost, some lIdx)
        else
          connectScan connect arena rNode rest (tc, bp)

/-- `Lattice::connect_node` (lattice.rs lines 69-92): scan `end_lists[start]`,
set the connected flag from the found back-pointer, then add the node's own
cost to `total_cost`. -/
def connectNode (connect : Nat → Nat → Int) (arena : List LatticeNode)
    (endList : List Nat) (rNode : LatticeNode) : LatticeNode :=
  let st := connectScan connect arena rNode endList (2147483647, none)
  { rNode with
    totalCost := wrapI32 (st.1 + rNode.cost)
    bestPreviousNode := st.2
    isConnectedToBos := st.2.isSome }

/-- `Lattice::insert` (lattice.rs lines 59-65): fix the span, connect, then
push to `end_lists[end]`.  `end_lists[end].push` on an out-of-range `end`
(a Rust panic) is a no-op here; the claims only quantify over insertions
with `end ≤ size`, where the access is in bounds. -/
def insert (connect : Nat → Nat → Int) (lat : Lattice) (start endP : Nat)
    (node : LatticeNode) : Lattice :=
  let node := { node with start := start, endPos := endP }
  let node := connectNode connect lat.arena (lat.endLists.getD start []) node
  { lat with
    arena := lat.arena ++ [node]
    endLists := lat.endLists.set endP ((lat.endLists.getD endP []) ++ [lat.arena.length]) }

/-- `Lattice::has_previous_node`. -/
def hasPreviousNode (lat : Lattice) (index : Nat) : Bool :=
  !(lat.endLists.getD index []).isEmpty

/-- `Lattice::connect_eos_node`. -/
def connectEosNode (connect : Nat → Nat → Int) (lat : Lattice) : Lattice :=
  { lat with
    eosNode := connectNode connect lat.arena (lat.endLists.getD lat.size []) lat.eosNode }

/-- One candidate insertion: the data of `LatticeNode::new(lexicon, left_id,
right_id, cost, word_id)` plus the `(start, end)` passed to
`Lattice::insert` by `Tokenizer::build_lattice`. -/
structure Cand where
  start : Nat
  endPos : Nat
  leftId : Nat
  rightId : Nat
  cost : Int
deriving DecidableEq, Repr, Inhabited

/-- The node `LatticeNode::new` builds for a candidate (word-info fields
omitted, see `LatticeNode`). -/
def candNode (c : Cand) : LatticeNode := emptyNode c.leftId c.rightId c.cost

/-- Insert a sequence of candidate nodes in order. -/
def insertAll (connect : Nat → Nat → Int) (lat : Lattice) (cands : List Cand) :
    Lattice :=
  cands.foldl (fun l c => insert connect l c.start c.endPos (candNode c)) lat

/-- The lattice `Tokenizer::build_lattice` hands to `get_best_path`:
initialization, the candidate insertions in program order, then
`connect_eos_node`. -/
def buildLattice (connect : Nat → Nat → Int) (size : Nat) (cands : List Cand) :
    Lattice :=
  connectEosNode connect (insertAll connect (latticeNew size) cands)

/-- The back-pointer walk of `Lattice::get_best_path` (lattice.rs lines
93-112), producing arena indices from the EOS side backwards; the loop stops
at the node whose identity equals `end_lists[0][0]` — the BOS, arena index 0.
Fuel bounds the loop (the source relies on back-pointers reaching BOS). -/
def walk (arena : List LatticeNode) : Option Nat → Nat → List Nat
  | none, _ => []
  | some _, 0 => []
  | some i, fuel + 1 =>
    if i = 0 then []
    else i :: walk arena (arena.getD i default).bestPreviousNode fuel

/-- `Lattice::get_best_path`: walk back from the EOS back-pointer, then
reverse. -/
def getBestPath (lat : Lattice) : List Nat :=
  (walk lat.arena lat.eosNode.bestPreviousNode lat.arena.length).reverse

/-! ### Path semantics

A BOS-to-EOS path of the lattice is written by its list `mid` of interior
arena indices; predecessor adjacency is membership in `end_lists[r.start]`,
and a traversable connection is one whose cost is not the inhibited
sentinel, exactly the pairs `connect_node` considers. -/

/-- `lIdx` can be the predecessor of node `r` in the lattice: it lies in
`end_lists[r.start]` and the connection is not inhibited. -/
def adjacentOk (lat : Lattice) (connect : Nat → Nat → Int) (lIdx : Nat)
    (r : LatticeNode) : Prop :=
  lIdx ∈ lat.endLists.getD r.start []
    ∧ connect (lat.arena.getD lIdx default).rightId r.leftId
        ≠ Grammar.INHIBITED_CONNECTION

/-- The interior indices `mid` form a path from BOS: each is a proper
(non-BOS, in-arena) node and consecutive entries (starting from BOS, index
0) are adjacent. -/
def ValidPathTo (lat : Lattice) (connect : Nat → Nat → Int) (mid : List Nat) : Prop :=
  (∀ j ∈ mid, j ≠ 0 ∧ j < lat.arena.length)
    ∧ List.Chain (fun i j => adjacentOk lat connect i (lat.arena.getD j default)) 0 mid

/-- `mid` is a BOS-to-EOS path: a path from BOS whose last node (BOS itself
when `mid = []`) can precede the EOS node. -/
def ValidEosPath (lat : Lattice) (connect : Nat → Nat → Int) (mid : List Nat) : Prop :=
  ValidPathTo lat connect mid
    ∧ adjacentOk lat connect (mid.getLastD 0) lat.eosNode

/-- Sum of the node costs of a node list. -/
def costSum (ns : List LatticeNode) : Int := (ns.map (fun n => n.cost)).sum

/-- Sum of the connection costs between consecutive nodes. -/
def connectSum (connect : Nat → Nat → Int) : List LatticeNode → Int
  | [] => 0
  | [_] => 0
  | a :: b :: rest => connect a.rightId b.leftId + connectSum connect (b :: rest)

/-- Sum of node costs plus sum of connection costs of a node list. -/
def pathCost (connect : Nat → Nat → Int) (ns : List LatticeNode) : Int :=
  costSum ns + connectSum connect ns

/-- The nodes of an interior index list. -/
def nodesOf (lat : Lattice) (mid : List Nat) : List LatticeNode :=
  mid.map (fun i => lat.arena.getD i default)

/-- The full node sequence BOS, interior nodes, EOS of a BOS-to-EOS path. -/
def fullNodes (lat : Lattice) (mid : List Nat) : List LatticeNode :=
  lat.arena.getD 0 default :: (nodesOf lat mid ++ [lat.eosNode])

/-- The cost of a BOS-to-EOS path: sum of node costs plus sum of connection
costs over the full node sequence. -/
def eosPathCost (lat : Lattice) (connect : Nat → Nat → Int) (mid : List Nat) : Int :=
  pathCost connect (fullNodes lat mid)

/-- The eligible predecessors `connect_node` minimizes over for a node `n`:
the members of `end_lists[n.start]` that are connected to BOS and whose
connection to `n` is not inhibited. -/
def eligiblePreds (lat : Lattice) (connect : Nat → Nat → Int) (n : LatticeNode) :
    List Nat :=
  (lat.endLists.getD n.start []).filter fun j =>
    (lat.arena.getD j default).isConnectedToBos
      && decide (connect (lat.arena.getD j default).rightId n.leftId
          ≠ Grammar.INHIBITED_CONNECTION)

/-- The candidate path cost through predecessor `j` for node `n`:
`pred.total_cost + connect_cost + n.cost`. -/
def predCost (lat : Lattice) (connect : Nat → Nat → Int) (j : Nat)
    (n : LatticeNode) : Int :=
  (lat.arena.getD j default).totalCost
    + connect (lat.arena.getD j default).rightId n.leftId + n.cost

/-- The per-node statement of claim C1's second half for a node `n` of the
lattice: the connected flag is set iff an eligible predecessor exists, and
then `total_cost` is the minimum over eligible predecessors of
`pred.total_cost + connect_cost` plus the node's own cost, realized by the
stored back-pointer. -/
def LocalOpt (lat : Lattice) (connect : Nat → Nat → Int) (n : LatticeNode) : Prop :=
  (n.isConnectedToBos = true ↔ eligiblePreds lat connect n ≠ [])
    ∧ (n.isConnectedToBos = false → n.bestPreviousNode = none)
    ∧ (n.isConnectedToBos = true →
        ∃ j ∈ eligiblePreds lat connect n,
          n.bestPreviousNode = some j
            ∧ n.totalCost = predCost lat connect j n
            ∧ ∀ k ∈ eligiblePreds lat connect n,
                n.totalCost ≤ predCost lat connect k n)

end Lattice

/-! ## §C9 — Word-boundary check (`utf8_input_text.rs`, `tokenizer.rs`)

`Utf8InputText::can_bow` first checks UTF-8 character alignment of the byte
index (`(bytes[index] & 0xC0) != 0x80`) and only then (Rust `&&`
short-circuits) consults the per-character `can_bow_list`;
`Tokenizer::build_lattice` skips lattice fill at any position where
`can_bow` is false. -/

namespace Utf8InputText

/-- The fields of `Utf8InputText` that `can_bow` reads. -/
structure Utf8InputText where
  bytes : List Nat
  byteIndexes : List Nat
  canBowList : List Bool
deriving Repr

/-- `Utf8InputText::get_offset_text_length` (utf8_input_text.rs line 65-67):
`byte_indexes[index]`, the modified-character index of byte `index`.
The `getD` default stands for the source's in-bounds index. -/
def getOffsetTextLength (t : Utf8InputText) (index : Nat) : Nat :=
  t.byteIndexes.getD index 0

/-- `Utf8InputText::is_char_alignment` (lines 68-70):
`(bytes[index] & 0xC0) != 0x80`. -/
def isCharAlignment (t : Utf8InputText) (index : Nat) : Bool :=
  !((t.bytes.getD index 0) &&& 0xC0 == 0x80)

/-- `Utf8InputText::can_bow` (lines 74-76). -/
def canBow (t : Utf8InputText) (idx : Nat) : Bool :=
  isCharAlignment t idx && t.canBowList.getD (getOffsetTextLength t idx) false

/-- The guarded body of the per-position loop of `Tokenizer::build_lattice`
(tokenizer.rs lines 63-66): when `can_bow(i)` fails (or position `i` has no
ending nodes), the position is skipped and nothing is inserted; otherwise
the position's candidate nodes are inserted.  The candidate list `cands`
abstracts the lexicon lookups and OOV provider output at `i`. -/
def fillStep (connect : Nat → Nat → Int) (t : Utf8InputText)
    (cands : List Lattice.Cand) (lat : Lattice.Lattice) (i : Nat) :
    Lattice.Lattice :=
  if ¬ (canBow t i) ∨ ¬ (Lattice.hasPreviousNode lat i) then lat
  else Lattice.insertAll connect lat cands

end Utf8InputText

/-- C9: at every byte index of the modified buffer holding a UTF-8
continuation byte (`bytes[i] & 0xC0 == 0x80`, so `i` is not the first byte
of a character), `can_bow` returns false — short-circuiting before reading
`can_bow_list` — and consequently the lattice-fill step of
`Tokenizer::build_lattice` at that position inserts nothing: no candidate
word starts in the middle of a character's byte sequence. -/
theorem utf8InputText_c9_continuation_byte_cannot_bow
    (t : Utf8InputText.Utf8InputText) (i : Nat)
    (h : (t.bytes.getD i 0) &&& 0xC0 = 0x80) :
    Utf8InputText.canBow t i = false
      ∧ ∀ (connect : Nat → Nat → Int) (cands : List Lattice.Cand)
          (lat : Lattice.Lattice),
          Utf8InputText.fillStep connect t cands lat i = lat := by
  have halign : Utf8InputText.isCharAlignment t i = false := by
    unfold Utf8InputText.isCharAlignment
    rw [h]
    rfl
  have hbow : Utf8InputText.canBow t i = false := by
    unfold Utf8InputText.canBow
    simp [halign]
  refine ⟨hbow, ?_⟩
  intro connect cands lat
  unfold Utf8InputText.fillStep
  rw [if_pos]
  left
  simp [hbow]

/-- Witness for C9: a two-byte buffer whose second byte `0x81` is a
continuation byte; `can_bow 1` is false and the fill step at 1 leaves any
lattice unchanged. -/
theorem utf8InputText_c9_continuation_byte_cannot_bow_witness :
    Utf8InputText.canBow
        { bytes := [0xC3, 0x81], byteIndexes := [0, 0, 1],
          canBowList := [true] } 1 = false
      ∧ Utf8InputText.fillStep (fun _ _ => 0)
          { bytes := [0xC3, 0x81], byteIndexes := [0, 0, 1],
            canBowList := [true] }
          [] (Lattice.latticeNew 2) 1 = Lattice.latticeNew 2 := by
  have h := utf8InputText_c9_continuation_byte_cannot_bow
    { bytes := [0xC3, 0x81], byteIndexes := [0, 0, 1], canBowList := [true] } 1
    (by decide)
  exact ⟨h.1, h.2 (fun _ _ => 0) [] (Lattice.latticeNew 2)⟩

/-! ## §C5 — User-dictionary cost calculation
(`dictionary_lib/double_array_lexicon.rs`, `morpheme_list.rs`)

`DoubleArrayLexicon::calculate_cost` re-costs every word whose stored cost
is the `i16` minimum: it tokenizes the word's surface and, when a result
exists, sets `cost = ms.get_internal_cost() + USER_DICT_COST_PER_MORPH *
ms.len() as i16` in `i16` arithmetic, then clamps.
`MorphemeList::get_internal_cost` is
`(path.last().get_path_cost() - path[0].get_path_cost()) as i16`, where
`LatticeNode::get_path_cost` returns the node's own `cost` field
(lattice_node.rs lines 97-99) — not the accumulated `total_cost`. -/

namespace MorphemeList

/-- `LatticeNode::get_path_cost` (lattice_node.rs lines 97-99): the node
cost field. -/
def getPathCost (n : Lattice.LatticeNode) : Int := n.cost

/-- `MorphemeList::get_internal_cost` (morpheme_list.rs lines 46-49):
last path node's `get_path_cost` minus the first's, `i32` subtraction cast
`as i16`; the `unwrap` panic on an empty path is `none`. -/
def getInternalCost (path : List Lattice.LatticeNode) : Option Int :=
  match path with
  | [] => none
  | n :: rest =>
    some (wrapI16 (wrapI32 (getPathCost (List.getLastD rest n) - getPathCost n)))

end MorphemeList

namespace DoubleArrayLexicon

/-- One entry of `WordParameterList`: `(left_id, right_id, cost)` as `i16`
values. -/
structure WordParam where
  leftId : Int
  rightId : Int
  cost : Int
deriving DecidableEq, Repr, Inhabited

/-- `SIGNED_SHORT_MIN`. -/
def SIGNED_SHORT_MIN : Int := -32768

/-- `SIGNED_SHORT_MAX`. -/
def SIGNED_SHORT_MAX : Int := 32767

/-- `USER_DICT_COST_PER_MORPH`. -/
def USER_DICT_COST_PER_MORPH : Int := -20

/-- The value `calculate_cost` stores for a re-costed word, given the
internal cost and the morpheme count: `internal + USER_DICT_COST_PER_MORPH
* (len as i16)` in wrapping `i16` arithmetic, then clamped (lines 118-120).
-/
def rustNewCost (internal : Int) (len : Nat) : Int :=
  max (min (wrapI16 (internal + wrapI16 (USER_DICT_COST_PER_MORPH * wrapI16 (len : Int))))
    SIGNED_SHORT_MAX) SIGNED_SHORT_MIN

/-- The body of one iteration of `DoubleArrayLexicon::calculate_cost`
(double_array_lexicon.rs lines 111-123) at `word_id`: skip unless the
stored cost is the sentinel; tokenize the surface (`tokenize` abstracts the
tokenizer bound to the already-loaded lexicons, `surfaceOf` the stored
surface `get_word_info(word_id).surface`); on a result, compute the new
cost in wrapping `i16` arithmetic, clamp, and store it.  `none` models the
panics (out-of-range index; `get_internal_cost` on an empty path). -/
def calculateCostStep (tokenize : List Nat → Option (List Lattice.LatticeNode))
    (surfaceOf : Nat → List Nat) (ps : List WordParam) (wordId : Nat) :
    Option (List WordParam) :=
  match ps.get? wordId with
  | none => none
  | some p =>
    if p.cost ≠ SIGNED_SHORT_MIN then some ps
    else
      match tokenize (surfaceOf wordId) with
      | none => some ps
      | some ms =>
        match MorphemeList.getInternalCost ms with
        | none => none
        | some internal =>
          let cost := wrapI16 (internal
            + wrapI16 (USER_DICT_COST_PER_MORPH * wrapI16 (ms.length : Int)))
          let cost := min cost SIGNED_SHORT_MAX
          let cost := max cost SIGNED_SHORT_MIN
          some (ps.set wordId { p with cost := cost })

/-- The loop of `calculate_cost` over word ids `0 .. n`. -/
def calcFold (tokenize : List Nat → Option (List Lattice.LatticeNode))
    (surfaceOf : Nat → List Nat) (params : List WordParam) (n : Nat) :
    Option (List WordParam) :=
  (List.range n).foldl
    (fun st wordId => st.bind fun ps => calculateCostStep tokenize surfaceOf ps wordId)
    (some params)

/-- `DoubleArrayLexicon::calculate_cost` (lines 110-124): the loop runs over
`0 .. word_params.get_size()`. -/
def calculateCost (tokenize : List Nat → Option (List Lattice.LatticeNode))
    (surfaceOf : Nat → List Nat) (params : List WordParam) :
    Option (List WordParam) :=
  calcFold tokenize surfaceOf params params.length

/-- Claim C5's stated formula for the new cost of a re-costed word: the
best path's total cost for its surface plus −20 per morpheme, computed in
exact integer arithmetic and clamped to `i16`. -/
def claimNewCost (path : List Lattice.LatticeNode) : Int :=
  clampI16 ((path.getLastD default).totalCost + (-20) * (path.length : Int))

/-- What one loop iteration of `calculate_cost` actually does to the
parameter entry of `wordId` (`p` before, `q` after). -/
def RecostSpec (tokenize : List Nat → Option (List Lattice.LatticeNode))
    (surfaceOf : Nat → List Nat) (wordId : Nat) (p q : WordParam) : Prop :=
  (p.cost ≠ SIGNED_SHORT_MIN → q = p)
    ∧ (p.cost = SIGNED_SHORT_MIN → tokenize (surfaceOf wordId) = none → q = p)
    ∧ (p.cost = SIGNED_SHORT_MIN → ∀ ms, tokenize (surfaceOf wordId) = some ms →
        ∃ internal, MorphemeList.getInternalCost ms = some internal
          ∧ q = { p with cost := rustNewCost internal ms.length })

end DoubleArrayLexicon

namespace DoubleArrayLexicon

theorem calcFold_succ (tokenize : List Nat → Option (List Lattice.LatticeNode))
    (surfaceOf : Nat → List Nat) (params : List WordParam) (n : Nat) :
    calcFold tokenize surfaceOf params (n + 1)
      = (calcFold tokenize surfaceOf params n).bind
          (fun ps => calculateCostStep tokenize surfaceOf ps n) := by
  unfold calcFold
  rw [List.range_succ, List.foldl_append]
  rfl

theorem calculateCostStep_spec (tokenize : List Nat → Option (List Lattice.LatticeNode))
    (surfaceOf : Nat → List Nat) (ps : List WordParam) (w : Nat) (ps' : List WordParam)
    (h : calculateCostStep tokenize surfaceOf ps w = some ps') :
    ps'.length = ps.length
      ∧ (∀ k, k ≠ w → ps'.getD k default = ps.getD k default)
      ∧ (∀ p, ps.get? w = some p → RecostSpec tokenize surfaceOf w p (ps'.getD w default)) := by
  unfold calculateCostStep at h
  cases hg : ps.get? w with
  | none => rw [hg] at h; exact absurd h (by simp)
  | some p =>
    rw [hg] at h
    dsimp only at h
    have hw : w < ps.length := by
      have := List.get?_eq_some.mp hg
      exact this.1
    have hgetD : ps.getD w default = p := by
      rw [List.getD_eq_getElem?_getD, ← List.get?_eq_getElem?, hg]
      rfl
    by_cases hc : p.cost ≠ SIGNED_SHORT_MIN
    · rw [if_pos hc] at h
      have hps : ps' = ps := by injection h with h; exact h.symm
      subst hps
      refine ⟨rfl, fun k _ => rfl, fun q hq => ?_⟩
      have hq' : q = p := by injection hq with hq; exact hq.symm
      subst hq'
      refine ⟨fun _ => by rw [hgetD], fun hmin _ => absurd hmin hc, fun hmin => absurd hmin hc⟩
    · rw [if_neg hc] at h
      push_neg at hc
      cases ht : tokenize (surfaceOf w) with
      | none =>
        rw [ht] at h
        dsimp only at h
        have hps : ps' = ps := by injection h with h; exact h.symm
        subst hps
        refine ⟨rfl, fun k _ => rfl, fun q hq => ?_⟩
        have hq' : q = p := by injection hq with hq; exact hq.symm
        subst hq'
        refine ⟨fun hne => absurd hc hne, fun _ _ => by rw [hgetD], fun _ ms hms => ?_⟩
        rw [ht] at hms
        exact absurd hms (by simp)
      | some ms =>
        rw [ht] at h
        dsimp only at h
        cases hi : MorphemeList.getInternalCost ms with
        | none => rw [hi] at h; exact absurd h (by simp)
        | some internal =>
          rw [hi] at h
          dsimp only at h
          have hps : ps' = ps.set w { p with cost := rustNewCost internal ms.length } := by
            injection h with h
            exact h.symm
          subst hps
          refine ⟨List.length_set ps w _, fun k hk => ?_, ?_⟩
          · rw [List.getD_eq_getElem?_getD, List.getD_eq_getElem?_getD,
              List.getElem?_set_ne (fun he => hk he.symm)]
          · intro q hq
            have hq' : p = q := by injection hq
            subst hq'
            have hd : (ps.set w { p with cost := rustNewCost internal ms.length }).getD
                w default = { p with cost := rustNewCost internal ms.length } := by
              rw [List.getD_eq_getElem?_getD, List.getElem?_set_self hw]
              rfl
            rw [hd]
            refine ⟨fun hne => absurd hc hne, fun _ htn => ?_, fun _ ms' hms => ?_⟩
            · rw [ht] at htn
              exact absurd htn (by simp)
            · have hms' : ms' = ms := by
                rw [ht] at hms
                injection hms with hms
                exact hms.symm
              subst hms'
              exact ⟨internal, hi, rfl⟩

theorem calcFold_spec (tokenize : List Nat → Option (List Lattice.LatticeNode))
    (surfaceOf : Nat → List Nat) (params : List WordParam) :
    ∀ n out, calcFold tokenize surfaceOf params n = some out →
      out.length = params.length
        ∧ (∀ k, n ≤ k → out.getD k default = params.getD k default)
        ∧ (∀ k, k < n → k < params.length →
            RecostSpec tokenize surfaceOf k (params.getD k default)
              (out.getD k default)) := by
  intro n
  induction n with
  | zero =>
    intro out h
    have : out = params := by
      unfold calcFold at h
      rw [List.range_zero, List.foldl_nil] at h
      exact (Option.some.inj h).symm
    subst this
    exact ⟨rfl, fun _ _ => rfl, fun k hk _ => absurd hk (Nat.not_lt_zero k)⟩
  | succ n ih =>
    intro out h
    rw [calcFold_succ] at h
    cases hm : calcFold tokenize surfaceOf params n with
    | none =>
      rw [hm] at h
      exact absurd h (by simp)
    | some mid =>
      rw [hm] at h
      dsimp only [Option.bind] at h
      obtain ⟨hlen, huntouched, hat⟩ := ih mid hm
      obtain ⟨hlen', huntouched', hat'⟩ :=
        calculateCostStep_spec tokenize surfaceOf mid n out h
      refine ⟨hlen'.trans hlen, fun k hk => ?_, fun k hk hkp => ?_⟩
      · have hkn : k ≠ n := by omega
        rw [huntouched' k hkn, huntouched k (by omega)]
      · rcases Nat.lt_or_ge k n with hlt | hge
        · rw [huntouched' k (by omega)]
          exact hat k hlt hkp
        · have hkn : k = n := by omega
          subst hkn
          have hkmid : k < mid.length := by omega
          have hsome : mid.get? k = some (mid.getD k default) := by
            rw [List.get?_eq_getElem?, List.getElem?_eq_getElem hkmid,
              List.getD_eq_getElem?_getD, List.getElem?_eq_getElem hkmid]
            rfl
          have := hat' _ hsome
          rwa [huntouched k (le_refl k)] at this

end DoubleArrayLexicon

/-- A sample tokenization result: one morpheme whose node cost is 100 and
whose accumulated path cost (`total_cost`) is 150. -/
def c5SampleNode : Lattice.LatticeNode :=
  { start := 0
    endPos := 1
    leftId := 0
    rightId := 0
    cost := 100
    totalCost := 150
    bestPreviousNode := none
    isConnectedToBos := true }

/-- C5 counterexample: the claim computes the new cost of a re-costed word
as `clamp_i16(best path total cost + (−20)·morpheme count)`.  On a word
whose surface tokenizes to the single morpheme `c5SampleNode` (node cost
100, path total cost 150), the code stores −20 (because
`get_internal_cost` subtracts the first node's `cost` field from the
last's — identical for a one-node path — rather than using the path's
total cost), while the claim's formula gives 130. -/
theorem doubleArrayLexicon_c5_counterexample :
    DoubleArrayLexicon.calculateCost
        (fun _ => some [c5SampleNode])
        (fun _ => [])
        [{ leftId := 0, rightId := 0, cost := -32768 }]
        = some [{ leftId := 0, rightId := 0, cost := -20 }]
      ∧ DoubleArrayLexicon.claimNewCost [c5SampleNode] = 130
      ∧ ¬ ((-20 : Int) = 130) := by
  refine ⟨rfl, rfl, by decide⟩

/-- C5 (amended): during user-dictionary loading, `calculate_cost` leaves
every word whose stored cost differs from −32768 (and every sentinel word
whose surface fails to tokenize) unchanged, and sets every other word's
cost to `(last path node cost − first path node cost) as i16` plus
`−20 × (morpheme count as i16)`, computed in wrapping 16-bit arithmetic and
then clamped to the `i16` range (a no-op on the already-wrapped value). -/
theorem doubleArrayLexicon_c5_amended
    (tokenize : List Nat → Option (List Lattice.LatticeNode))
    (surfaceOf : Nat → List Nat) (params out : List DoubleArrayLexicon.WordParam)
    (h : DoubleArrayLexicon.calculateCost tokenize surfaceOf params = some out) :
    out.length = params.length
      ∧ ∀ wordId, wordId < params.length →
          DoubleArrayLexicon.RecostSpec tokenize surfaceOf wordId
            (params.getD wordId default) (out.getD wordId default) := by
  obtain ⟨hlen, _, hat⟩ :=
    DoubleArrayLexicon.calcFold_spec tokenize surfaceOf params params.length out h
  exact ⟨hlen, fun wordId hw => hat wordId hw hw⟩

/-- Witness for the amended C5 at a concrete input: a single sentinel-cost
word whose surface tokenizes to one morpheme of node cost 100 is re-costed
to −20. -/
theorem doubleArrayLexicon_c5_amended_witness :
    DoubleArrayLexicon.RecostSpec
      (fun _ => some [c5SampleNode])
      (fun _ => []) 0
      { leftId := 0, rightId := 0, cost := -32768 }
      { leftId := 0, rightId := 0, cost := -20 } := by
  have h := doubleArrayLexicon_c5_amended
    (fun _ => some [c5SampleNode])
    (fun _ => [])
    [{ leftId := 0, rightId := 0, cost := -32768 }]
    [{ leftId := 0, rightId := 0, cost := -20 }] rfl
  exact h.2 0 (by decide)

/-! ## §C7 — Input-text builder (`utf8_input_text_builder.rs`)

Characters are modelled by their code points (`Nat`); `len_utf8` is the
UTF-8 encoded length of a scalar value.  `UTF8InputTextBuilder` holds the
original text, the modified text and the parallel `text_offsets` table;
`replace` mirrors lines 34-74 of the source (range checks, end truncation,
the index filter for deletions, then the per-`i` set-or-insert loop), and
`build` derives the `offsets` and `byte_indexes` arrays of lines 84-118. -/

namespace UTF8InputTextBuilder

/-- `char::len_utf8` for a Unicode scalar value. -/
def lenUtf8 (c : Nat) : Nat :=
  if c < 0x80 then 1 else if c < 0x800 then 2 else if c < 0x10000 then 3 else 4

/-- The UTF-8 byte length of a text. -/
def bytesLen (text : List Nat) : Nat := (text.map lenUtf8).sum

/-- The builder state (`UTF8InputTextBuilder`). -/
structure Builder where
  originalText : List Nat
  modifiedText : List Nat
  textOffsets : List Nat
deriving DecidableEq, Repr

/-- `UTF8InputTextBuilder::new` (lines 26-33):
`text_offsets = (0..=chars).collect()`. -/
def newBuilder (text : List Nat) : Builder :=
  { originalText := text
    modifiedText := text
    textOffsets := List.range (text.length + 1) }

/-- `ReplaceErr` (lines 19-23). -/
inductive ReplaceErr where
  | rangeErr (msg : String) : ReplaceErr
deriving DecidableEq, Repr

/-- The `for i in 0..len` loop of `replace` (lines 66-72): positions still
inside the (truncated) replaced range are overwritten, the rest inserted.
`List.insertIdx` past the end is the identity where Rust's `Vec::insert`
would panic; the loop only reaches in-bounds indices on the states arising
from successful `replace` calls (proved below). -/
def replaceLoopGo (offset startR endR : Nat) : Nat → Nat → List Nat → List Nat
  | 0, _, ts => ts
  | k + 1, i, ts =>
    let ts' := if startR + i < endR then ts.set (startR + i) offset
               else ts.insertIdx (startR + i) offset
    replaceLoopGo offset startR endR k (i + 1) ts'

/-- `UTF8InputTextBuilder::replace` (lines 34-74). -/
def replace (b : Builder) (startR endR : Nat) (text : List Nat) :
    Except ReplaceErr Builder :=
  if b.modifiedText.length < startR then
    Except.error (ReplaceErr.rangeErr "start > length")
  else if endR < startR then
    Except.error (ReplaceErr.rangeErr "start > end")
  else if startR = endR then
    Except.error (ReplaceErr.rangeErr "start == end")
  else
    let endT := min endR b.modifiedText.length
    let modified := b.modifiedText.take startR ++ text ++ b.modifiedText.drop endT
    let offset := b.textOffsets.getD startR 0
    let len := text.length
    let ts :=
      if len < endT - startR then
        (b.textOffsets.enum.filter fun p =>
          decide (p.1 < startR + len) || decide (endT ≤ p.1)).map Prod.snd
      else b.textOffsets
    Except.ok { b with
      modifiedText := modified
      textOffsets := replaceLoopGo offset startR endT len 0 ts }

/-- The `offsets` array derived by `build` (lines 88-101): for each modified
character, its origin offset repeated once per UTF-8 byte, then the final
sentinel `text_offsets.last()`.  The source fills a zero vector of length
`bytes + 1` left to right with exactly these values. -/
def buildOffsets (b : Builder) : List Nat :=
  (b.modifiedText.enum.flatMap fun p =>
    List.replicate (lenUtf8 p.2) (b.textOffsets.getD p.1 0))
    ++ [b.textOffsets.getLastD 0]

/-- The `byte_indexes` array derived by `build` (lines 88-100): for each
modified character, its index repeated once per UTF-8 byte, then the
character count. -/
def buildByteIndexes (b : Builder) : List Nat :=
  (b.modifiedText.enum.flatMap fun p => List.replicate (lenUtf8 p.2) p.1)
    ++ [b.modifiedText.length]

/-- The builder states reachable from `new` by successful `replace` calls. -/
inductive Reachable : Builder → Prop where
  | init (text : List Nat) : Reachable (newBuilder text)
  | step (b b' : Builder) (s e : Nat) (repl : List Nat) :
      Reachable b → replace b s e repl = Except.ok b' → Reachable b'

/-- The builder states reachable from `new` by successful `replace` calls
whose replacement text is non-empty. -/
inductive ReachableNE : Builder → Prop where
  | init (text : List Nat) : ReachableNE (newBuilder text)
  | step (b b' : Builder) (s e : Nat) (repl : List Nat) :
      ReachableNE b → repl ≠ [] → replace b s e repl = Except.ok b' → ReachableNE b'

end UTF8InputTextBuilder

namespace UTF8InputTextBuilder

theorem insertIdx_eq_take_cons_drop (l : List Nat) (p : Nat) (a : Nat) (h : p ≤ l.length) :
    l.insertIdx p a = l.take p ++ a :: l.drop p := by
  induction l generalizing p with
  | nil =>
    have hp : p = 0 := by simpa using h
    subst hp
    rfl
  | cons c rest ih =>
    cases p with
    | zero => rfl
    | succ p =>
      rw [List.insertIdx_succ_cons, ih p (by simpa using h)]
      rfl

theorem take_append_cons (A : List Nat) (o : Nat) (D : List Nat) (p : Nat)
    (hA : A.length = p) : (A ++ o :: D).take (p + 1) = A ++ [o] := by
  subst hA
  rw [List.take_append_eq_append_take, List.take_of_length_le (by omega)]
  simp

theorem drop_append_cons (A : List Nat) (o : Nat) (D : List Nat) (p : Nat)
    (hA : A.length = p) : (A ++ o :: D).drop (p + 1) = D := by
  subst hA
  rw [List.drop_append_eq_append_drop, List.drop_of_length_le (by omega)]
  simp

theorem take_set_succ (ts : List Nat) (p o : Nat) (h : p < ts.length) :
    (ts.set p o).take (p + 1) = ts.take p ++ [o] := by
  rw [List.set_eq_take_append_cons_drop, if_pos h]
  exact take_append_cons _ o _ p (by simp [Nat.min_eq_left (le_of_lt h)])

theorem drop_set_ge (ts : List Nat) (p q o : Nat) (h : p < q) :
    (ts.set p o).drop q = ts.drop q := by
  rw [List.drop_set, if_pos h]

theorem insertIdx_eq_parts (ts : List Nat) (p a : Nat) (h : p ≤ ts.length) :
    ts.insertIdx p a = ts.take p ++ a :: ts.drop p
      ∧ (ts.insertIdx p a).take (p + 1) = ts.take p ++ [a]
      ∧ (ts.insertIdx p a).drop (p + 1) = ts.drop p := by
  have he := insertIdx_eq_take_cons_drop ts p a h
  have hA : (ts.take p).length = p := by simp [Nat.min_eq_left h]
  refine ⟨he, ?_, ?_⟩
  · rw [he]
    exact take_append_cons _ a _ p hA
  · rw [he]
    exact drop_append_cons _ a _ p hA

theorem replaceLoopGo_all_set (offset startR endR : Nat) :
    ∀ (k i : Nat) (ts : List Nat), startR + i + k ≤ endR → startR + i + k ≤ ts.length →
      replaceLoopGo offset startR endR k i ts
        = ts.take (startR + i) ++ List.replicate k offset ++ ts.drop (startR + i + k) := by
  intro k
  induction k with
  | zero =>
    intro i ts _ _
    simp [replaceLoopGo]
  | succ k ih =>
    intro i ts h1 h2
    have hlt : startR + i < endR := by omega
    have hlen : startR + i < ts.length := by omega
    unfold replaceLoopGo
    rw [if_pos hlt]
    rw [ih (i + 1) (ts.set (startR + i) offset) (by omega) (by
      rw [List.length_set]; omega)]
    have e1 : startR + (i + 1) = startR + i + 1 := by omega
    rw [e1, take_set_succ ts (startR + i) offset hlen,
      drop_set_ge ts (startR + i) (startR + i + 1 + k) offset (by omega)]
    have e2 : startR + i + 1 + k = startR + i + (k + 1) := by omega
    rw [e2, List.replicate_succ]
    simp

theorem replaceLoopGo_all_insert (offset startR endR : Nat) :
    ∀ (k i : Nat) (ts : List Nat), endR ≤ startR + i → startR + i ≤ ts.length →
      replaceLoopGo offset startR endR k i ts
        = ts.take (startR + i) ++ List.replicate k offset ++ ts.drop (startR + i) := by
  intro k
  induction k with
  | zero =>
    intro i ts _ _
    simp [replaceLoopGo]
  | succ k ih =>
    intro i ts h1 h2
    have hge : ¬ (startR + i < endR) := by omega
    unfold replaceLoopGo
    rw [if_neg hge]
    obtain ⟨he, htake, hdrop⟩ := insertIdx_eq_parts ts (startR + i) offset h2
    have hlen : (ts.insertIdx (startR + i) offset).length = ts.length + 1 := by
      exact List.length_insertIdx (startR + i) ts h2
    rw [ih (i + 1) (ts.insertIdx (startR + i) offset) (by omega) (by omega)]
    have e1 : startR + (i + 1) = startR + i + 1 := by omega
    rw [e1, htake, hdrop, List.replicate_succ]
    simp

theorem replaceLoopGo_spec (offset startR endR : Nat) :
    ∀ (k i : Nat) (ts : List Nat), startR + i ≤ endR → endR ≤ ts.length →
      replaceLoopGo offset startR endR k i ts
        = ts.take (startR + i) ++ List.replicate k offset
            ++ ts.drop (min (startR + i + k) endR) := by
  intro k
  induction k with
  | zero =>
    intro i ts h1 _
    have : min (startR + i + 0) endR = startR + i := by omega
    rw [this]
    simp [replaceLoopGo]
  | succ k ih =>
    intro i ts h1 h2
    by_cases hlt : startR + i < endR
    · unfold replaceLoopGo
      rw [if_pos hlt]
      rw [ih (i + 1) (ts.set (startR + i) offset) (by omega) (by
        rw [List.length_set]; omega)]
      have hlen : startR + i < ts.length := by omega
      have e1 : startR + (i + 1) = startR + i + 1 := by omega
      have hq : startR + i < min (startR + i + 1 + k) endR := by omega
      rw [e1, take_set_succ ts (startR + i) offset hlen,
        drop_set_ge ts (startR + i) _ offset hq]
      have e2 : startR + i + 1 + k = startR + i + (k + 1) := by omega
      rw [e2, List.replicate_succ]
      simp
    · have heq : endR = startR + i := by omega
      have hmin : min (startR + i + (k + 1)) endR = startR + i := by omega
      rw [hmin]
      exact replaceLoopGo_all_insert offset startR endR (k + 1) i ts (by omega) (by omega)

theorem enumFrom_filter_take_drop (a b : Nat) (hab : a ≤ b) :
    ∀ (l : List Nat) (n : Nat),
      ((List.enumFrom n l).filter fun p =>
          decide (p.1 < a) || decide (b ≤ p.1)).map Prod.snd
        = l.take (a - n) ++ l.drop (b - n) := by
  intro l
  induction l with
  | nil => intro n; simp
  | cons c rest ih =>
    intro n
    rw [List.enumFrom_cons]
    by_cases h1 : n < a
    · rw [List.filter_cons_of_pos (by simp [h1])]
      rw [List.map_cons, ih (n + 1)]
      have h2 : a - n = (a - (n + 1)) + 1 := by omega
      have h3 : b - n = (b - (n + 1)) + 1 := by omega
      rw [h2, h3]
      rfl
    · by_cases h4 : b ≤ n
      · rw [List.filter_cons_of_pos (by simp [h4])]
        rw [List.map_cons, ih (n + 1)]
        have h2 : a - n = 0 := by omega
        have h2' : a - (n + 1) = 0 := by omega
        have h3 : b - n = 0 := by omega
        have h3' : b - (n + 1) = 0 := by omega
        rw [h2, h2', h3, h3']
        simp
      · rw [List.filter_cons_of_neg (by simp [h1, h4])]
        rw [ih (n + 1)]
        have h2 : a - n = 0 := by omega
        have h2' : a - (n + 1) = 0 := by omega
        have h3 : b - n = (b - (n + 1)) + 1 := by omega
        rw [h2, h2', h3]
        rfl

end UTF8InputTextBuilder

namespace UTF8InputTextBuilder

/-- What a successful `replace` does to the builder: the replaced character
range maps to the origin of its first character, repeated once per
replacement character. -/
theorem replace_ok_spec (b : Builder) (startR endR : Nat) (text : List Nat)
    (b' : Builder) (hlen : b.textOffsets.length = b.modifiedText.length + 1)
    (h : replace b startR endR text = Except.ok b') :
    b'.originalText = b.originalText
      ∧ b'.modifiedText = b.modifiedText.take startR ++ text
          ++ b.modifiedText.drop (min endR b.modifiedText.length)
      ∧ b'.textOffsets = b.textOffsets.take startR
          ++ List.replicate text.length (b.textOffsets.getD startR 0)
          ++ b.textOffsets.drop (min endR b.modifiedText.length)
      ∧ startR ≤ b.modifiedText.length ∧ startR < endR := by
  unfold replace at h
  by_cases h1 : b.modifiedText.length < startR
  · rw [if_pos h1] at h
    exact absurd h (by simp)
  rw [if_neg h1] at h
  by_cases h2 : endR < startR
  · rw [if_pos h2] at h
    exact absurd h (by simp)
  rw [if_neg h2] at h
  by_cases h3 : startR = endR
  · rw [if_pos h3] at h
    exact absurd h (by simp)
  rw [if_neg h3] at h
  have hb' : b' = { b with
      modifiedText := b.modifiedText.take startR ++ text
        ++ b.modifiedText.drop (min endR b.modifiedText.length)
      textOffsets := replaceLoopGo (b.textOffsets.getD startR 0) startR
        (min endR b.modifiedText.length) text.length 0
        (if text.length < min endR b.modifiedText.length - startR then
          (b.textOffsets.enum.filter fun p =>
            decide (p.1 < startR + text.length)
              || decide (min endR b.modifiedText.length ≤ p.1)).map Prod.snd
        else b.textOffsets) } := by
    injection h with h
    exact h.symm
  subst hb'
  have hse : startR < endR := by omega
  have hsm : startR ≤ b.modifiedText.length := by omega
  refine ⟨rfl, rfl, ?_, hsm, hse⟩
  set endT := min endR b.modifiedText.length with hendT
  have hendLe : endT ≤ b.modifiedText.length := by omega
  have hsLeE : startR ≤ endT := by omega
  have hsts : startR < b.textOffsets.length := by omega
  by_cases hf : text.length < endT - startR
  · rw [if_pos hf]
    have hfilter :
        ((b.textOffsets.enum.filter fun p =>
          decide (p.1 < startR + text.length) || decide (endT ≤ p.1)).map Prod.snd)
          = b.textOffsets.take (startR + text.length) ++ b.textOffsets.drop endT := by
      have := enumFrom_filter_take_drop (startR + text.length) endT (by omega)
        b.textOffsets 0
      simpa [List.enum] using this
    rw [hfilter]
    have hlen1 : (b.textOffsets.take (startR + text.length)).length
        = startR + text.length := by
      simp
      omega
    rw [replaceLoopGo_all_set _ startR endT text.length 0
      (b.textOffsets.take (startR + text.length) ++ b.textOffsets.drop endT)
      (by omega) (by rw [List.length_append, hlen1]; omega)]
    have e0 : startR + 0 = startR := by omega
    rw [e0]
    dsimp only
    congr 1
    · congr 1
      rw [List.take_append_of_le_length (by omega), List.take_take,
        Nat.min_eq_left (by omega)]
    · rw [List.drop_append_eq_append_drop, List.drop_of_length_le (le_of_eq hlen1),
        hlen1]
      simp
  · rw [if_neg hf]
    rw [replaceLoopGo_spec _ startR endT text.length 0 b.textOffsets (by omega)
      (by omega)]
    have hmin : min (startR + 0 + text.length) endT = endT := by omega
    rw [hmin]
    have e0 : startR + 0 = startR := by omega
    rw [e0]

end UTF8InputTextBuilder

namespace UTF8InputTextBuilder

/-- The builder invariant: the offset table is one longer than the modified
text, non-decreasing, and ends at the original character count. -/
def Inv (b : Builder) : Prop :=
  b.textOffsets.length = b.modifiedText.length + 1
    ∧ List.Pairwise (· ≤ ·) b.textOffsets
    ∧ b.textOffsets.getLastD 0 = b.originalText.length

theorem pairwise_le_getD (ts : List Nat) (hp : List.Pairwise (· ≤ ·) ts)
    (i j : Nat) (hij : i ≤ j) (hj : j < ts.length) : ts.getD i 0 ≤ ts.getD j 0 := by
  have hi : i < ts.length := lt_of_le_of_lt hij hj
  have hgi : ts.getD i 0 = ts[i] := by
    rw [List.getD_eq_getElem?_getD, List.getElem?_eq_getElem hi]
    rfl
  have hgj : ts.getD j 0 = ts[j] := by
    rw [List.getD_eq_getElem?_getD, List.getElem?_eq_getElem hj]
    rfl
  rcases eq_or_lt_of_le hij with rfl | hlt
  · exact le_refl _
  · rw [hgi, hgj]
    exact List.pairwise_iff_getElem.mp hp i j hi hj hlt

theorem mem_take_bound (ts : List Nat) (n : Nat) (x : Nat) (hx : x ∈ ts.take n) :
    ∃ i, i < n ∧ i < ts.length ∧ x = ts.getD i 0 := by
  obtain ⟨k, hk, hkx⟩ := List.getElem_of_mem hx
  have hk1 : k < n ∧ k < ts.length := by
    have := hk
    rw [List.length_take] at this
    omega
  refine ⟨k, hk1.1, hk1.2, ?_⟩
  rw [List.getD_eq_getElem?_getD, List.getElem?_eq_getElem hk1.2]
  rw [← hkx, List.getElem_take]
  rfl

theorem mem_drop_bound (ts : List Nat) (n : Nat) (x : Nat) (hx : x ∈ ts.drop n) :
    ∃ i, n ≤ i ∧ i < ts.length ∧ x = ts.getD i 0 := by
  obtain ⟨k, hk, hkx⟩ := List.getElem_of_mem hx
  have hk1 : n + k < ts.length := by
    have := hk
    rw [List.length_drop] at this
    omega
  refine ⟨n + k, by omega, hk1, ?_⟩
  rw [List.getD_eq_getElem?_getD, List.getElem?_eq_getElem hk1]
  rw [← hkx, List.getElem_drop]
  rfl

theorem getLastD_indep (Y : List Nat) (h : Y ≠ []) (c d : Nat) :
    Y.getLastD c = Y.getLastD d := by
  rw [List.getLastD_eq_getLast?, List.getLastD_eq_getLast?]
  cases hY : Y.getLast? with
  | none =>
    have hs := List.getLast?_isSome.mpr h
    rw [hY] at hs
    simp at hs
  | some v => rfl

theorem getLastD_append_of_ne_nil (X Y : List Nat) (d : Nat) (h : Y ≠ []) :
    (X ++ Y).getLastD d = Y.getLastD d := by
  induction X generalizing d with
  | nil => rfl
  | cons c rest ih =>
    rw [List.cons_append, List.getLastD_cons, ih c]
    exact getLastD_indep Y h c d

theorem getLastD_drop (ts : List Nat) (n : Nat) (h : n < ts.length) :
    (ts.drop n).getLastD 0 = ts.getLastD 0 := by
  conv_rhs => rw [← List.take_append_drop n ts]
  rw [getLastD_append_of_ne_nil _ _ _ (by
    intro hnil
    have hlen := congrArg List.length hnil
    rw [List.length_drop] at hlen
    simp at hlen
    omega)]

/-- A successful `replace` preserves the builder invariant. -/
theorem inv_replace_ok (b b' : Builder) (s e : Nat) (repl : List Nat)
    (hInv : Inv b) (h : replace b s e repl = Except.ok b') : Inv b' := by
  obtain ⟨hlen, hsorted, hlast⟩ := hInv
  obtain ⟨horig, hmod, hts, hsm, hse⟩ := replace_ok_spec b s e repl b' hlen h
  set endT := min e b.modifiedText.length with hendT
  have hendLe : endT ≤ b.modifiedText.length := by omega
  have hsLeE : s ≤ endT := by omega
  have hsts : s < b.textOffsets.length := by omega
  have hAlen : (b.textOffsets.take s).length = s := by
    rw [List.length_take]
    omega
  constructor
  · rw [hts, hmod]
    simp only [List.length_append, List.length_replicate, List.length_take,
      List.length_drop]
    omega
  constructor
  · rw [hts]
    rw [List.pairwise_append]
    refine ⟨?_, ?_, ?_⟩
    · rw [List.pairwise_append]
      refine ⟨hsorted.sublist (List.take_sublist s _), ?_, ?_⟩
      · rw [List.pairwise_replicate]
        right
        exact le_refl _
      · intro x hx y hy
        obtain ⟨i, hi, hi2, hxe⟩ := mem_take_bound _ _ _ hx
        have hye : y = b.textOffsets.getD s 0 := List.eq_of_mem_replicate hy
        rw [hxe, hye]
        exact pairwise_le_getD _ hsorted i s (by omega) hsts
    · exact hsorted.sublist (List.drop_sublist endT _)
    · intro x hx y hy
      obtain ⟨j, hj, hj2, hye⟩ := mem_drop_bound _ _ _ hy
      rcases List.mem_append.mp hx with hx1 | hx2
      · obtain ⟨i, hi, hi2, hxe⟩ := mem_take_bound _ _ _ hx1
        rw [hxe, hye]
        exact pairwise_le_getD _ hsorted i j (by omega) hj2
      · have hxe : x = b.textOffsets.getD s 0 := List.eq_of_mem_replicate hx2
        rw [hxe, hye]
        exact pairwise_le_getD _ hsorted s j (by omega) hj2
  · rw [hts, horig, ← hlast]
    have hdropNe : b.textOffsets.drop endT ≠ [] := by
      intro hnil
      have hl := congrArg List.length hnil
      rw [List.length_drop] at hl
      simp at hl
      omega
    rw [getLastD_append_of_ne_nil _ _ _ hdropNe]
    exact getLastD_drop _ _ (by omega)

/-- Every reachable builder satisfies the invariant. -/
theorem inv_of_reachable (b : Builder) (h : Reachable b) : Inv b := by
  induction h with
  | init text =>
    refine ⟨by simp [newBuilder], ?_, ?_⟩
    · exact (List.pairwise_lt_range _).imp (fun h => le_of_lt h)
    · show (List.range (text.length + 1)).getLastD 0 = text.length
      rw [List.range_succ, List.getLastD_concat]
  | step b b' s e repl _ hrep ih => exact inv_replace_ok b b' s e repl ih hrep

/-- Every `ReachableNE` builder additionally keeps `text_offsets[0] = 0`,
and its modified text can be empty only when the original was. -/
theorem invNE_of_reachableNE (b : Builder) (h : ReachableNE b) :
    Inv b ∧ b.textOffsets.getD 0 0 = 0
      ∧ (b.modifiedText = [] → b.originalText = []) := by
  induction h with
  | init text =>
    refine ⟨?_, ?_, ?_⟩
    · refine ⟨by simp [newBuilder], ?_, ?_⟩
      · exact (List.pairwise_lt_range _).imp (fun h => le_of_lt h)
      · show (List.range (text.length + 1)).getLastD 0 = text.length
        rw [List.range_succ, List.getLastD_concat]
    · show (List.range (text.length + 1)).getD 0 0 = 0
      rw [List.range_succ_eq_map]
      rfl
    · intro hmod
      exact hmod
  | step b b' s e repl _ hne hrep ih =>
    obtain ⟨hInv, hhead, _⟩ := ih
    refine ⟨inv_replace_ok b b' s e repl hInv hrep, ?_, ?_⟩
    · obtain ⟨hlen, hsorted, hlast⟩ := hInv
      obtain ⟨_, _, hts, hsm, hse⟩ := replace_ok_spec b s e repl b' hlen hrep
      rw [hts]
      have hreplNe : List.replicate repl.length (b.textOffsets.getD s 0) ≠ [] := by
        intro hnil
        have hl := congrArg List.length hnil
        rw [List.length_replicate] at hl
        exact hne (List.length_eq_zero.mp (by simpa using hl))
      cases hs : s with
      | zero =>
        subst hs
        rw [List.take_zero, List.nil_append]
        cases hr : List.replicate repl.length (b.textOffsets.getD 0 0) with
        | nil => exact absurd hr hreplNe
        | cons x rest =>
          have hx : x = b.textOffsets.getD 0 0 :=
            List.eq_of_mem_replicate (by rw [hr]; exact List.mem_cons_self x rest)
          rw [List.cons_append]
          show x = 0
          rw [hx]
          exact hhead
      | succ s0 =>
        subst hs
        have htsNe : b.textOffsets ≠ [] := by
          intro hnil
          have hl := congrArg List.length hnil
          rw [hlen] at hl
          simp at hl
        cases hts0 : b.textOffsets with
        | nil => exact absurd hts0 htsNe
        | cons t0 trest =>
          rw [List.take_succ_cons, List.cons_append, List.cons_append]
          show t0 = 0
          have : (t0 :: trest).getD 0 0 = t0 := rfl
          rw [← this, ← hts0]
          exact hhead
    · intro hmod
      obtain ⟨hlen, _, _⟩ := hInv
      obtain ⟨_, hm, _, _, _⟩ := replace_ok_spec b s e repl b' hlen hrep
      rw [hm] at hmod
      rcases List.append_eq_nil.mp hmod with ⟨hm1, hm2⟩
      rcases List.append_eq_nil.mp hm1 with ⟨_, hrepl⟩
      exact absurd hrepl hne

end UTF8InputTextBuilder

namespace UTF8InputTextBuilder

theorem one_le_lenUtf8 (c : Nat) : 1 ≤ lenUtf8 c := by
  unfold lenUtf8
  by_cases h1 : c < 0x80
  · simp [h1]
  by_cases h2 : c < 0x800
  · simp [h1, h2]
  by_cases h3 : c < 0x10000
  · simp [h1, h2, h3]
  · simp [h1, h2, h3]

theorem offsetsMain_length (b : Builder) :
    (b.modifiedText.enum.flatMap fun p =>
      List.replicate (lenUtf8 p.2) (b.textOffsets.getD p.1 0)).length
      = bytesLen b.modifiedText := by
  rw [List.length_flatMap]
  unfold bytesLen
  have h1 : (List.map (List.length ∘ fun p =>
      List.replicate (lenUtf8 p.2) (b.textOffsets.getD p.1 0)) b.modifiedText.enum)
      = List.map (lenUtf8 ∘ Prod.snd) b.modifiedText.enum := by
    apply List.map_congr_left
    intro p _
    simp [Function.comp]
  rw [h1, ← List.map_map, List.enum_map_snd]

theorem byteIndexesMain_length (b : Builder) :
    (b.modifiedText.enum.flatMap fun p =>
      List.replicate (lenUtf8 p.2) p.1).length = bytesLen b.modifiedText := by
  rw [List.length_flatMap]
  unfold bytesLen
  have h1 : (List.map (List.length ∘ fun p => List.replicate (lenUtf8 p.2) p.1)
      b.modifiedText.enum) = List.map (lenUtf8 ∘ Prod.snd) b.modifiedText.enum := by
    apply List.map_congr_left
    intro p _
    simp [Function.comp]
  rw [h1, ← List.map_map, List.enum_map_snd]

theorem getLastD_eq_getD_pred (ts : List Nat) :
    ts.getLastD 0 = ts.getD (ts.length - 1) 0 := by
  rw [List.getLastD_eq_getLast?, List.getLast?_eq_getElem?, List.getD_eq_getElem?_getD]

theorem mem_enum_spec (l : List Nat) (p : Nat × Nat) (hp : p ∈ l.enum) :
    p.1 < l.length := by
  obtain ⟨k, hk, hkp⟩ := List.getElem_of_mem hp
  have hk' : k < l.length := by
    have := hk
    rw [List.enum_length] at this
    exact this
  rw [List.getElem_enum] at hkp
  rw [← hkp]
  exact hk'

theorem buildOffsets_sorted (b : Builder)
    (hlen : b.textOffsets.length = b.modifiedText.length + 1)
    (hsorted : List.Pairwise (· ≤ ·) b.textOffsets) :
    List.Pairwise (· ≤ ·) (buildOffsets b) := by
  unfold buildOffsets
  rw [List.pairwise_append]
  refine ⟨?_, by simp, ?_⟩
  · rw [List.flatMap_def, List.pairwise_join]
    constructor
    · intro l hl
      obtain ⟨p, _, hpe⟩ := List.mem_map.mp hl
      rw [← hpe, List.pairwise_replicate]
      right
      exact le_refl _
    · rw [List.pairwise_map]
      rw [List.pairwise_iff_getElem]
      intro i j hi hj hij
      have hi' : i < b.modifiedText.length := by rwa [List.enum_length] at hi
      have hj' : j < b.modifiedText.length := by rwa [List.enum_length] at hj
      intro x hx y hy
      rw [List.getElem_enum] at hx hy
      have hxe := List.eq_of_mem_replicate hx
      have hye := List.eq_of_mem_replicate hy
      rw [hxe, hye]
      exact pairwise_le_getD _ hsorted i j (by omega) (by omega)
  · intro x hx y hy
    have hye : y = b.textOffsets.getLastD 0 := by simpa using hy
    obtain ⟨p, hp, hx2⟩ := List.mem_flatMap.mp hx
    have hxe := List.eq_of_mem_replicate hx2
    have hp1 := mem_enum_spec _ _ hp
    rw [hxe, hye, getLastD_eq_getD_pred]
    exact pairwise_le_getD _ hsorted p.1 (b.textOffsets.length - 1) (by omega)
      (by omega)

theorem buildByteIndexes_sorted (b : Builder) :
    List.Pairwise (· ≤ ·) (buildByteIndexes b) := by
  unfold buildByteIndexes
  rw [List.pairwise_append]
  refine ⟨?_, by simp, ?_⟩
  · rw [List.flatMap_def, List.pairwise_join]
    constructor
    · intro l hl
      obtain ⟨p, _, hpe⟩ := List.mem_map.mp hl
      rw [← hpe, List.pairwise_replicate]
      right
      exact le_refl _
    · rw [List.pairwise_map]
      rw [List.pairwise_iff_getElem]
      intro i j hi hj hij
      intro x hx y hy
      rw [List.getElem_enum] at hx hy
      have hxe := List.eq_of_mem_replicate hx
      have hye := List.eq_of_mem_replicate hy
      rw [hxe, hye]
      exact le_of_lt hij
  · intro x hx y hy
    have hye : y = b.modifiedText.length := by simpa using hy
    obtain ⟨p, hp, hx2⟩ := List.mem_flatMap.mp hx
    have hxe := List.eq_of_mem_replicate hx2
    have hp1 := mem_enum_spec _ _ hp
    rw [hxe, hye]
    exact le_of_lt hp1

theorem buildOffsets_last (b : Builder) :
    (buildOffsets b).getD (bytesLen b.modifiedText) 0 = b.textOffsets.getLastD 0 := by
  unfold buildOffsets
  rw [List.getD_eq_getElem?_getD, ← offsetsMain_length b, List.getElem?_concat_length]
  rfl

theorem buildOffsets_head (b : Builder)
    (hlast : b.textOffsets.getLastD 0 = b.originalText.length)
    (hhead : b.textOffsets.getD 0 0 = 0)
    (hemp : b.modifiedText = [] → b.originalText = []) :
    (buildOffsets b).getD 0 0 = 0 := by
  unfold buildOffsets
  cases hm : b.modifiedText with
  | nil =>
    rw [List.enum_nil, List.flatMap_nil, List.nil_append]
    show b.textOffsets.getLastD 0 = 0
    rw [hlast, hemp hm]
    rfl
  | cons c rest =>
    rw [List.enum_cons, List.flatMap_cons]
    cases hl : lenUtf8 c with
    | zero => exact absurd hl (by have := one_le_lenUtf8 c; omega)
    | succ k =>
      rw [List.replicate_succ]
      show b.textOffsets.getD 0 0 = 0
      exact hhead

end UTF8InputTextBuilder

/-- The builder state after deleting the first character of `[97, 98]`
with an empty replacement. -/
def c7AfterDelete : UTF8InputTextBuilder.Builder :=
  { originalText := [97, 98]
    modifiedText := [98]
    textOffsets := [1, 2] }

/-- C7 counterexample: the claim asserts `offsets[0] = 0` after every
sequence of successful `replace` calls.  Replacing the first character of
the two-character original `[97, 98]` by the empty string succeeds
(`0..1` is a legal non-empty range), and the built offsets array is
`[1, 2]`: its first entry is the origin of the surviving character, not 0. -/
theorem utf8InputTextBuilder_c7_counterexample :
    UTF8InputTextBuilder.replace (UTF8InputTextBuilder.newBuilder [97, 98]) 0 1 []
        = Except.ok c7AfterDelete
      ∧ UTF8InputTextBuilder.Reachable c7AfterDelete
      ∧ UTF8InputTextBuilder.buildOffsets c7AfterDelete = [1, 2]
      ∧ ¬ ((UTF8InputTextBuilder.buildOffsets c7AfterDelete).getD 0 0 = 0) := by
  refine ⟨rfl, ?_, rfl, by decide⟩
  exact UTF8InputTextBuilder.Reachable.step _ _ 0 1 []
    (UTF8InputTextBuilder.Reachable.init [97, 98]) rfl

/-- C7 (amended): for every original text and every sequence of successful
`replace` calls, the built `offsets` and `byte_indexes` arrays have length
`len(bytes) + 1`, both are monotone non-decreasing, and
`offsets[len(bytes)]` equals the character count of the original text;
`offsets[0] = 0` holds additionally whenever every replacement text in the
sequence is non-empty (deleting a prefix via an empty replacement re-bases
`offsets[0]` to the origin of the first surviving character). -/
theorem utf8InputTextBuilder_c7_amended :
    (∀ b, UTF8InputTextBuilder.Reachable b →
      (UTF8InputTextBuilder.buildOffsets b).length
          = UTF8InputTextBuilder.bytesLen b.modifiedText + 1
        ∧ (UTF8InputTextBuilder.buildByteIndexes b).length
            = UTF8InputTextBuilder.bytesLen b.modifiedText + 1
        ∧ List.Pairwise (· ≤ ·) (UTF8InputTextBuilder.buildOffsets b)
        ∧ List.Pairwise (· ≤ ·) (UTF8InputTextBuilder.buildByteIndexes b)
        ∧ (UTF8InputTextBuilder.buildOffsets b).getD
            (UTF8InputTextBuilder.bytesLen b.modifiedText) 0
            = b.originalText.length)
    ∧ (∀ b, UTF8InputTextBuilder.ReachableNE b →
        (UTF8InputTextBuilder.buildOffsets b).getD 0 0 = 0) := by
  constructor
  · intro b hb
    obtain ⟨hlen, hsorted, hlast⟩ := UTF8InputTextBuilder.inv_of_reachable b hb
    refine ⟨?_, ?_, ?_, ?_, ?_⟩
    · unfold UTF8InputTextBuilder.buildOffsets
      rw [List.length_append, UTF8InputTextBuilder.offsetsMain_length]
      rfl
    · unfold UTF8InputTextBuilder.buildByteIndexes
      rw [List.length_append, UTF8InputTextBuilder.byteIndexesMain_length]
      rfl
    · exact UTF8InputTextBuilder.buildOffsets_sorted b hlen hsorted
    · exact UTF8InputTextBuilder.buildByteIndexes_sorted b
    · rw [UTF8InputTextBuilder.buildOffsets_last, hlast]
  · intro b hb
    obtain ⟨⟨_, _, hlast⟩, hhead, hemp⟩ :=
      UTF8InputTextBuilder.invNE_of_reachableNE b hb
    exact UTF8InputTextBuilder.buildOffsets_head b hlast hhead hemp

/-- Witness for the amended C7 at a concrete builder: the initial state on
the two-character text `[97, 256]` (UTF-8 lengths 1 and 2). -/
theorem utf8InputTextBuilder_c7_amended_witness :
    (UTF8InputTextBuilder.buildOffsets
        (UTF8InputTextBuilder.newBuilder [97, 256])).length
        = UTF8InputTextBuilder.bytesLen [97, 256] + 1
      ∧ (UTF8InputTextBuilder.buildOffsets
          (UTF8InputTextBuilder.newBuilder [97, 256])).getD 0 0 = 0 := by
  have h := utf8InputTextBuilder_c7_amended
  exact ⟨(h.1 _ (UTF8InputTextBuilder.Reachable.init [97, 256])).1,
    h.2 _ (UTF8InputTextBuilder.ReachableNE.init [97, 256])⟩

/-! ## §C8 — Path splitting (`tokenizer.rs`)

`Tokenizer::split_path` returns the path unchanged in mode C; in mode A
(resp. B) a node whose A-split (resp. B-split) list has at most one entry
is kept, and any other node is replaced by one fresh node per listed word
id, with spans accumulated from the original node's start by the referenced
words' head-word lengths.  `infoOf` abstracts
`lexicon_set.get_word_info(word_id)`; a path node carries the word info its
own `get_word_info()` returns. -/

namespace Tokenizer

/-- `SplitMode` (tokenizer.rs lines 27-32). -/
inductive SplitMode where
  | A | B | C
deriving DecidableEq, Repr

/-- A node of the best path as `split_path` sees it: its span and its
`get_word_info()` result. -/
structure PathNode where
  start : Nat
  endPos : Nat
  info : WordInfoList.WordInfo
deriving DecidableEq, Repr

/-- Rust's `i32 as usize` cast (the split lists store `i32` word ids, and
`LatticeNode::new` receives `word_id as usize`). -/
def castUsize (w : Int) : Nat := (w % (18446744073709551616 : Int)).toNat

/-- The inner loop of `split_path` for a node being split (tokenizer.rs
lines 122-135): one new node per listed word id, spans accumulated from
`offset` by each referenced word's head-word length. -/
def splitSeq (infoOf : Nat → WordInfoList.WordInfo) : Nat → List Int → List PathNode
  | _, [] => []
  | offset, wid :: rest =>
    let info := infoOf (castUsize wid)
    { start := offset, endPos := offset + info.headWordLength, info := info }
      :: splitSeq infoOf (offset + info.headWordLength) rest

/-- The split list `split_path` consults for a node (lines 114-118). -/
def splitIds (mode : SplitMode) (n : PathNode) : List Int :=
  if mode = SplitMode.A then n.info.aUnitSplit else n.info.bUnitSplit

/-- The replacement of a single path node (lines 119-136). -/
def splitNodeFn (mode : SplitMode) (infoOf : Nat → WordInfoList.WordInfo)
    (n : PathNode) : List PathNode :=
  if (splitIds mode n).length ≤ 1 then [n]
  else splitSeq infoOf n.start (splitIds mode n)

/-- `Tokenizer::split_path` (lines 104-139). -/
def splitPath (mode : SplitMode) (infoOf : Nat → WordInfoList.WordInfo)
    (path : List PathNode) : List PathNode :=
  if mode = SplitMode.C then path
  else path.flatMap (splitNodeFn mode infoOf)

/-- The head-word length of a referenced word. -/
def headLen (infoOf : Nat → WordInfoList.WordInfo) (w : Int) : Nat :=
  (infoOf (castUsize w)).headWordLength

theorem splitSeq_head_start (infoOf : Nat → WordInfoList.WordInfo)
    (start : Nat) (ids : List Int) (h : ids ≠ []) :
    ((splitSeq infoOf start ids).head?.map (fun nd => nd.start)) = some start := by
  cases ids with
  | nil => exact absurd rfl h
  | cons wid rest => rfl

theorem getLast_cons_of_ne_nil {α : Type} (a : α) (l : List α) (h : l ≠ []) :
    (a :: l).getLast? = l.getLast? := by
  cases l with
  | nil => exact absurd rfl h
  | cons b t => rw [List.getLast?_cons_cons]

theorem splitSeq_last_end (infoOf : Nat → WordInfoList.WordInfo) :
    ∀ (ids : List Int) (start : Nat), ids ≠ [] →
      ((splitSeq infoOf start ids).getLast?.map (fun nd => nd.endPos))
        = some (start + (ids.map (headLen infoOf)).sum) := by
  intro ids
  induction ids with
  | nil => intro start h; exact absurd rfl h
  | cons wid rest ih =>
    intro start _
    cases rest with
    | nil =>
      show some (start + headLen infoOf wid) = _
      simp
    | cons wid2 rest2 =>
      have hne : (wid2 :: rest2 : List Int) ≠ [] := by simp
      have hih := ih (start + headLen infoOf wid) hne
      have hseqne : splitSeq infoOf (start + headLen infoOf wid) (wid2 :: rest2)
          ≠ [] := List.cons_ne_nil _ _
      show ((splitSeq infoOf start (wid :: wid2 :: rest2)).getLast?.map
        (fun nd => nd.endPos)) = _
      rw [show splitSeq infoOf start (wid :: wid2 :: rest2)
        = { start := start, endPos := start + headLen infoOf wid,
            info := infoOf (castUsize wid) }
          :: splitSeq infoOf (start + headLen infoOf wid) (wid2 :: rest2) from rfl]
      rw [getLast_cons_of_ne_nil _ _ hseqne]
      rw [hih]
      simp only [List.map_cons, List.sum_cons]
      congr 1
      omega

theorem splitSeq_starts_strict (infoOf : Nat → WordInfoList.WordInfo) :
    ∀ (ids : List Int) (start : Nat),
      (∀ w ∈ ids, 0 < headLen infoOf w) →
      List.Chain' (· < ·) ((splitSeq infoOf start ids).map (fun nd => nd.start)) := by
  intro ids
  induction ids with
  | nil => intro start _; simp [splitSeq]
  | cons wid rest ih =>
    intro start hpos
    cases rest with
    | nil => simp [splitSeq]
    | cons wid2 rest2 =>
      have htail := ih (start + headLen infoOf wid)
        (fun w hw => hpos w (List.mem_cons_of_mem _ hw))
      show List.Chain' (· < ·) (start :: (splitSeq infoOf
        (start + headLen infoOf wid) (wid2 :: rest2)).map (fun nd => nd.start))
      rw [show (splitSeq infoOf (start + headLen infoOf wid)
        (wid2 :: rest2)).map (fun nd => nd.start)
        = (start + headLen infoOf wid)
          :: (splitSeq infoOf (start + headLen infoOf wid + headLen infoOf wid2)
            rest2).map (fun nd => nd.start) from rfl]
      rw [List.chain'_cons]
      refine ⟨?_, ?_⟩
      · have := hpos wid (List.mem_cons_self _ _)
        omega
      · exact htail

/-- A concrete word-info table for evaluation: word 5 has head-word length 2,
every other word has head-word length 3. -/
def sampleInfoOf : Nat → WordInfoList.WordInfo := fun i =>
  { surface := []
    headWordLength := if i = 5 then 2 else 3
    posId := 0
    normalizedForm := []
    dictionaryFormWordId := -1
    dictionaryForm := []
    readingForm := []
    aUnitSplit := []
    bUnitSplit := []
    wordStructure := [] }

/-- A concrete path node spanning `[10, 15)`. -/
def sampleNode : PathNode :=
  { start := 10
    endPos := 15
    info := sampleInfoOf 0 }

end Tokenizer

/-- C8: `split_path` is the identity in mode C; in mode A (resp. B) a node
whose split list has at most one entry is kept unchanged, and any other
node is replaced by the accumulated sequence `splitSeq` of one node per
listed word id; in that sequence the first node's start is the replaced
node's start, starts are strictly increasing provided every referenced
word's head-word length is positive, and the last node's end equals the
replaced node's end provided those head-word lengths sum to the replaced
node's span (both conditions hold for consistent dictionary data; the code
does not enforce them). -/
theorem tokenizer_c8_split_path (infoOf : Nat → WordInfoList.WordInfo) :
    (∀ path, Tokenizer.splitPath Tokenizer.SplitMode.C infoOf path = path)
    ∧ (∀ mode path, mode ≠ Tokenizer.SplitMode.C →
        Tokenizer.splitPath mode infoOf path
          = path.flatMap (Tokenizer.splitNodeFn mode infoOf))
    ∧ (∀ mode n, (Tokenizer.splitIds mode n).length ≤ 1 →
        Tokenizer.splitNodeFn mode infoOf n = [n])
    ∧ (∀ mode n, ¬ (Tokenizer.splitIds mode n).length ≤ 1 →
        Tokenizer.splitNodeFn mode infoOf n
          = Tokenizer.splitSeq infoOf n.start (Tokenizer.splitIds mode n))
    ∧ (∀ start ids, ids ≠ [] →
        ((Tokenizer.splitSeq infoOf start ids).head?.map (fun nd => nd.start))
          = some start)
    ∧ (∀ start ids, (∀ w ∈ ids, 0 < Tokenizer.headLen infoOf w) →
        List.Chain' (· < ·)
          ((Tokenizer.splitSeq infoOf start ids).map (fun nd => nd.start)))
    ∧ (∀ (n : Tokenizer.PathNode) ids, ids ≠ [] → n.start ≤ n.endPos →
        (ids.map (Tokenizer.headLen infoOf)).sum = n.endPos - n.start →
        ((Tokenizer.splitSeq infoOf n.start ids).getLast?.map (fun nd => nd.endPos))
          = some n.endPos) := by
  refine ⟨?_, ?_, ?_, ?_, ?_, ?_, ?_⟩
  · intro path
    rfl
  · intro mode path hm
    unfold Tokenizer.splitPath
    rw [if_neg hm]
  · intro mode n h
    unfold Tokenizer.splitNodeFn
    rw [if_pos h]
  · intro mode n h
    unfold Tokenizer.splitNodeFn
    rw [if_neg h]
  · exact Tokenizer.splitSeq_head_start infoOf
  · intro start ids h
    exact Tokenizer.splitSeq_starts_strict infoOf ids start h
  · intro n ids hne hle hsum
    rw [Tokenizer.splitSeq_last_end infoOf ids n.start hne, hsum]
    congr 1
    omega

/-- Witness for C8 at a concrete instance: a node spanning `[10, 15)` whose
split list references words of head-word lengths 2 and 3. -/
theorem tokenizer_c8_split_path_witness :
    ((Tokenizer.splitSeq Tokenizer.sampleInfoOf
        Tokenizer.sampleNode.start [(5 : Int), 6]).getLast?.map
      (fun nd => nd.endPos)) = some Tokenizer.sampleNode.endPos :=
  (tokenizer_c8_split_path Tokenizer.sampleInfoOf).2.2.2.2.2.2
    Tokenizer.sampleNode [(5 : Int), 6]
    (by decide)
    (by decide)
    (by decide)


/-! ## §C6 — Double-array trie (`darts/`)

A faithful executable embedding of the darts pipeline used by
`DoubleArrayTrie::build` with values: `DawgBuilder` (dawg_builder.rs),
`DoubleArrayBuilder::build_from_dawg` (double_array_builder.rs) and
`common_prefix_search` (double_array_trie.rs).  Growable arrays whose
indices stay in bounds on every path considered are lists read with `getD`;
the unit array and the circular extras pool of the double-array builder are
total functions from indices (out-of-range reads, which Rust would panic
on, do not occur on the evaluated inputs); unbounded `while` loops take a
fuel argument large enough for every input considered; the explicit
`panic!` calls of `insert` and `set_offset` are modelled as `none`. -/

namespace Darts

def INITIAL_TABLE_SIZE : Nat := 1024
def BLOCK_SIZE : Nat := 256
def NUM_EXTRA_BLOCKS : Nat := 16
def NUM_EXTRAS : Nat := BLOCK_SIZE * NUM_EXTRA_BLOCKS
def LOWER_MASK : Nat := 0xFF
def UPPER_MASK : Nat := 0xFF <<< 21

def FUEL : Nat := 600

/-- The 32-bit mix function `hash` (dawg_builder.rs lines 26-35); all
arithmetic is `Wrapping<u32>`, i.e. modulo 2^32; `!key` is bitwise not. -/
def hash (key : Nat) : Nat :=
  let m := 4294967296
  let k := key % m
  let k := ((m - 1 - k) + k * 32768) % m
  let k := k ^^^ (k / 4096)
  let k := (k + k * 4) % m
  let k := k ^^^ (k / 16)
  let k := (k * 2057) % m
  k ^^^ (k / 65536)

/-- `DawgNode` (dawg_node.rs). -/
structure DawgNode where
  child : Nat
  sibling : Nat
  label : Nat
  is_state : Bool
  has_sibling : Bool
deriving DecidableEq, Repr

def DawgNode.new : DawgNode :=
  { child := 0
    sibling := 0
    label := 0
    is_state := false
    has_sibling := false }

/-- `DawgNode::unit` (dawg_node.rs lines 19-28); disjoint-bit `|` is `+`. -/
def DawgNode.unit (n : DawgNode) : Nat :=
  if n.label = 0 then
    n.child * 2 + (if n.has_sibling then 1 else 0)
  else
    n.child * 4 + (if n.is_state then 2 else 0) + (if n.has_sibling then 1 else 0)

/-- `DawgUnit` accessors on `usize` (dawg_unit.rs). -/
def unitChild (u : Nat) : Nat := u / 4

def unitHasSibling (u : Nat) : Bool := u % 2 == 1

/-- `(self >> 1) as u32`. -/
def unitValue (u : Nat) : Nat := (u / 2) % 4294967296

def unitIsState (u : Nat) : Bool := (u / 2) % 2 == 1

/-- `DawgBuilder` (dawg_builder.rs lines 11-23).  The hash table is kept as a
total function plus its length (entries default 0). -/
structure DawgBuilder where
  nodes : List DawgNode
  units : List Nat
  labels : List Nat
  isIntersectionsBuf : List Bool
  isIntersections : List Bool
  table : Nat → Nat
  tableLen : Nat
  node_stack : List Nat
  recycle_bin : List Nat
  num_states : Nat

def DawgBuilder.new : DawgBuilder :=
  { nodes := []
    units := []
    labels := []
    isIntersectionsBuf := []
    isIntersections := []
    table := fun _ => 0
    tableLen := 0
    node_stack := []
    recycle_bin := []
    num_states := 0 }

def DawgBuilder.root (_ : DawgBuilder) : Nat := 0

def DawgBuilder.child (d : DawgBuilder) (id : Nat) : Nat :=
  unitChild (d.units.getD id 0)

def DawgBuilder.sibling (d : DawgBuilder) (id : Nat) : Nat :=
  if unitHasSibling (d.units.getD id 0) then id + 1 else 0

def DawgBuilder.value (d : DawgBuilder) (id : Nat) : Nat :=
  unitValue (d.units.getD id 0)

def DawgBuilder.label (d : DawgBuilder) (id : Nat) : Nat :=
  d.labels.getD id 0

/-- `DawgBuilder::is_leaf` (dawg_builder.rs lines 69-71), as written in the
source: `self.label(id) != 0`.  (darts-clone's original is `label == 0`.) -/
def DawgBuilder.is_leaf (d : DawgBuilder) (id : Nat) : Bool :=
  DawgBuilder.label d id != 0

def DawgBuilder.is_intersection (d : DawgBuilder) (id : Nat) : Bool :=
  d.isIntersections.getD id false

def DawgBuilder.intersection_id (d : DawgBuilder) (id : Nat) : Nat :=
  (d.isIntersections.take id).count true

def DawgBuilder.num_intersections (d : DawgBuilder) : Nat :=
  d.isIntersections.count true

def DawgBuilder.size (d : DawgBuilder) : Nat := d.units.length

def DawgBuilder.modifyNode (d : DawgBuilder) (i : Nat) (f : DawgNode → DawgNode) :
    DawgBuilder :=
  { d with nodes := d.nodes.set i (f (d.nodes.getD i DawgNode.new)) }

def DawgBuilder.setTable (d : DawgBuilder) (k v : Nat) : DawgBuilder :=
  { d with table := fun j => if j = k then v else d.table j }

/-- `append_unit` (lines 157-164): push one slot, return its index. -/
def DawgBuilder.append_unit (d : DawgBuilder) : Nat × DawgBuilder :=
  let d := { d with isIntersectionsBuf := d.isIntersectionsBuf ++ [false],
                    units := d.units ++ [0],
                    labels := d.labels ++ [0] }
  (d.isIntersectionsBuf.length - 1, d)

/-- `append_node` (lines 165-175): reuse the last recycled id if any. -/
def DawgBuilder.append_node (d : DawgBuilder) : Nat × DawgBuilder :=
  if d.recycle_bin.isEmpty then
    (d.nodes.length, { d with nodes := d.nodes ++ [DawgNode.new] })
  else
    let id := d.recycle_bin.getLastD 0
    (id, { d with recycle_bin := d.recycle_bin.dropLast,
                  nodes := d.nodes.set id DawgNode.new })

/-- `init` (lines 91-98). -/
def DawgBuilder.init (d : DawgBuilder) : DawgBuilder :=
  let d := { d with table := fun _ => 0, tableLen := INITIAL_TABLE_SIZE }
  let d := (DawgBuilder.append_node d).2
  let d := (DawgBuilder.append_unit d).2
  let d := { d with num_states := 1 }
  let d := DawgBuilder.modifyNode d 0 (fun n => { n with label := 255 })
  { d with node_stack := d.node_stack ++ [0] }

/-- `hash_node` loop (lines 295-306): xor of mixed (label << 24) ^ unit. -/
def DawgBuilder.hash_node_go (d : DawgBuilder) : Nat → Nat → Nat → Nat
  | 0, _, acc => acc
  | fuel + 1, id, acc =>
    if id = 0 then acc
    else
      let nd := d.nodes.getD id DawgNode.new
      let h := hash (((nd.label * 16777216) ^^^ nd.unit) % 4294967296)
      DawgBuilder.hash_node_go d fuel nd.sibling (acc ^^^ h)

def DawgBuilder.hash_node (d : DawgBuilder) (id : Nat) : Nat :=
  DawgBuilder.hash_node_go d FUEL id 0

/-- `hash_unit` loop (lines 282-294). -/
def DawgBuilder.hash_unit_go (d : DawgBuilder) : Nat → Nat → Nat → Nat
  | 0, _, acc => acc
  | fuel + 1, id, acc =>
    if id = 0 then acc
    else
      let u := d.units.getD id 0
      let l := d.labels.getD id 0
      let acc := acc ^^^ hash (((l * 16777216) ^^^ u) % 4294967296)
      if unitHasSibling u then DawgBuilder.hash_unit_go d fuel (id + 1) acc
      else acc

def DawgBuilder.hash_unit (d : DawgBuilder) (id : Nat) : Nat :=
  DawgBuilder.hash_unit_go d FUEL id 0

/-- `find_unit` probe loop (lines 229-239). -/
def DawgBuilder.find_unit_go (d : DawgBuilder) : Nat → Nat → Nat
  | 0, h => h
  | fuel + 1, hash_id =>
    if d.table hash_id = 0 then hash_id
    else DawgBuilder.find_unit_go d fuel ((hash_id + 1) % d.tableLen)

def DawgBuilder.find_unit (d : DawgBuilder) (id : Nat) : Nat :=
  DawgBuilder.find_unit_go d FUEL (DawgBuilder.hash_unit d id % d.tableLen)

/-- First loop of `are_equal` (lines 256-266): advance unit_id along the
sibling chain, failing if the unit chain is shorter or longer. -/
def DawgBuilder.are_equal_go1 (d : DawgBuilder) : Nat → Nat → Nat → Option Nat
  | 0, _, _ => none
  | fuel + 1, i, unit_id =>
    if i = 0 then some unit_id
    else if unitHasSibling (d.units.getD unit_id 0) then
      DawgBuilder.are_equal_go1 d fuel (d.nodes.getD i DawgNode.new).sibling (unit_id + 1)
    else none

/-- Second loop of `are_equal` (lines 267-277): compare units and labels. -/
def DawgBuilder.are_equal_go2 (d : DawgBuilder) : Nat → Nat → Nat → Bool
  | 0, _, _ => false
  | fuel + 1, i, unit_id =>
    if i = 0 then true
    else
      let nd := d.nodes.getD i DawgNode.new
      if nd.unit = d.units.getD unit_id 0 ∧ nd.label = d.labels.getD unit_id 0 then
        DawgBuilder.are_equal_go2 d fuel nd.sibling (unit_id - 1)
      else false

def DawgBuilder.are_equal (d : DawgBuilder) (node_id unit_id : Nat) : Bool :=
  match DawgBuilder.are_equal_go1 d FUEL (d.nodes.getD node_id DawgNode.new).sibling unit_id with
  | none => false
  | some uid =>
    if unitHasSibling (d.units.getD uid 0) then false
    else DawgBuilder.are_equal_go2 d FUEL node_id uid

/-- `find_node` probe loop (lines 240-255). -/
def DawgBuilder.find_node_go (d : DawgBuilder) (node_id : Nat) : Nat → Nat → Nat × Nat
  | 0, h => (h, 0)
  | fuel + 1, hash_id =>
    let unit_id := d.table hash_id
    if unit_id = 0 then (hash_id, 0)
    else if DawgBuilder.are_equal d node_id unit_id then (hash_id, unit_id)
    else DawgBuilder.find_node_go d node_id fuel ((hash_id + 1) % d.tableLen)

def DawgBuilder.find_node (d : DawgBuilder) (node_id : Nat) : Nat × Nat :=
  DawgBuilder.find_node_go d node_id FUEL (DawgBuilder.hash_node d node_id % d.tableLen)

/-- `expand_table` (lines 219-228). -/
def DawgBuilder.expand_table (d : DawgBuilder) : DawgBuilder :=
  let ts := d.tableLen * 2
  let d := { d with table := fun _ => 0, tableLen := ts }
  (List.range' 1 (d.units.length - 1)).foldl (fun d i =>
    if d.labels.getD i 0 = 0 ∨ unitIsState (d.units.getD i 0) then
      DawgBuilder.setTable d (DawgBuilder.find_unit d i) i
    else d) d

/-- `num_siblings` count in `flush` (lines 182-187). -/
def DawgBuilder.count_siblings (d : DawgBuilder) : Nat → Nat → Nat
  | 0, _ => 0
  | fuel + 1, i =>
    if i = 0 then 0
    else 1 + DawgBuilder.count_siblings d fuel (d.nodes.getD i DawgNode.new).sibling

/-- The `for _ in 0..num_siblings { unit_id = append_unit() }` loop. -/
def DawgBuilder.append_units : Nat → DawgBuilder → Nat × DawgBuilder
  | 0, d => (0, d)
  | 1, d => DawgBuilder.append_unit d
  | n + 1, d => DawgBuilder.append_units n (DawgBuilder.append_unit d).2

/-- The unit-writing loop of `flush` (lines 196-204), walking the sibling
chain downwards from `unit_id`. -/
def DawgBuilder.write_units_go : Nat → DawgBuilder → Nat → Nat → DawgBuilder × Nat
  | 0, d, _, unit_id => (d, unit_id)
  | fuel + 1, d, i, unit_id =>
    if i = 0 then (d, unit_id)
    else
      let nd := d.nodes.getD i DawgNode.new
      let d := { d with units := d.units.set unit_id nd.unit,
                        labels := d.labels.set unit_id nd.label }
      DawgBuilder.write_units_go fuel d nd.sibling (unit_id - 1)

/-- The node-freeing loop of `flush` (lines 211-216). -/
def DawgBuilder.free_nodes_go : Nat → DawgBuilder → Nat → DawgBuilder
  | 0, d, _ => d
  | fuel + 1, d, i =>
    if i = 0 then d
    else
      let next := (d.nodes.getD i DawgNode.new).sibling
      let d := { d with recycle_bin := d.recycle_bin ++ [i] }
      DawgBuilder.free_nodes_go fuel d next

/-- `flush` (lines 176-218). -/
def DawgBuilder.flush_go : Nat → DawgBuilder → Nat → DawgBuilder
  | 0, d, _ => d
  | fuel + 1, d, id =>
    if d.node_stack.getLastD 0 = id then { d with node_stack := d.node_stack.dropLast }
    else
      let node_id := d.node_stack.getLastD 0
      let d := { d with node_stack := d.node_stack.dropLast }
      let d := if d.tableLen - (d.tableLen / 4) ≤ d.num_states
               then DawgBuilder.expand_table d else d
      let num_siblings := DawgBuilder.count_siblings d FUEL node_id
      let p := DawgBuilder.find_node d node_id
      let hash_id := p.1
      let match_id0 := p.2
      let q : DawgBuilder × Nat :=
        if match_id0 ≠ 0 then
          ({ d with isIntersectionsBuf := d.isIntersectionsBuf.set match_id0 true }, match_id0)
        else
          let r := DawgBuilder.append_units num_siblings d
          let s := DawgBuilder.write_units_go FUEL r.2 node_id r.1
          let m := s.2 + 1
          let d := DawgBuilder.setTable s.1 hash_id m
          ({ d with num_states := d.num_states + 1 }, m)
      let d := DawgBuilder.free_nodes_go FUEL q.1 node_id
      let d := DawgBuilder.modifyNode d (d.node_stack.getLastD 0)
        (fun n => { n with child := q.2 })
      DawgBuilder.flush_go fuel d id

def DawgBuilder.flush (d : DawgBuilder) (id : Nat) : DawgBuilder :=
  DawgBuilder.flush_go FUEL d id

/-- The descent loop of `insert` (lines 117-143); `none` models the panics
(out-of-bounds key index, embedded null character, wrong key order).
Returns `(id, key_pos, state)` at loop exit. -/
def DawgBuilder.insert_find_go :
    Nat → DawgBuilder → List Nat → Nat → Nat → Nat → Option (Nat × Nat × DawgBuilder)
  | 0, _, _, _, _, _ => none
  | fuel + 1, d, key, length, id, key_pos =>
    if length < key_pos then some (id, key_pos, d)
    else
      let child_id := (d.nodes.getD id DawgNode.new).child
      if child_id = 0 then some (id, key_pos, d)
      else if key.length ≤ key_pos then none
      else
        let key_label := key.getD key_pos 0
        if key_pos < length ∧ key_label = 0 then none
        else
          let unit_label := (d.nodes.getD child_id DawgNode.new).label
          if unit_label < key_label then
            let d := DawgBuilder.modifyNode d child_id (fun n => { n with has_sibling := true })
            let d := DawgBuilder.flush d child_id
            some (id, key_pos, d)
          else if key_label < unit_label then none
          else DawgBuilder.insert_find_go fuel d key length child_id (key_pos + 1)

/-- The node-appending loop of `insert` (lines 147-159). -/
def DawgBuilder.insert_add_go :
    Nat → DawgBuilder → List Nat → Nat → Nat → Nat → Nat × DawgBuilder
  | 0, d, _, _, id, _ => (id, d)
  | fuel + 1, d, key, length, id, key_pos =>
    if length < key_pos then (id, d)
    else
      let key_label := if key_pos < length then key.getD key_pos 0 else 0
      let p := DawgBuilder.append_node d
      let child_id := p.1
      let d := p.2
      let d := if (d.nodes.getD id DawgNode.new).child = 0
               then DawgBuilder.modifyNode d child_id (fun n => { n with is_state := true })
               else d
      let d := DawgBuilder.modifyNode d child_id
        (fun n => { n with sibling := (d.nodes.getD id DawgNode.new).child })
      let d := DawgBuilder.modifyNode d child_id (fun n => { n with label := key_label })
      let d := DawgBuilder.modifyNode d id (fun n => { n with child := child_id })
      let d := { d with node_stack := d.node_stack ++ [child_id] }
      DawgBuilder.insert_add_go fuel d key length child_id (key_pos + 1)

/-- `insert` (lines 116-160). -/
def DawgBuilder.insert (d : DawgBuilder) (key : List Nat) (length : Nat) (value : Nat) :
    Option DawgBuilder :=
  match DawgBuilder.insert_find_go FUEL d key length 0 0 with
  | none => none
  | some (id, key_pos, d) =>
    if length < key_pos then some d
    else
      let p := DawgBuilder.insert_add_go FUEL d key length id key_pos
      some (DawgBuilder.modifyNode p.2 p.1 (fun n => { n with child := value }))

/-- `finish` (lines 99-115). -/
def DawgBuilder.finish (d : DawgBuilder) : Option DawgBuilder :=
  let d := DawgBuilder.flush d 0
  let d := { d with units := d.units.set 0 (d.nodes.getD 0 DawgNode.new).unit,
                    labels := d.labels.set 0 (d.nodes.getD 0 DawgNode.new).label }
  let d := { d with nodes := [], table := fun _ => 0, tableLen := 0,
                    node_stack := [], recycle_bin := [] }
  some { d with isIntersections := d.isIntersectionsBuf, isIntersectionsBuf := [] }

/-- `Keyset` (keyset.rs), with the slices as lists. -/
structure Keyset where
  keys : List (List Nat)
  lengths : List Nat
  values : List Nat
deriving Repr

def Keyset.has_values (k : Keyset) : Bool := !k.values.isEmpty

def Keyset.has_lengths (k : Keyset) : Bool := !k.lengths.isEmpty

def Keyset.get_key (k : Keyset) (key_id : Nat) : List Nat := k.keys.getD key_id []

def Keyset.get_char (k : Keyset) (key_id char_id : Nat) : Nat :=
  if k.has_lengths ∧ k.lengths.getD key_id 0 ≤ char_id then 0
  else (k.keys.getD key_id []).getD char_id 0

def Keyset.num_keys (k : Keyset) : Nat := k.keys.length

def Keyset.get_value (k : Keyset) (id : Nat) : Nat :=
  if k.has_values then k.values.getD id 0 else id % 4294967296

/-- Null-terminated length scan of `get_length`'s else-branch. -/
def nullTermLen (key : List Nat) : Nat := (key.takeWhile (fun c => c != 0)).length

def Keyset.get_length (k : Keyset) (id : Nat) : Nat :=
  if k.has_lengths then k.lengths.getD id 0 else nullTermLen (k.keys.getD id [])

/-- `DoubleArrayUnit` accessors on `u32` (double_array_unit.rs). -/
def daOffset (u : Nat) : Nat :=
  (u / 1024) * (if (u / 512) % 2 = 1 then 256 else 1)

def daLabel (u : Nat) : Nat := u % 256

def daHasLeaf (u : Nat) : Bool := (u / 256) % 2 == 1

def daValue (u : Nat) : Int := ((u % 2147483648 : Nat) : Int)

/-- `DoubleArrayBuilderUnit` setters on `u32` (double_array_builder_unit.rs). -/
def daSetHasLeaf (u : Nat) (h : Bool) : Nat :=
  if h then u ||| 256 else u &&& 4294967039

def daSetValue (v : Nat) : Nat := (v % 4294967296) ||| 2147483648

def daSetLabel (u l : Nat) : Nat := (u &&& 4294967040) ||| (l % 256)

/-- `set_offset`, `none` on the too-large-offset panic. -/
def daSetOffset (u offset : Nat) : Option Nat :=
  if 536870912 ≤ offset then none
  else
    let u := u &&& 2147484159
    if offset < 2097152 then some (u ||| (offset * 1024))
    else some (u ||| ((offset * 4) ||| 512))

/-- `DoubleArrayBuilderExtraUnit` (double_array_builder_extra_unit.rs). -/
structure DoubleArrayBuilderExtraUnit where
  prev : Nat
  next : Nat
  is_fixed : Bool
  is_used : Bool
deriving DecidableEq, Repr

def DoubleArrayBuilderExtraUnit.new : DoubleArrayBuilderExtraUnit :=
  { prev := 0
    next := 0
    is_fixed := false
    is_used := false }

/-- `DoubleArrayBuilder` (double_array_builder.rs lines 12-18); the unit
array and the circular extras pool are kept as total functions. -/
structure DoubleArrayBuilder where
  labels : List Nat
  units : Nat → Nat
  unitsLen : Nat
  extras : Nat → DoubleArrayBuilderExtraUnit
  table : List Nat
  extras_head : Nat

def DoubleArrayBuilder.new : DoubleArrayBuilder :=
  { labels := []
    units := fun _ => 0
    unitsLen := 0
    extras := fun _ => DoubleArrayBuilderExtraUnit.new
    table := []
    extras_head := 0 }

/-- `get_extra` (line 361-363): index modulo NUM_EXTRAS. -/
def get_extra (b : DoubleArrayBuilder) (id : Nat) : DoubleArrayBuilderExtraUnit :=
  b.extras (id % NUM_EXTRAS)

def set_extra (b : DoubleArrayBuilder) (id : Nat)
    (f : DoubleArrayBuilderExtraUnit → DoubleArrayBuilderExtraUnit) : DoubleArrayBuilder :=
  { b with extras := fun j =>
      if j = id % NUM_EXTRAS then f (b.extras (id % NUM_EXTRAS)) else b.extras j }

def setUnit (b : DoubleArrayBuilder) (id : Nat) (f : Nat → Nat) : DoubleArrayBuilder :=
  { b with units := fun j => if j = id then f (b.units id) else b.units j }

def DoubleArrayBuilder.num_blocks (b : DoubleArrayBuilder) : Nat :=
  b.unitsLen / BLOCK_SIZE

mutual

/-- `fix_block` (lines 341-358), including the faithful `end = start *
BLOCK_SIZE` (for block 0 both loops are empty, so no unit is relabelled). -/
def fix_block : Nat → DoubleArrayBuilder → Nat → DoubleArrayBuilder
  | 0, b, _ => b
  | fuel + 1, b, block_id =>
    let start := block_id * BLOCK_SIZE
    let stop := start * BLOCK_SIZE
    let unused_offset :=
      (((List.range' start (stop - start)).find?
        (fun o => ! (get_extra b o).is_used)).getD 0)
    (List.range' start (stop - start)).foldl (fun b id =>
      if (get_extra b id).is_fixed then b
      else
        let b := reserve_id fuel b id
        setUnit b id (fun u => daSetLabel u (id ^^^ unused_offset))) b

/-- `reserve_id` (lines 276-290). -/
def reserve_id : Nat → DoubleArrayBuilder → Nat → DoubleArrayBuilder
  | 0, b, _ => b
  | fuel + 1, b, id =>
    let b := if b.unitsLen ≤ id then expand_units fuel b else b
    let b :=
      if id = b.extras_head then
        let eh := (get_extra b id).next
        { b with extras_head := if eh = id then b.unitsLen else eh }
      else b
    let prev := (get_extra b id).prev
    let next := (get_extra b id).next
    let b := set_extra b prev (fun e => { e with next := next })
    set_extra b next (fun e => { e with prev := prev })

/-- `expand_units` (lines 291-331), including the faithful
`for id in src_num_units..dest_num_blocks` reset loop. -/
def expand_units : Nat → DoubleArrayBuilder → DoubleArrayBuilder
  | 0, b => b
  | fuel + 1, b =>
    let src_num_units := b.unitsLen
    let src_num_blocks := DoubleArrayBuilder.num_blocks b
    let dest_num_units := src_num_units + BLOCK_SIZE
    let dest_num_blocks := src_num_blocks + 1
    let b := if NUM_EXTRA_BLOCKS < dest_num_blocks
             then fix_block fuel b (src_num_blocks - NUM_EXTRA_BLOCKS) else b
    let b := { b with unitsLen := dest_num_units }
    let b :=
      if NUM_EXTRA_BLOCKS < dest_num_blocks then
        (List.range' src_num_units (dest_num_blocks - src_num_units)).foldl
          (fun b id => set_extra b id
            (fun e => { e with is_used := false, is_fixed := false })) b
      else b
    let b := (List.range' (src_num_units + 1) (dest_num_units - (src_num_units + 1))).foldl
      (fun b id =>
        let b := set_extra b (id - 1) (fun e => { e with next := id })
        set_extra b id (fun e => { e with prev := id - 1 })) b
    let b := set_extra b src_num_units (fun e => { e with prev := dest_num_units - 1 })
    let b := set_extra b (dest_num_units - 1) (fun e => { e with next := src_num_units })
    let hp := (get_extra b b.extras_head).prev
    let b := set_extra b src_num_units (fun e => { e with prev := hp })
    let b := set_extra b (dest_num_units - 1) (fun e => { e with next := b.extras_head })
    let head_prev := (get_extra b b.extras_head).prev
    let b := set_extra b head_prev (fun e => { e with next := src_num_units })
    set_extra b b.extras_head (fun e => { e with prev := dest_num_units - 1 })

end

/-- `fix_all_blocks` (lines 332-340). -/
def fix_all_blocks (b : DoubleArrayBuilder) : DoubleArrayBuilder :=
  let nb := DoubleArrayBuilder.num_blocks b
  let start := if NUM_EXTRA_BLOCKS < nb then nb - NUM_EXTRA_BLOCKS else 0
  (List.range' start (nb - start)).foldl (fun b bid => fix_block FUEL b bid) b

/-- `is_valid_offset` (lines 267-275), as written in the source (including
`rel_offset ^ LOWER_MASK` where darts-clone uses `&`). -/
def is_valid_offset (b : DoubleArrayBuilder) (id offset : Nat) : Bool :=
  if (get_extra b offset).is_used then false
  else
    let rel_offset := id ^^^ offset
    if 0 < rel_offset ^^^ LOWER_MASK ∧ 0 < rel_offset &&& UPPER_MASK then false
    else
      (List.range' 1 (b.labels.length - 1)).all
        (fun i => ! (get_extra b (offset ^^^ b.labels.getD i 0)).is_fixed)

/-- The do-while free-list walk of `find_valid_offset` (lines 256-263). -/
def find_valid_offset_go (b : DoubleArrayBuilder) (id : Nat) : Nat → Nat → Option Nat
  | 0, _ => none
  | fuel + 1, unfixed_id =>
    let offset := unfixed_id ^^^ b.labels.getD 0 0
    if is_valid_offset b id offset then some offset
    else
      let nxt := (get_extra b unfixed_id).next
      if nxt = b.extras_head then none
      else find_valid_offset_go b id fuel nxt

/-- `find_valid_offset` (lines 251-265). -/
def find_valid_offset (b : DoubleArrayBuilder) (id : Nat) : Nat :=
  if b.unitsLen ≤ b.extras_head then b.unitsLen ||| (id &&& LOWER_MASK)
  else
    match find_valid_offset_go b id FUEL b.extras_head with
    | some o => o
    | none => b.unitsLen ||| (id &&& LOWER_MASK)

/-- The label-collecting walk of `arrange_from_dawg_builder` (lines 112-117). -/
def collectLabels (d : DawgBuilder) : Nat → Nat → List Nat
  | 0, _ => []
  | fuel + 1, c =>
    if c = 0 then []
    else DawgBuilder.label d c :: collectLabels d fuel (DawgBuilder.sibling d c)

/-- `arrange_from_dawg_builder` (lines 105-139). -/
def arrange_from_dawg_builder (b : DoubleArrayBuilder) (d : DawgBuilder)
    (dawg_id dict_id : Nat) : Option (Nat × DoubleArrayBuilder) :=
  let b := { b with labels := collectLabels d FUEL (DawgBuilder.child d dawg_id) }
  let offset := find_valid_offset b dict_id
  match daSetOffset (b.units dict_id) (dict_id ^^^ offset) with
  | none => none
  | some u =>
    let b := setUnit b dict_id (fun _ => u)
    let p := b.labels.foldl (fun (p : DoubleArrayBuilder × Nat) l =>
        let b := p.1
        let dawg_child_id := p.2
        let dict_child_id := offset ^^^ l
        let b := reserve_id FUEL b dict_child_id
        let b :=
          if DawgBuilder.is_leaf d dawg_child_id then
            let b := setUnit b dict_id (fun u => daSetHasLeaf u true)
            setUnit b dict_child_id (fun _ => daSetValue (DawgBuilder.value d dawg_child_id))
          else
            setUnit b dict_child_id (fun u => daSetLabel u l)
        (b, DawgBuilder.sibling d dawg_child_id))
      (b, DawgBuilder.child d dawg_id)
    let b := set_extra p.1 offset (fun e => { e with is_used := true })
    some (offset, b)

mutual

/-- `_build_from_dawg` (lines 77-104). -/
def build_from_dawg_rec :
    Nat → DawgBuilder → DoubleArrayBuilder → Nat → Nat → Option DoubleArrayBuilder
  | 0, _, _, _, _ => none
  | fuel + 1, d, b, dawg_id, dict_id =>
    let dawg_child_id := DawgBuilder.child d dawg_id
    let inter := DawgBuilder.is_intersection d dawg_child_id
    let iid := DawgBuilder.intersection_id d dawg_child_id
    let offset0 := b.table.getD iid 0
    if inter ∧ offset0 ≠ 0 ∧
        ((offset0 ^^^ dict_id) &&& UPPER_MASK = 0 ∨ (offset0 ^^^ dict_id) &&& LOWER_MASK = 0) then
      let o := offset0 ^^^ dict_id
      let b := if DawgBuilder.is_leaf d dawg_child_id
               then setUnit b dict_id (fun u => daSetHasLeaf u true) else b
      match daSetOffset (b.units dict_id) o with
      | none => none
      | some u => some (setUnit b dict_id (fun _ => u))
    else
      match arrange_from_dawg_builder b d dawg_id dict_id with
      | none => none
      | some (offset, b) =>
        let b := if inter then { b with table := b.table.set iid offset } else b
        build_from_dawg_children fuel d b offset dawg_child_id

/-- The do-while sibling loop of `_build_from_dawg` (lines 95-103). -/
def build_from_dawg_children :
    Nat → DawgBuilder → DoubleArrayBuilder → Nat → Nat → Option DoubleArrayBuilder
  | 0, _, _, _, _ => none
  | fuel + 1, d, b, offset, c =>
    let child_label := DawgBuilder.label d c
    let dict_child_id := offset ^^^ child_label
    let step : Option DoubleArrayBuilder :=
      if child_label ≠ 0 then build_from_dawg_rec fuel d b c dict_child_id else some b
    match step with
    | none => none
    | some b =>
      let c2 := DawgBuilder.sibling d c
      if c2 = 0 then some b else build_from_dawg_children fuel d b offset c2

end

/-- `build_from_dawg` (lines 50-76). -/
def build_from_dawg (d : DawgBuilder) (b : DoubleArrayBuilder) :
    Option DoubleArrayBuilder :=
  let b := { b with table := List.replicate (DawgBuilder.num_intersections d) 0 }
  let b := { b with extras := fun _ => DoubleArrayBuilderExtraUnit.new }
  let b := reserve_id FUEL b 0
  let b := set_extra b 0 (fun e => { e with is_used := true })
  match daSetOffset (b.units 0) 1 with
  | none => none
  | some u =>
    let b := setUnit b 0 (fun _ => u)
    let b := setUnit b 0 (fun u => daSetLabel u 0)
    let r := if DawgBuilder.child d (DawgBuilder.root d) ≠ 0
             then build_from_dawg_rec FUEL d b (DawgBuilder.root d) 0
             else some b
    match r with
    | none => none
    | some b =>
      let b := fix_all_blocks b
      some { b with extras := fun _ => DoubleArrayBuilderExtraUnit.new,
                    labels := [], table := [] }

/-- `build_dawg` (lines 41-49). -/
def build_dawg (ks : Keyset) : Option DawgBuilder :=
  let d := DawgBuilder.init DawgBuilder.new
  let r := (List.range (Keyset.num_keys ks)).foldl
    (fun od i =>
      match od with
      | none => none
      | some d =>
        DawgBuilder.insert d (Keyset.get_key ks i) (Keyset.get_length ks i)
          (Keyset.get_value ks i))
    (some d)
  match r with
  | none => none
  | some d => DawgBuilder.finish d

/-- `DoubleArrayBuilder::build` (lines 30-37).  The claim's inputs always
carry values, so only the DAWG path is taken; the value-less
`build_from_keyset` path is left unmodelled (`none`). -/
def DoubleArrayBuilder.build (ks : Keyset) : Option DoubleArrayBuilder :=
  if Keyset.has_values ks then
    match build_dawg ks with
    | none => none
    | some d => build_from_dawg d DoubleArrayBuilder.new
  else none

/-- `DoubleArrayTrie` (double_array_trie.rs lines 10-13). -/
structure DoubleArrayTrie where
  array : Nat → Nat
  size : Nat

/-- `DoubleArrayTrie::build` (lines 17-25): lengths are the key lengths. -/
def DoubleArrayTrie.build (keys : List (List Nat)) (values : List Nat) :
    Option DoubleArrayTrie :=
  let lengths := keys.map List.length
  let ks : Keyset := { keys := keys, lengths := lengths, values := values }
  match DoubleArrayBuilder.build ks with
  | none => none
  | some b => some { array := b.units, size := b.unitsLen }

/-- The indexed loop of `common_prefix_search` (lines 57-68). -/
def common_prefix_search_go (t : DoubleArrayTrie) :
    List Nat → Nat → Nat → Nat → Nat → List (Int × Nat) → List (Int × Nat)
  | [], _, _, _, _, results => results
  | c :: rest, node_pos, i, num_results, max_num_results, results =>
    let node_pos := node_pos ^^^ c
    let u := t.array node_pos
    if daLabel u ≠ c then results
    else
      let node_pos := node_pos ^^^ daOffset u
      if daHasLeaf u then
        let results :=
          if num_results < max_num_results
          then results ++ [(daValue (t.array node_pos), i + 1)] else results
        common_prefix_search_go t rest node_pos (i + 1) (num_results + 1)
          max_num_results results
      else common_prefix_search_go t rest node_pos (i + 1) num_results
        max_num_results results

/-- `common_prefix_search` (lines 46-70). -/
def DoubleArrayTrie.common_prefix_search (t : DoubleArrayTrie) (key : List Nat) :
    List (Int × Nat) :=
  let u := t.array 0
  common_prefix_search_go t key (0 ^^^ daOffset u) 0 0 key.length []

end Darts

/-- The DAWG produced by `build_dawg` for the single key `"a"` (0x61) with
value 42, written out concretely: unit 1 is the value terminal
(42 << 1 = 84), unit 2 the labelled 0x61 transition (child 1, state:
1 * 4 + 2 = 6), unit 0 the root (child 2, no sibling: 2 * 4 = 8). -/
def c6dawg : Darts.DawgBuilder :=
  { nodes := []
    units := [8, 84, 6]
    labels := [255, 0, 97]
    isIntersectionsBuf := []
    isIntersections := [false, false, false]
    table := fun _ => 0
    tableLen := 0
    node_stack := []
    recycle_bin := []
    num_states := 3 }

/-- Evaluation of `common_prefix_search` on the two double-array units it
actually reads for the query `"a"`: the root unit 98560 has offset 96, so
the first transition lands at index 96 ^ 0x61 = 1, whose unit 2147486723 is
a value unit with label byte 3 ≠ 0x61, hence the empty result list. -/
theorem darts_search_at_c6_units (t : Darts.DoubleArrayTrie)
    (h0 : t.array 0 = 98560) (h1 : t.array 1 = 2147486723) :
    Darts.DoubleArrayTrie.common_prefix_search t [97] = [] := by
  unfold Darts.DoubleArrayTrie.common_prefix_search
  simp only [h0]
  unfold Darts.common_prefix_search_go
  norm_num [Darts.daOffset, Darts.daLabel, h1, show (96 : Nat) ^^^ 97 = 1 from by decide]

set_option maxRecDepth 20000 in
set_option maxHeartbeats 8000000 in
/-- C6: the double-array round trip fails: for the stored key `"a"` (byte
0x61, no null byte) with 31-bit value 42, `common_prefix_search("a")` on
the built trie returns the empty list instead of a list containing
(42, 1).  `DawgBuilder::is_leaf` returns `label != 0` (inverted from
darts-clone's `label == 0`), so during `arrange_from_dawg_builder` the
interior 0x61 transition is treated as the leaf: the root unit is marked
has-leaf and the transition unit is overwritten with a garbage value unit
whose label byte no longer matches 0x61, aborting every search. -/
theorem doubleArrayTrie_c6_round_trip_failure :
    (Darts.DoubleArrayTrie.build [[97]] [42]).map
      (fun t => Darts.DoubleArrayTrie.common_prefix_search t [97]) = some [] := by
  have hd : Darts.build_dawg
      { keys := [[97]], lengths := List.map List.length [[97]], values := [42] }
      = some c6dawg := by rfl
  have hu : (Darts.build_from_dawg c6dawg Darts.DoubleArrayBuilder.new).map
      (fun b => (b.units 0, b.units 1)) = some (98560, 2147486723) := by rfl
  unfold Darts.DoubleArrayTrie.build
  simp only [Darts.DoubleArrayBuilder.build]
  rw [show Darts.Keyset.has_values
    { keys := [[97]], lengths := List.map List.length [[97]], values := [42] }
    = true from rfl]
  simp only [eq_self_iff_true, if_true]
  rw [hd]
  dsimp only
  obtain ⟨B, hB, hval⟩ := Option.map_eq_some'.mp hu
  have hv0 : B.units 0 = 98560 := congrArg Prod.fst hval
  have hv1 : B.units 1 = 2147486723 := congrArg Prod.snd hval
  rw [hB]
  exact congrArg some (darts_search_at_c6_units _ hv0 hv1)

/-! ### C1 — proof development: scan semantics, build invariant, and global optimality -/

namespace Lattice

/-- The candidate value `connect_node` computes for predecessor `j`:
`l_node.total_cost + connect_cost` in wrapping `i32` arithmetic. -/
def vOf (connect : Nat → Nat → Int) (arena : List LatticeNode) (r : LatticeNode)
    (j : Nat) : Int :=
  wrapI32 ((arena.getD j default).totalCost
    + connect (arena.getD j default).rightId r.leftId)

/-- The sublist of a predecessor list that `connect_node` does not skip:
BOS-connected nodes with non-inhibited connection. -/
def eligList (connect : Nat → Nat → Int) (arena : List LatticeNode)
    (r : LatticeNode) (list : List Nat) : List Nat :=
  list.filter fun j =>
    (arena.getD j default).isConnectedToBos
      && decide (connect (arena.getD j default).rightId r.leftId
          ≠ Grammar.INHIBITED_CONNECTION)

/-- One minimization step of the `connect_node` loop. -/
def scanStep (v : Nat → Int) (st : Int × Option Nat) (j : Nat) : Int × Option Nat :=
  if v j < st.1 then (v j, some j) else st

theorem eligiblePreds_eq (lat : Lattice) (connect : Nat → Nat → Int)
    (n : LatticeNode) :
    eligiblePreds lat connect n
      = eligList connect lat.arena n (lat.endLists.getD n.start []) := rfl

theorem connectScan_eq_foldl (connect : Nat → Nat → Int) (arena : List LatticeNode)
    (r : LatticeNode) :
    ∀ (list : List Nat) (st : Int × Option Nat),
      connectScan connect arena r list st
        = (eligList connect arena r list).foldl (scanStep (vOf connect arena r)) st := by
  intro list
  induction list with
  | nil => intro st; rfl
  | cons j rest ih =>
    intro st
    obtain ⟨tc, bp⟩ := st
    by_cases hc : (arena.getD j default).isConnectedToBos = false
    · have hp : ((arena.getD j default).isConnectedToBos
          && decide (connect (arena.getD j default).rightId r.leftId
            ≠ Grammar.INHIBITED_CONNECTION)) = false := by
        rw [hc]; rfl
      rw [show connectScan connect arena r (j :: rest) (tc, bp)
          = connectScan connect arena r rest (tc, bp) from by
        simp only [connectScan]; rw [if_pos hc]]
      rw [show eligList connect arena r (j :: rest)
          = eligList connect arena r rest from by
        unfold eligList; rw [List.filter_cons, if_neg (by simp only [hp]; exact Bool.false_ne_true)]]
      exact ih _
    · have hc' : (arena.getD j default).isConnectedToBos = true :=
        Bool.not_eq_false _ |>.mp hc
      by_cases hi : connect (arena.getD j default).rightId r.leftId
          = Grammar.INHIBITED_CONNECTION
      · have hp : ((arena.getD j default).isConnectedToBos
            && decide (connect (arena.getD j default).rightId r.leftId
              ≠ Grammar.INHIBITED_CONNECTION)) = false := by
          rw [hc', Bool.true_and, decide_eq_false_iff_not]
          exact not_not_intro hi
        rw [show connectScan connect arena r (j :: rest) (tc, bp)
            = connectScan connect arena r rest (tc, bp) from by
          simp only [connectScan]
          rw [if_neg hc, if_pos hi]]
        rw [show eligList connect arena r (j :: rest)
            = eligList connect arena r rest from by
          unfold eligList; rw [List.filter_cons, if_neg (by simp only [hp]; exact Bool.false_ne_true)]]
        exact ih _
      · have hp : ((arena.getD j default).isConnectedToBos
            && decide (connect (arena.getD j default).rightId r.leftId
              ≠ Grammar.INHIBITED_CONNECTION)) = true := by
          rw [hc', Bool.true_and, decide_eq_true_eq]
          exact hi
      -- eligible: the scan performs one minimization step
        rw [show eligList connect arena r (j :: rest)
            = j :: eligList connect arena r rest from by
          unfold eligList; rw [List.filter_cons, if_pos (by exact hp)]]
        rw [List.foldl_cons]
        by_cases hlt : vOf connect arena r j < tc
        · rw [show connectScan connect arena r (j :: rest) (tc, bp)
              = connectScan connect arena r rest (vOf connect arena r j, some j) from by
            simp only [connectScan]
            rw [if_neg hc, if_neg hi]
            rw [if_pos (show wrapI32 ((arena.getD j default).totalCost
              + connect (arena.getD j default).rightId r.leftId) < tc from hlt)]
            rfl]
          rw [show scanStep (vOf connect arena r) (tc, bp) j
              = (vOf connect arena r j, some j) from by
            unfold scanStep; rw [if_pos hlt]]
          exact ih _
        · rw [show connectScan connect arena r (j :: rest) (tc, bp)
              = connectScan connect arena r rest (tc, bp) from by
            simp only [connectScan]
            rw [if_neg hc, if_neg hi]
            rw [if_neg (show ¬ wrapI32 ((arena.getD j default).totalCost
              + connect (arena.getD j default).rightId r.leftId) < tc from hlt)]]
          rw [show scanStep (vOf connect arena r) (tc, bp) j = (tc, bp) from by
            unfold scanStep; rw [if_neg hlt]]
          exact ih _

theorem foldl_scanStep_fst_le (v : Nat → Int) :
    ∀ (l : List Nat) (st : Int × Option Nat), (l.foldl (scanStep v) st).1 ≤ st.1 := by
  intro l
  induction l with
  | nil => intro st; exact le_refl _
  | cons j rest ih =>
    intro st
    rw [List.foldl_cons]
    refine le_trans (ih _) ?_
    unfold scanStep
    split
    · exact le_of_lt (by assumption)
    · exact le_refl _

theorem foldl_scanStep_le_mem (v : Nat → Int) :
    ∀ (l : List Nat) (st : Int × Option Nat) (j : Nat), j ∈ l →
      (l.foldl (scanStep v) st).1 ≤ v j := by
  intro l
  induction l with
  | nil => intro st j h; cases h
  | cons a rest ih =>
    intro st j h
    rw [List.foldl_cons]
    rcases List.mem_cons.mp h with h1 | h2
    · subst h1
      refine le_trans (foldl_scanStep_fst_le v rest _) ?_
      unfold scanStep
      split
      · exact le_refl _
      · exact le_of_not_lt (by assumption)
    · exact ih _ j h2

theorem foldl_scanStep_cases (v : Nat → Int) :
    ∀ (l : List Nat) (st : Int × Option Nat),
      l.foldl (scanStep v) st = st
        ∨ ∃ j ∈ l, l.foldl (scanStep v) st = (v j, some j) := by
  intro l
  induction l with
  | nil => intro st; exact Or.inl rfl
  | cons a rest ih =>
    intro st
    rw [List.foldl_cons]
    by_cases hlt : v a < st.1
    · rw [show scanStep v st a = (v a, some a) from by
        unfold scanStep; rw [if_pos hlt]]
      rcases ih (v a, some a) with h | ⟨j, hj, he⟩
      · exact Or.inr ⟨a, List.mem_cons_self _ _, h⟩
      · exact Or.inr ⟨j, List.mem_cons_of_mem _ hj, he⟩
    · rw [show scanStep v st a = st from by
        unfold scanStep; rw [if_neg hlt]]
      rcases ih st with h | ⟨j, hj, he⟩
      · exact Or.inl h
      · exact Or.inr ⟨j, List.mem_cons_of_mem _ hj, he⟩

theorem foldl_scanStep_found (v : Nat → Int) (l : List Nat) (st : Int × Option Nat)
    (j : Nat) (hj : j ∈ l) (hlt : v j < st.1) :
    ∃ j' ∈ l, l.foldl (scanStep v) st = (v j', some j') := by
  rcases foldl_scanStep_cases v l st with h | h
  · exfalso
    have hle := foldl_scanStep_le_mem v l st j hj
    rw [h] at hle
    exact absurd (lt_of_le_of_lt hle hlt) (lt_irrefl _)
  · exact h

end Lattice

namespace Lattice

/-- The raw (unwrapped) candidate value for predecessor `j`. -/
def rawOf (connect : Nat → Nat → Int) (arena : List LatticeNode) (r : LatticeNode)
    (j : Nat) : Int :=
  (arena.getD j default).totalCost + connect (arena.getD j default).rightId r.leftId

theorem connectNode_fields (connect : Nat → Nat → Int) (arena : List LatticeNode)
    (list : List Nat) (r : LatticeNode) :
    (connectNode connect arena list r).start = r.start
    ∧ (connectNode connect arena list r).endPos = r.endPos
    ∧ (connectNode connect arena list r).leftId = r.leftId
    ∧ (connectNode connect arena list r).rightId = r.rightId
    ∧ (connectNode connect arena list r).cost = r.cost :=
  ⟨rfl, rfl, rfl, rfl, rfl⟩

/-- The behaviour of `connect_node` over a predecessor list, given that
every eligible candidate value fits strictly below the `i32::MAX` sentinel
and above the minimum (no wrapping, sentinel always beaten). -/
theorem connectNode_spec (connect : Nat → Nat → Int) (arena : List LatticeNode)
    (list : List Nat) (r : LatticeNode)
    (hv : ∀ j ∈ eligList connect arena r list,
      -2147483648 ≤ rawOf connect arena r j
        ∧ rawOf connect arena r j < 2147483647) :
    (eligList connect arena r list = [] →
        (connectNode connect arena list r).isConnectedToBos = false
        ∧ (connectNode connect arena list r).bestPreviousNode = none)
    ∧ (eligList connect arena r list ≠ [] →
        ∃ j ∈ eligList connect arena r list,
          (connectNode connect arena list r).bestPreviousNode = some j
          ∧ (connectNode connect arena list r).isConnectedToBos = true
          ∧ (connectNode connect arena list r).totalCost
              = wrapI32 (rawOf connect arena r j + r.cost)
          ∧ ∀ k ∈ eligList connect arena r list,
              rawOf connect arena r j ≤ rawOf connect arena r k) := by
  have hval : ∀ j ∈ eligList connect arena r list,
      vOf connect arena r j = rawOf connect arena r j := by
    intro j hj
    exact wrapI32_eq_self (hv j hj).1 (le_of_lt (hv j hj).2)
  constructor
  · intro he
    have hscan : connectScan connect arena r list (2147483647, none)
        = (2147483647, none) := by
      rw [connectScan_eq_foldl, he]
      rfl
    constructor
    · show (connectScan connect arena r list (2147483647, none)).2.isSome = false
      rw [hscan]
      rfl
    · show (connectScan connect arena r list (2147483647, none)).2 = none
      rw [hscan]
  · intro he
    obtain ⟨j0, hj0⟩ := List.exists_mem_of_ne_nil _ he
    have hfound := foldl_scanStep_found (vOf connect arena r)
      (eligList connect arena r list) (2147483647, none) j0 hj0
      (by rw [hval j0 hj0]; exact (hv j0 hj0).2)
    obtain ⟨j, hj, hres⟩ := hfound
    have hscan : connectScan connect arena r list (2147483647, none)
        = (vOf connect arena r j, some j) := by
      rw [connectScan_eq_foldl]
      exact hres
    refine ⟨j, hj, ?_, ?_, ?_, ?_⟩
    · show (connectScan connect arena r list (2147483647, none)).2 = some j
      rw [hscan]
    · show (connectScan connect arena r list (2147483647, none)).2.isSome = true
      rw [hscan]
      rfl
    · show wrapI32 ((connectScan connect arena r list (2147483647, none)).1 + r.cost)
        = wrapI32 (rawOf connect arena r j + r.cost)
      rw [hscan, hval j hj]
    · intro k hk
      have hle := foldl_scanStep_le_mem (vOf connect arena r)
        (eligList connect arena r list) (2147483647, none) k hk
      rw [hres] at hle
      rw [← hval j hj, ← hval k hk]
      exact hle

/-- `LocalOpt` only reads the predecessor list at the node's start and the
arena entries of its members, so it transfers between lattices that agree
there. -/
theorem LocalOpt_congr (l₁ l₂ : Lattice) (connect : Nat → Nat → Int)
    (n : LatticeNode)
    (hE : l₂.endLists.getD n.start [] = l₁.endLists.getD n.start [])
    (hA : ∀ j ∈ l₁.endLists.getD n.start [],
      l₂.arena.getD j default = l₁.arena.getD j default)
    (h : LocalOpt l₁ connect n) : LocalOpt l₂ connect n := by
  have helig : eligiblePreds l₂ connect n = eligiblePreds l₁ connect n := by
    rw [eligiblePreds_eq, eligiblePreds_eq, hE]
    unfold eligList
    exact List.filter_congr (fun j hj => by rw [hA j hj])
  have hpc : ∀ j ∈ eligiblePreds l₁ connect n,
      predCost l₂ connect j n = predCost l₁ connect j n := by
    intro j hj
    have hj' : j ∈ l₁.endLists.getD n.start [] := by
      rw [eligiblePreds_eq] at hj
      exact List.mem_of_mem_filter hj
    unfold predCost
    rw [hA j hj']
  obtain ⟨h1, h2, h3⟩ := h
  refine ⟨by rw [helig]; exact h1, h2, ?_⟩
  intro hc
  obtain ⟨j, hj, hb, ht, hmin⟩ := h3 hc
  refine ⟨j, by rw [helig]; exact hj, hb, by rw [hpc j hj]; exact ht, ?_⟩
  intro k hk
  rw [helig] at hk
  rw [hpc k hk]
  exact hmin k hk

end Lattice

namespace Lattice

/-- A node just produced by `connect_node` satisfies its local optimality
statement in any lattice that holds `lst` at the node's start position and
agrees with `A` on the members of `lst`, provided the candidate values
neither wrap nor tie the `i32::MAX` sentinel. -/
theorem localOpt_connectNode (connect : Nat → Nat → Int) (lp : Lattice)
    (A : List LatticeNode) (r : LatticeNode) (lst : List Nat)
    (hE : lp.endLists.getD r.start [] = lst)
    (hA : ∀ j ∈ lst, lp.arena.getD j default = A.getD j default)
    (hv : ∀ j ∈ eligList connect A r lst,
      -2147483648 ≤ rawOf connect A r j ∧ rawOf connect A r j < 2147483647)
    (hw : ∀ j ∈ eligList connect A r lst,
      -2147483648 ≤ rawOf connect A r j + r.cost
        ∧ rawOf connect A r j + r.cost ≤ 2147483647) :
    LocalOpt lp connect (connectNode connect A lst r) := by
  have hstart : (connectNode connect A lst r).start = r.start := rfl
  have hleft : (connectNode connect A lst r).leftId = r.leftId := rfl
  have hcost : (connectNode connect A lst r).cost = r.cost := rfl
  have helig : eligiblePreds lp connect (connectNode connect A lst r)
      = eligList connect A r lst := by
    rw [eligiblePreds_eq, hstart, hE]
    unfold eligList
    refine List.filter_congr ?_
    intro j hj
    rw [hA j hj, hleft]
  have hpc : ∀ j ∈ eligList connect A r lst,
      predCost lp connect j (connectNode connect A lst r)
        = rawOf connect A r j + r.cost := by
    intro j hj
    have hj' : j ∈ lst := List.mem_of_mem_filter hj
    unfold predCost rawOf
    rw [hA j hj', hleft, hcost]
  obtain ⟨hemp, hne⟩ := connectNode_spec connect A lst r hv
  by_cases he : eligList connect A r lst = []
  · obtain ⟨hf, hb⟩ := hemp he
    refine ⟨?_, fun _ => hb, ?_⟩
    · rw [helig, he, hf]
      constructor
      · intro hflag
        exact Bool.noConfusion hflag
      · intro hne2
        exact absurd rfl hne2
    · intro hflag
      rw [hf] at hflag
      exact Bool.noConfusion hflag
  · obtain ⟨j, hj, hb, hf, ht, hmin⟩ := hne he
    refine ⟨?_, ?_, ?_⟩
    · rw [helig, hf]
      exact ⟨fun _ => he, fun _ => rfl⟩
    · intro hflag
      rw [hf] at hflag
      exact Bool.noConfusion hflag
    · intro hflag2
      refine ⟨j, by rw [helig]; exact hj, hb, ?_, ?_⟩
      · rw [ht, hpc j hj]
        exact wrapI32_eq_self (hw j hj).1 (hw j hj).2
      · intro k hk
        rw [helig] at hk
        rw [ht, hpc k hk]
        rw [wrapI32_eq_self (hw j hj).1 (hw j hj).2]
        exact add_le_add_right (hmin k hk) r.cost

end Lattice

namespace Lattice

/-- The invariant maintained while the candidates `cs` are inserted into the
lattice built by `Tokenizer::build_lattice`, for cost bound `B`. -/
structure BuildInv (connect : Nat → Nat → Int) (B : Int) (size : Nat)
    (cs : List Cand) (l : Lattice) : Prop where
  arena_len : l.arena.length = cs.length + 1
  end_len : l.endLists.length = size + 1
  size_eq : l.size = size
  eos_eq : l.eosNode = { emptyNode 0 0 0 with start := size, endPos := size }
  bos_eq : l.arena.getD 0 default = bosNode
  end0 : l.endLists.getD 0 [] = [0]
  mem_le : ∀ e j, j ∈ l.endLists.getD e [] → j ≤ cs.length
  node_fields : ∀ i, 1 ≤ i → i < l.arena.length →
    (l.arena.getD i default).start = (cs.getD (i - 1) default).start
      ∧ (l.arena.getD i default).endPos = (cs.getD (i - 1) default).endPos
  bound : ∀ i, i < l.arena.length →
    (l.arena.getD i default).isConnectedToBos = true →
    |(l.arena.getD i default).totalCost| ≤ ((i : Int) + 1) * (B + 32768)
  localopt : ∀ i, 1 ≤ i → i < l.arena.length →
    LocalOpt l connect (l.arena.getD i default)
  pred_lt : ∀ i, 1 ≤ i → i < l.arena.length →
    ∀ j ∈ l.endLists.getD ((l.arena.getD i default).start) [], j < i

theorem getD_replicate_nil : ∀ (n i : Nat),
    (List.replicate n ([] : List Nat)).getD i [] = [] := by
  intro n
  induction n with
  | zero => intro i; cases i <;> rfl
  | succ n ih =>
    intro i
    cases i with
    | zero => rfl
    | succ i => exact ih i

theorem buildInv_nil (connect : Nat → Nat → Int) (B : Int) (size : Nat)
    (hB0 : 0 ≤ B) : BuildInv connect B size [] (latticeNew size) := by
  refine ⟨rfl, ?_, rfl, rfl, rfl, rfl, ?_, ?_, ?_, ?_, ?_⟩
  · show ([[0]] ++ List.replicate size []).length = size + 1
    simp [List.length_replicate]
  · intro e j hj
    cases e with
    | zero =>
      have : j ∈ [0] := hj
      simp at this
      simp [this]
    | succ e =>
      rw [show (latticeNew size).endLists.getD (e + 1) []
          = (List.replicate size ([] : List Nat)).getD e [] from rfl] at hj
      rw [getD_replicate_nil] at hj
      cases hj
  · intro i h1 h2
    exfalso
    have : (latticeNew size).arena.length = 1 := rfl
    omega
  · intro i h2 hc
    have hlen : (latticeNew size).arena.length = 1 := rfl
    have hi : i = 0 := by omega
    subst hi
    rw [show (latticeNew size).arena.getD 0 default = bosNode from rfl]
    rw [show bosNode.totalCost = 0 from rfl, abs_zero]
    push_cast
    linarith
  · intro i h1 h2
    exfalso
    have : (latticeNew size).arena.length = 1 := rfl
    omega
  · intro i h1 h2
    exfalso
    have : (latticeNew size).arena.length = 1 := rfl
    omega

end Lattice

namespace Lattice

/-- Numeric bounds on the candidate values scanned for a node `r`, given the
per-predecessor total-cost bounds: nothing wraps and the sentinel is always
strictly beaten. -/
theorem elig_bounds (connect : Nat → Nat → Int) (A : List LatticeNode)
    (r : LatticeNode) (lst : List Nat) (B : Int) (k : Nat)
    (hB0 : 0 ≤ B)
    (hconn : ∀ a b, |connect a b| ≤ 32767)
    (hBr : |r.cost| ≤ B)
    (hmem : ∀ j ∈ lst, j ≤ k)
    (hbound : ∀ j ∈ lst, (A.getD j default).isConnectedToBos = true →
      |(A.getD j default).totalCost| ≤ ((j : Int) + 1) * (B + 32768))
    (hsmall : ((k : Int) + 2) * (B + 32768) ≤ 2147483647) :
    (∀ j ∈ eligList connect A r lst,
      -2147483648 ≤ rawOf connect A r j ∧ rawOf connect A r j < 2147483647)
    ∧ (∀ j ∈ eligList connect A r lst,
      -2147483648 ≤ rawOf connect A r j + r.cost
        ∧ rawOf connect A r j + r.cost ≤ 2147483647)
    ∧ (∀ j ∈ eligList connect A r lst,
      |rawOf connect A r j + r.cost| ≤ ((k : Int) + 2) * (B + 32768)) := by
  have hX : (32768 : Int) ≤ B + 32768 := by linarith
  have hexp : ((k : Int) + 2) * (B + 32768)
      = ((k : Int) + 1) * (B + 32768) + (B + 32768) := by ring
  have hM : ((k : Int) + 1) * (B + 32768) + 32767 ≤ 2147483646 := by linarith
  have key : ∀ j ∈ eligList connect A r lst,
      |rawOf connect A r j| ≤ ((k : Int) + 1) * (B + 32768) + 32767 := by
    intro j hj
    have hj' : j ∈ lst := List.mem_of_mem_filter hj
    have hpred := List.of_mem_filter hj
    have hcon : (A.getD j default).isConnectedToBos = true :=
      ((Bool.and_eq_true _ _).mp hpred).1
    have h1 := hbound j hj' hcon
    have hjk : ((j : Int) + 1) ≤ (k : Int) + 1 := by
      have := hmem j hj'
      exact_mod_cast Nat.succ_le_succ this
    have h2 : ((j : Int) + 1) * (B + 32768) ≤ ((k : Int) + 1) * (B + 32768) :=
      mul_le_mul_of_nonneg_right hjk (by linarith)
    have h3 : |rawOf connect A r j|
        ≤ |(A.getD j default).totalCost|
            + |connect (A.getD j default).rightId r.leftId| := abs_add _ _
    have h4 := hconn (A.getD j default).rightId r.leftId
    linarith
  have hrB := abs_le.mp hBr
  refine ⟨?_, ?_, ?_⟩
  · intro j hj
    have h := abs_le.mp (key j hj)
    exact ⟨by linarith, by linarith⟩
  · intro j hj
    have h := abs_le.mp (key j hj)
    exact ⟨by linarith, by linarith⟩
  · intro j hj
    have h := key j hj
    have h1 : |rawOf connect A r j + r.cost|
        ≤ |rawOf connect A r j| + |r.cost| := abs_add _ _
    linarith

/-- `Lattice::insert` unfolded. -/
theorem insert_eq (connect : Nat → Nat → Int) (l : Lattice) (s e : Nat)
    (node : LatticeNode) :
    insert connect l s e node
      = { l with
          arena := l.arena
            ++ [connectNode connect l.arena (l.endLists.getD s [])
                  { node with start := s, endPos := e }],
          endLists := l.endLists.set e
            ((l.endLists.getD e []) ++ [l.arena.length]) } := rfl

end Lattice

namespace Lattice

/-- Inserting the next candidate `c` preserves the build invariant, because
`end_lists[c.endPos]` is the only predecessor list that changes and every
already-inserted node's start lies strictly below `c.endPos`. -/
theorem buildInv_insert (connect : Nat → Nat → Int) (B : Int) (size : Nat)
    (cs : List Cand) (c : Cand) (l : Lattice)
    (inv : BuildInv connect B size cs l)
    (hmono : ∀ a ∈ cs, a.start ≤ c.start)
    (hspan : c.start < c.endPos ∧ c.endPos ≤ size)
    (hBc : |c.cost| ≤ B)
    (hB0 : 0 ≤ B)
    (hconn : ∀ a b, |connect a b| ≤ 32767)
    (hsmall : ((cs.length : Int) + 3) * (B + 32768) ≤ 2147483647) :
    BuildInv connect B size (cs ++ [c])
      (insert connect l c.start c.endPos (candNode c)) := by
  obtain ⟨alen, elen, seq, eeq, bos, e0, memle, nflds, bnd, lopt, plt⟩ := inv
  rw [insert_eq]
  set r : LatticeNode := { candNode c with start := c.start, endPos := c.endPos }
    with hrdef
  set lst : List Nat := l.endLists.getD c.start [] with hlstdef
  set np : LatticeNode := connectNode connect l.arena lst r with hnpdef
  have hrstart : r.start = c.start := rfl
  have hrcost : r.cost = c.cost := rfl
  have hnpstart : np.start = c.start := rfl
  have hnpend : np.endPos = c.endPos := rfl
  have hnpcost : np.cost = c.cost := rfl
  have hcend0 : c.endPos ≠ 0 := by omega
  have hcendlt : c.endPos < l.endLists.length := by omega
  have haren : ∀ j, j < l.arena.length →
      (l.arena ++ [np]).getD j default = l.arena.getD j default := by
    intro j hj
    exact List.getD_append _ _ _ _ hj
  have hnew : (l.arena ++ [np]).getD l.arena.length default = np := by
    rw [List.getD_eq_getElem?_getD, List.getElem?_concat_length]
    rfl
  have hLne : ∀ e, e ≠ c.endPos →
      (l.endLists.set c.endPos ((l.endLists.getD c.endPos []) ++ [l.arena.length])).getD e []
        = l.endLists.getD e [] := by
    intro e he
    rw [List.getD_eq_getElem?_getD, List.getElem?_set_ne (Ne.symm he),
      ← List.getD_eq_getElem?_getD]
  have hLeq :
      (l.endLists.set c.endPos ((l.endLists.getD c.endPos []) ++ [l.arena.length])).getD
          c.endPos []
        = (l.endLists.getD c.endPos []) ++ [l.arena.length] := by
    rw [List.getD_eq_getElem?_getD, List.getElem?_set_self hcendlt]
    rfl
  have hmemlst : ∀ j ∈ lst, j ≤ cs.length := fun j hj => memle c.start j hj
  have hboundlst : ∀ j ∈ lst, (l.arena.getD j default).isConnectedToBos = true →
      |(l.arena.getD j default).totalCost| ≤ ((j : Int) + 1) * (B + 32768) := by
    intro j hj hc
    exact bnd j (by have := hmemlst j hj; omega) hc
  have hsmall2 : ((cs.length : Int) + 2) * (B + 32768) ≤ 2147483647 := by
    have hX : (0 : Int) ≤ B + 32768 := by linarith
    nlinarith
  obtain ⟨hv, hw, habs⟩ :=
    elig_bounds connect l.arena r lst B cs.length hB0 hconn
      (by rw [hrcost]; exact hBc) hmemlst hboundlst hsmall2
  obtain ⟨hemp, hne⟩ := connectNode_spec connect l.arena lst r hv
  have hgetc : (cs ++ [c]).getD cs.length default = c := by
    rw [List.getD_eq_getElem?_getD, List.getElem?_concat_length]
    rfl
  have hgetold : ∀ i, i < cs.length →
      (cs ++ [c]).getD i default = cs.getD i default := by
    intro i hi
    exact List.getD_append _ _ _ _ hi
  have hmemcs : ∀ i, 1 ≤ i → i < l.arena.length → cs.getD (i - 1) default ∈ cs := by
    intro i h1 h2
    have hidx : i - 1 < cs.length := by omega
    rw [List.getD_eq_getElem _ _ hidx]
    exact List.getElem_mem _
  have hstartlt : ∀ i, 1 ≤ i → i < l.arena.length →
      (l.arena.getD i default).start < c.endPos := by
    intro i h1 h2
    have := (nflds i h1 h2).1
    have hm := hmono _ (hmemcs i h1 h2)
    omega
  refine ⟨?_, ?_, ?_, ?_, ?_, ?_, ?_, ?_, ?_, ?_, ?_⟩
  · show (l.arena ++ [np]).length = (cs ++ [c]).length + 1
    simp [alen]
  · show (l.endLists.set c.endPos _).length = size + 1
    rw [List.length_set]
    exact elen
  · exact seq
  · exact eeq
  · show (l.arena ++ [np]).getD 0 default = bosNode
    rw [haren 0 (by omega)]
    exact bos
  · show (l.endLists.set c.endPos _).getD 0 [] = [0]
    rw [hLne 0 (by omega)]
    exact e0
  · intro e j hj
    by_cases he : e = c.endPos
    · subst he
      rw [hLeq] at hj
      rcases List.mem_append.mp hj with h | h
      · have := memle _ _ h
        simp
        omega
      · simp at h
        subst h
      -- the new index is the arena length, i.e. the new list length
        simp [alen]
    · rw [hLne e he] at hj
      have := memle _ _ hj
      simp
      omega
  · intro i h1 h2
    simp only [List.length_append, List.length_singleton] at h2
    by_cases hi : i < l.arena.length
    · rw [haren i hi, hgetold (i - 1) (by omega)]
      exact nflds i h1 hi
    · have hieq : i = l.arena.length := by omega
      subst hieq
      rw [hnew]
      rw [show l.arena.length - 1 = cs.length from by omega]
      rw [hgetc]
      exact ⟨hnpstart, hnpend⟩
  · intro i h2 hc
    simp only [List.length_append, List.length_singleton] at h2
    by_cases hi : i < l.arena.length
    · rw [haren i hi] at hc ⊢
      exact bnd i hi hc
    · have hieq : i = l.arena.length := by omega
      subst hieq
      rw [hnew] at hc ⊢
      by_cases helig : eligList connect l.arena r lst = []
      · rw [(hemp helig).1] at hc
        exact Bool.noConfusion hc
      · obtain ⟨j, hj, hb, hf, ht, hmin⟩ := hne helig
        rw [ht, wrapI32_eq_self (hw j hj).1 (hw j hj).2]
        have habsj := habs j hj
        rw [alen]
        push_cast
        push_cast at habsj
        linarith
  · intro i h1 h2
    simp only [List.length_append, List.length_singleton] at h2
    by_cases hi : i < l.arena.length
    · show LocalOpt _ connect ((l.arena ++ [np]).getD i default)
      rw [haren i hi]
      refine LocalOpt_congr l _ connect _
        (hLne _ (Nat.ne_of_lt (hstartlt i h1 hi))) ?_ (lopt i h1 hi)
      intro j hj
      refine haren j ?_
      have := memle _ _ hj
      omega
    · have hieq : i = l.arena.length := by omega
      subst hieq
      show LocalOpt _ connect ((l.arena ++ [np]).getD l.arena.length default)
      rw [hnew]
      refine localOpt_connectNode connect _ l.arena r lst
        (hLne c.start (by omega)) ?_ hv hw
      intro j hj
      refine haren j ?_
      have := hmemlst j hj
      omega
  · intro i h1 h2 j hj
    simp only [List.length_append, List.length_singleton] at h2
    by_cases hi : i < l.arena.length
    · have hj2 : j ∈ (l.endLists.set c.endPos
          ((l.endLists.getD c.endPos []) ++ [l.arena.length])).getD
            ((l.arena ++ [np]).getD i default).start [] := hj
      rw [haren i hi, hLne _ (Nat.ne_of_lt (hstartlt i h1 hi))] at hj2
      exact plt i h1 hi j hj2
    · have hieq : i = l.arena.length := by omega
      subst hieq
      have hj2 : j ∈ (l.endLists.set c.endPos
          ((l.endLists.getD c.endPos []) ++ [l.arena.length])).getD
            ((l.arena ++ [np]).getD l.arena.length default).start [] := hj
      rw [hnew, hnpstart, hLne c.start (by omega)] at hj2
      have := hmemlst j hj2
      omega

end Lattice

namespace Lattice

theorem buildInv_insertAll (connect : Nat → Nat → Int) (B : Int) (size : Nat)
    (hB0 : 0 ≤ B) (hconn : ∀ a b, |connect a b| ≤ 32767) :
    ∀ (cs : List Cand),
      List.Pairwise (fun a b => a.start ≤ b.start) cs →
      (∀ a ∈ cs, a.start < a.endPos ∧ a.endPos ≤ size) →
      (∀ a ∈ cs, |a.cost| ≤ B) →
      ((cs.length : Int) + 2) * (B + 32768) ≤ 2147483647 →
      BuildInv connect B size cs (insertAll connect (latticeNew size) cs) := by
  intro cs
  induction cs using List.reverseRecOn with
  | nil =>
    intro _ _ _ _
    exact buildInv_nil connect B size hB0
  | append_singleton cs c ih =>
    intro hp hs hb hsm
    have hXnn : (0 : Int) ≤ B + 32768 := by linarith
    have hsm' : ((cs.length : Int) + 3) * (B + 32768) ≤ 2147483647 := by
      have hlen : (((cs ++ [c]).length : Int)) = (cs.length : Int) + 1 := by
        simp
      rw [hlen] at hsm
      have : ((cs.length : Int) + 1 + 2) = ((cs.length : Int) + 3) := by ring
      rw [this] at hsm
      exact hsm
    have hsm2 : ((cs.length : Int) + 2) * (B + 32768) ≤ 2147483647 := by
      have he : ((cs.length : Int) + 3) * (B + 32768)
          = ((cs.length : Int) + 2) * (B + 32768) + (B + 32768) := by ring
      linarith
    obtain ⟨hp1, -, hcross⟩ := List.pairwise_append.mp hp
    rw [show insertAll connect (latticeNew size) (cs ++ [c])
        = insert connect (insertAll connect (latticeNew size) cs) c.start c.endPos
            (candNode c) from by
      unfold insertAll
      rw [List.foldl_append]
      rfl]
    refine buildInv_insert connect B size cs c _
      (ih hp1 (fun a ha => hs a (List.mem_append_left _ ha))
        (fun a ha => hb a (List.mem_append_left _ ha)) hsm2)
      (fun a ha => hcross a ha c (List.mem_singleton_self c))
      (hs c (List.mem_append_right _ (List.mem_singleton_self c)))
      (hb c (List.mem_append_right _ (List.mem_singleton_self c)))
      hB0 hconn hsm'

theorem connectEos_localOpt (connect : Nat → Nat → Int) (B : Int) (size : Nat)
    (cs : List Cand) (l : Lattice)
    (inv : BuildInv connect B size cs l)
    (hB0 : 0 ≤ B) (hconn : ∀ a b, |connect a b| ≤ 32767)
    (hsmall : ((cs.length : Int) + 2) * (B + 32768) ≤ 2147483647) :
    LocalOpt (connectEosNode connect l) connect (connectEosNode connect l).eosNode := by
  have heosstart : l.eosNode.start = size := by rw [inv.eos_eq]
  have heoscost : l.eosNode.cost = 0 := by rw [inv.eos_eq]; rfl
  obtain ⟨hv, hw, -⟩ :=
    elig_bounds connect l.arena l.eosNode (l.endLists.getD l.size []) B
      cs.length hB0 hconn (by rw [heoscost]; simpa using hB0)
      (fun j hj => inv.mem_le l.size j hj)
      (fun j hj hc => inv.bound j
        (by
          have ha := inv.mem_le l.size j hj
          have hb2 := inv.arena_len
          omega) hc)
      hsmall
  show LocalOpt _ connect
    (connectNode connect l.arena (l.endLists.getD l.size []) l.eosNode)
  refine localOpt_connectNode connect _ l.arena l.eosNode
    (l.endLists.getD l.size []) ?_ (fun j hj => rfl) hv hw
  show l.endLists.getD
    (connectNode connect l.arena (l.endLists.getD l.size []) l.eosNode).start []
      = l.endLists.getD l.size []
  rw [(connectNode_fields connect l.arena (l.endLists.getD l.size []) l.eosNode).1]
  rw [heosstart, inv.size_eq]

end Lattice

namespace Lattice

/-- The cost of the path BOS, `mid` (without EOS): node costs plus
connection costs. -/
def pathBosCost (lat : Lattice) (connect : Nat → Nat → Int) (mid : List Nat) : Int :=
  pathCost connect (lat.arena.getD 0 default :: nodesOf lat mid)

/-- `mid` is a path from BOS whose last interior node is `i`. -/
def ValidPathEnding (lat : Lattice) (connect : Nat → Nat → Int) (i : Nat)
    (mid : List Nat) : Prop :=
  ValidPathTo lat connect mid ∧ mid.getLastD 0 = i

theorem getLastD_cons_cons {α : Type} (a b : α) (l : List α) (d : α) :
    (a :: b :: l).getLastD d = (b :: l).getLastD d := by
  rw [List.getLastD_eq_getLast?, List.getLastD_eq_getLast?, List.getLast?_cons_cons]

theorem chain_concat {α : Type} (R : α → α → Prop) :
    ∀ (l : List α) (a b : α),
      List.Chain R a (l ++ [b]) ↔ List.Chain R a l ∧ R (l.getLastD a) b := by
  intro l
  induction l with
  | nil =>
    intro a b
    simp [List.chain_cons]
  | cons c t ih =>
    intro a b
    rw [show (c :: t) ++ [b] = c :: (t ++ [b]) from rfl]
    rw [List.chain_cons, List.chain_cons, ih c b, List.getLastD_cons]
    tauto

theorem nodes_getLastD (lat : Lattice) :
    ∀ (mid : List Nat) (x : Nat),
      (lat.arena.getD x default :: nodesOf lat mid).getLastD default
        = lat.arena.getD (mid.getLastD x) default := by
  intro mid
  induction mid with
  | nil => intro x; rfl
  | cons j t ih =>
    intro x
    rw [show nodesOf lat (j :: t)
        = lat.arena.getD j default :: nodesOf lat t from rfl]
    rw [getLastD_cons_cons]
    rw [ih j]
    rw [List.getLastD_cons]

theorem costSum_concat (ns : List LatticeNode) (n : LatticeNode) :
    costSum (ns ++ [n]) = costSum ns + n.cost := by
  simp [costSum]

theorem connectSum_concat (connect : Nat → Nat → Int) :
    ∀ (ns : List LatticeNode) (n : LatticeNode), ns ≠ [] →
      connectSum connect (ns ++ [n])
        = connectSum connect ns
          + connect (ns.getLastD default).rightId n.leftId := by
  intro ns
  induction ns with
  | nil => intro n h; exact absurd rfl h
  | cons a t ih =>
    intro n _
    cases t with
    | nil =>
      show connectSum connect [a, n] = connectSum connect [a] + _
      rw [show connectSum connect [a, n]
          = connect a.rightId n.leftId + connectSum connect [n] from rfl]
      rw [show connectSum connect [n] = 0 from rfl,
        show connectSum connect [a] = 0 from rfl]
      rw [show ([a] : List LatticeNode).getLastD default = a from rfl]
      ring
    | cons b t2 =>
      rw [show (a :: b :: t2) ++ [n] = a :: ((b :: t2) ++ [n]) from rfl]
      rw [show connectSum connect (a :: ((b :: t2) ++ [n]))
          = connect a.rightId b.leftId + connectSum connect ((b :: t2) ++ [n]) from rfl]
      rw [ih n (by simp)]
      rw [show connectSum connect (a :: b :: t2)
          = connect a.rightId b.leftId + connectSum connect (b :: t2) from rfl]
      rw [getLastD_cons_cons]
      ring

theorem pathBosCost_nil (lat : Lattice) (connect : Nat → Nat → Int)
    (hbos : lat.arena.getD 0 default = bosNode) :
    pathBosCost lat connect [] = 0 := by
  unfold pathBosCost pathCost costSum connectSum nodesOf
  rw [hbos]
  rfl

theorem pathBosCost_concat (lat : Lattice) (connect : Nat → Nat → Int)
    (mid : List Nat) (i : Nat) :
    pathBosCost lat connect (mid ++ [i])
      = pathBosCost lat connect mid
        + connect (lat.arena.getD (mid.getLastD 0) default).rightId
            (lat.arena.getD i default).leftId
        + (lat.arena.getD i default).cost := by
  unfold pathBosCost pathCost
  rw [show lat.arena.getD 0 default :: nodesOf lat (mid ++ [i])
      = (lat.arena.getD 0 default :: nodesOf lat mid)
          ++ [lat.arena.getD i default] from by simp [nodesOf]]
  rw [costSum_concat, connectSum_concat _ _ _ (by simp), nodes_getLastD]
  ring

theorem eosPathCost_eq (lat : Lattice) (connect : Nat → Nat → Int)
    (mid : List Nat) :
    eosPathCost lat connect mid
      = pathBosCost lat connect mid
        + connect (lat.arena.getD (mid.getLastD 0) default).rightId
            lat.eosNode.leftId
        + lat.eosNode.cost := by
  unfold eosPathCost pathBosCost pathCost fullNodes
  rw [show lat.arena.getD 0 default :: (nodesOf lat mid ++ [lat.eosNode])
      = (lat.arena.getD 0 default :: nodesOf lat mid) ++ [lat.eosNode] from by simp]
  rw [costSum_concat, connectSum_concat _ _ _ (by simp), nodes_getLastD]
  ring

theorem mem_eligiblePreds (lat : Lattice) (connect : Nat → Nat → Int)
    (n : LatticeNode) (j : Nat) :
    j ∈ eligiblePreds lat connect n ↔
      j ∈ lat.endLists.getD n.start []
        ∧ (lat.arena.getD j default).isConnectedToBos = true
        ∧ connect (lat.arena.getD j default).rightId n.leftId
            ≠ Grammar.INHIBITED_CONNECTION := by
  rw [eligiblePreds_eq]
  unfold eligList
  rw [List.mem_filter]
  constructor
  · rintro ⟨h1, h2⟩
    have h3 := (Bool.and_eq_true _ _).mp h2
    exact ⟨h1, h3.1, of_decide_eq_true h3.2⟩
  · rintro ⟨h1, h2, h3⟩
    refine ⟨h1, ?_⟩
    rw [h2, Bool.true_and]
    exact decide_eq_true h3

end Lattice

namespace Lattice

/-- Global Viterbi optimality over the final lattice, by strong induction on
the arena index: every BOS-connected node carries, in `total_cost`, the
minimum cost over the valid paths ending at it, realized by its back-pointer
chain (which is exactly what `walk` retraces); a node not connected to BOS
has no valid path ending at it. -/
theorem viterbi_global (lat : Lattice) (connect : Nat → Nat → Int)
    (hbos : lat.arena.getD 0 default = bosNode)
    (hlocal : ∀ i, 1 ≤ i → i < lat.arena.length →
      LocalOpt lat connect (lat.arena.getD i default))
    (hpred : ∀ i, 1 ≤ i → i < lat.arena.length →
      ∀ j ∈ lat.endLists.getD ((lat.arena.getD i default).start) [], j < i) :
    ∀ i, 1 ≤ i → i < lat.arena.length →
      (((lat.arena.getD i default).isConnectedToBos = true →
        ∃ mid, ValidPathEnding lat connect i mid
          ∧ pathBosCost lat connect mid = (lat.arena.getD i default).totalCost
          ∧ (∀ fuel, i + 1 ≤ fuel → walk lat.arena (some i) fuel = mid.reverse)
          ∧ ∀ mid2, ValidPathEnding lat connect i mid2 →
              (lat.arena.getD i default).totalCost ≤ pathBosCost lat connect mid2)
      ∧ ((lat.arena.getD i default).isConnectedToBos = false →
          ∀ mid, ¬ ValidPathEnding lat connect i mid)) := by
  intro i
  induction i using Nat.strong_induction_on with
  | _ i ih =>
    intro h1 h2
    have hcore : ∀ mid2, ValidPathEnding lat connect i mid2 →
        (mid2.dropLast.getLastD 0) ∈ eligiblePreds lat connect (lat.arena.getD i default)
          ∧ mid2 = mid2.dropLast ++ [i]
          ∧ (lat.arena.getD (mid2.dropLast.getLastD 0) default).totalCost
              ≤ pathBosCost lat connect mid2.dropLast := by
      intro mid2 hm2
      obtain ⟨⟨hmem2, hchain2⟩, hlast2⟩ := hm2
      have hne2 : mid2 ≠ [] := by
        intro h
        rw [h] at hlast2
        simp at hlast2
        omega
      have hlastval : mid2.getLast hne2 = i := by
        rw [← hlast2, List.getLastD_eq_getLast?, List.getLast?_eq_getLast _ hne2]
        rfl
      have hsplit : mid2 = mid2.dropLast ++ [i] := by
        conv_lhs => rw [← List.dropLast_append_getLast hne2]
        rw [hlastval]
      have hchain3 := hchain2
      rw [hsplit] at hchain3
      obtain ⟨hchainA, hadj⟩ := (chain_concat _ mid2.dropLast 0 i).mp hchain3
      have hj0facts :
          (lat.arena.getD (mid2.dropLast.getLastD 0) default).isConnectedToBos = true
          ∧ (lat.arena.getD (mid2.dropLast.getLastD 0) default).totalCost
              ≤ pathBosCost lat connect mid2.dropLast := by
        by_cases hmidnil : mid2.dropLast = []
        · rw [hmidnil]
          rw [show (([] : List Nat).getLastD 0) = 0 from rfl, hbos]
          rw [pathBosCost_nil lat connect hbos]
          exact ⟨rfl, le_of_eq (show bosNode.totalCost = 0 from rfl)⟩
        · have hj0mem : mid2.dropLast.getLastD 0 ∈ mid2.dropLast := by
            rw [List.getLastD_eq_getLast?, List.getLast?_eq_getLast _ hmidnil]
            simp only [Option.getD_some]
            exact List.getLast_mem hmidnil
          have hj0in : mid2.dropLast.getLastD 0 ∈ mid2 :=
            List.dropLast_subset _ hj0mem
          have hj0prop := hmem2 _ hj0in
          have hj0lt : mid2.dropLast.getLastD 0 < i := hpred i h1 h2 _ hadj.1
          have hIH := ih _ hj0lt (by omega) hj0prop.2
          have hvpe : ValidPathEnding lat connect (mid2.dropLast.getLastD 0)
              mid2.dropLast := by
            refine ⟨⟨?_, hchainA⟩, rfl⟩
            intro x hx
            exact hmem2 x (List.dropLast_subset _ hx)
          rcases Bool.eq_false_or_eq_true
              ((lat.arena.getD (mid2.dropLast.getLastD 0) default).isConnectedToBos)
            with ht | hf
          · obtain ⟨-, -, -, -, hminj⟩ := hIH.1 ht
            exact ⟨ht, hminj _ hvpe⟩
          · exact absurd hvpe (hIH.2 hf mid2.dropLast)
      refine ⟨?_, hsplit, hj0facts.2⟩
      rw [mem_eligiblePreds]
      exact ⟨hadj.1, hj0facts.1, hadj.2⟩
    constructor
    · intro hconn_i
      obtain ⟨hiff, hnone, hopt⟩ := hlocal i h1 h2
      obtain ⟨j, hjelig, hbp, htc, hminlocal⟩ := hopt hconn_i
      obtain ⟨hjlist, hjflag, hjnin⟩ := (mem_eligiblePreds lat connect _ j).mp hjelig
      have hjlt : j < i := hpred i h1 h2 j hjlist
      have hadjji : adjacentOk lat connect j (lat.arena.getD i default) :=
        ⟨hjlist, hjnin⟩
      have hminall : ∀ mid2, ValidPathEnding lat connect i mid2 →
          (lat.arena.getD i default).totalCost ≤ pathBosCost lat connect mid2 := by
        intro mid2 hm2
        obtain ⟨hj0elig, hsplit, hj0cost⟩ := hcore mid2 hm2
        have hple := hminlocal _ hj0elig
        have hcostdec : pathBosCost lat connect mid2
            = pathBosCost lat connect mid2.dropLast
              + connect (lat.arena.getD (mid2.dropLast.getLastD 0) default).rightId
                  (lat.arena.getD i default).leftId
              + (lat.arena.getD i default).cost := by
          conv_lhs => rw [hsplit]
          rw [pathBosCost_concat]
        unfold predCost at hple
        rw [hcostdec]
        linarith
      by_cases hj0 : j = 0
      · subst hj0
        refine ⟨[i], ⟨⟨?_, ?_⟩, rfl⟩, ?_, ?_, hminall⟩
        · intro x hx
          simp at hx
          subst hx
          exact ⟨by omega, h2⟩
        · exact List.Chain.cons hadjji List.Chain.nil
        · rw [htc]
          rw [show ([i] : List Nat) = [] ++ [i] from rfl, pathBosCost_concat]
          rw [pathBosCost_nil lat connect hbos]
          unfold predCost
          rw [show (([] : List Nat).getLastD 0) = 0 from rfl, hbos]
          rw [show bosNode.totalCost = 0 from rfl]
        · intro fuel hf
          obtain ⟨f, rfl⟩ : ∃ f, fuel = f + 1 := ⟨fuel - 1, by omega⟩
          rw [show walk lat.arena (some i) (f + 1)
              = if i = 0 then []
                else i :: walk lat.arena
                  (lat.arena.getD i default).bestPreviousNode f from rfl]
          rw [if_neg (by omega), hbp]
          obtain ⟨f2, rfl⟩ : ∃ f2, f = f2 + 1 := ⟨f - 1, by omega⟩
          rw [show walk lat.arena (some 0) (f2 + 1) = ([] : List Nat) from by
            rw [show walk lat.arena (some 0) (f2 + 1)
                = if 0 = 0 then []
                  else 0 :: walk lat.arena
                    (lat.arena.getD 0 default).bestPreviousNode f2 from rfl]
            rw [if_pos rfl]]
          rfl
      · have hj1 : 1 ≤ j := by omega
        have hIHj := ih j hjlt hj1 (by omega)
        obtain ⟨midj, hvpej, hcostj, hwalkj, -⟩ := hIHj.1 hjflag
        refine ⟨midj ++ [i], ⟨⟨?_, ?_⟩, ?_⟩, ?_, ?_, hminall⟩
        · intro x hx
          rcases List.mem_append.mp hx with hx | hx
          · exact hvpej.1.1 x hx
          · simp at hx
            subst hx
            exact ⟨by omega, h2⟩
        · rw [chain_concat]
          refine ⟨hvpej.1.2, ?_⟩
          rw [hvpej.2]
          exact hadjji
        · rw [List.getLastD_concat]
        · rw [pathBosCost_concat, hvpej.2, hcostj, htc]
          unfold predCost
          ring
        · intro fuel hf
          obtain ⟨f, rfl⟩ : ∃ f, fuel = f + 1 := ⟨fuel - 1, by omega⟩
          rw [show walk lat.arena (some i) (f + 1)
              = if i = 0 then []
                else i :: walk lat.arena
                  (lat.arena.getD i default).bestPreviousNode f from rfl]
          rw [if_neg (by omega), hbp]
          rw [hwalkj f (by omega)]
          rw [List.reverse_append]
          rfl
    · intro hflag mid2 hm2
      obtain ⟨hj0elig, -, -⟩ := hcore mid2 hm2
      obtain ⟨hiff, -, -⟩ := hlocal i h1 h2
      have hne : eligiblePreds lat connect (lat.arena.getD i default) ≠ [] := by
        intro he
        rw [he] at hj0elig
        cases hj0elig
      have hct := hiff.mpr hne
      rw [hflag] at hct
      exact Bool.noConfusion hct

end Lattice

/-- C1: in the lattice built by `Tokenizer::build_lattice` — candidates
inserted in program order (starts non-decreasing, each span non-empty and
inside the input) with node costs bounded by `B` and connection costs in
the `i16` range, small enough that the `i32` arithmetic never wraps —
every inserted node satisfies the claim's per-node property `LocalOpt`
(connected flag set iff an eligible BOS-connected predecessor with
non-inhibited connection exists, and `total_cost` equal to the minimum of
predecessor `total_cost` plus connection cost, plus the node's own cost,
realized by the stored back-pointer), the EOS node satisfies the same, and
when EOS is connected to BOS the path returned by `get_best_path` is a
valid BOS-to-EOS path whose cost — sum of node costs plus sum of
connection costs — equals the EOS `total_cost` and is minimal over all
BOS-to-EOS paths of the lattice with non-inhibited connections; when EOS
is not connected (the source panics there) no such path exists at all. -/
theorem lattice_c1_viterbi
    (connect : Nat → Nat → Int) (size : Nat) (cands : List Lattice.Cand) (B : Int)
    (lat : Lattice.Lattice) (hlat : lat = Lattice.buildLattice connect size cands)
    (hmono : List.Pairwise (fun a b => a.start ≤ b.start) cands)
    (hspan : ∀ c ∈ cands, c.start < c.endPos ∧ c.endPos ≤ size)
    (hB : ∀ c ∈ cands, |c.cost| ≤ B)
    (hB0 : 0 ≤ B)
    (hconn : ∀ a b, |connect a b| ≤ 32767)
    (hsmall : ((cands.length : Int) + 2) * (B + 32768) ≤ 2147483647) :
    (∀ i, 1 ≤ i → i < lat.arena.length →
        Lattice.LocalOpt lat connect (lat.arena.getD i default))
    ∧ Lattice.LocalOpt lat connect lat.eosNode
    ∧ (lat.eosNode.isConnectedToBos = true →
        Lattice.ValidEosPath lat connect (Lattice.getBestPath lat)
        ∧ Lattice.eosPathCost lat connect (Lattice.getBestPath lat)
            = lat.eosNode.totalCost
        ∧ ∀ mid, Lattice.ValidEosPath lat connect mid →
            Lattice.eosPathCost lat connect (Lattice.getBestPath lat)
              ≤ Lattice.eosPathCost lat connect mid)
    ∧ (lat.eosNode.isConnectedToBos = false →
        ∀ mid, ¬ Lattice.ValidEosPath lat connect mid) := by
  have inv := Lattice.buildInv_insertAll connect B size hB0 hconn cands hmono hspan hB hsmall
  set l0 := Lattice.insertAll connect (Lattice.latticeNew size) cands with hl0
  have hlat2 : lat = Lattice.connectEosNode connect l0 := hlat
  have harena : lat.arena = l0.arena := by
    rw [hlat2]
    exact rfl
  have hends : lat.endLists = l0.endLists := by
    rw [hlat2]
    exact rfl
  have hN : lat.arena.length = cands.length + 1 := by
    rw [harena]
    exact inv.arena_len
  have hbos : lat.arena.getD 0 default = Lattice.bosNode := by
    rw [harena]
    exact inv.bos_eq
  have hlocal : ∀ i, 1 ≤ i → i < lat.arena.length →
      Lattice.LocalOpt lat connect (lat.arena.getD i default) := by
    intro i h1 h2
    rw [harena] at h2 ⊢
    refine Lattice.LocalOpt_congr l0 lat connect _ ?_ ?_ (inv.localopt i h1 h2)
    · rw [hends]
    · intro j hj
      rw [harena]
  have hpredlt : ∀ i, 1 ≤ i → i < lat.arena.length →
      ∀ j ∈ lat.endLists.getD ((lat.arena.getD i default).start) [], j < i := by
    intro i h1 h2 j hj
    rw [harena] at h2
    rw [hends, harena] at hj
    exact inv.pred_lt i h1 h2 j hj
  have heos : Lattice.LocalOpt lat connect lat.eosNode := by
    rw [hlat2]
    exact Lattice.connectEos_localOpt connect B size cands l0 inv hB0 hconn hsmall
  have global := Lattice.viterbi_global lat connect hbos hlocal hpredlt
  -- facts about the last node of any BOS-to-EOS path
  have hj1facts : ∀ mid, Lattice.ValidEosPath lat connect mid →
      (lat.arena.getD (mid.getLastD 0) default).isConnectedToBos = true
      ∧ (lat.arena.getD (mid.getLastD 0) default).totalCost
          ≤ Lattice.pathBosCost lat connect mid := by
    intro mid hvep
    by_cases hnil : mid = []
    · subst hnil
      rw [show (([] : List Nat).getLastD 0) = 0 from rfl, hbos,
        Lattice.pathBosCost_nil lat connect hbos]
      exact ⟨rfl, le_of_eq (show Lattice.bosNode.totalCost = 0 from rfl)⟩
    · have hj1mem : mid.getLastD 0 ∈ mid := by
        rw [List.getLastD_eq_getLast?, List.getLast?_eq_getLast _ hnil]
        simp only [Option.getD_some]
        exact List.getLast_mem hnil
      have hj1prop := hvep.1.1 _ hj1mem
      have hvpe1 : Lattice.ValidPathEnding lat connect (mid.getLastD 0) mid :=
        ⟨hvep.1, rfl⟩
      rcases Bool.eq_false_or_eq_true
          ((lat.arena.getD (mid.getLastD 0) default).isConnectedToBos) with ht | hf
      · obtain ⟨-, -, -, -, hminj⟩ :=
          (global _ (by omega) hj1prop.2).1 ht
        exact ⟨ht, hminj _ hvpe1⟩
      · exact absurd hvpe1 ((global _ (by omega) hj1prop.2).2 hf mid)
  have hj1elig : ∀ mid, Lattice.ValidEosPath lat connect mid →
      (mid.getLastD 0) ∈ Lattice.eligiblePreds lat connect lat.eosNode := by
    intro mid hvep
    rw [Lattice.mem_eligiblePreds]
    exact ⟨hvep.2.1, (hj1facts mid hvep).1, hvep.2.2⟩
  have hiff := heos.1
  have hopt := heos.2.2
  refine ⟨hlocal, heos, ?_, ?_⟩
  · intro hct
    obtain ⟨j0, hj0elig, hbp, htc, hminl⟩ := hopt hct
    obtain ⟨hj0list, hj0flag, hj0nin⟩ :=
      (Lattice.mem_eligiblePreds lat connect _ j0).mp hj0elig
    have hj0le : j0 ≤ cands.length := by
      rw [hends] at hj0list
      exact inv.mem_le _ j0 hj0list
    have hadj0 : Lattice.adjacentOk lat connect j0 lat.eosNode := ⟨hj0list, hj0nin⟩
    have hminall : ∀ mid, Lattice.ValidEosPath lat connect mid →
        lat.eosNode.totalCost ≤ Lattice.eosPathCost lat connect mid := by
      intro mid hvep
      have hple := hminl _ (hj1elig mid hvep)
      have hcb := (hj1facts mid hvep).2
      rw [Lattice.eosPathCost_eq]
      unfold Lattice.predCost at hple
      linarith
    by_cases hj00 : j0 = 0
    · subst hj00
      have hpath : Lattice.getBestPath lat = [] := by
        unfold Lattice.getBestPath
        rw [hbp]
        obtain ⟨f, hf⟩ : ∃ f, lat.arena.length = f + 1 := ⟨cands.length, by omega⟩
        rw [hf]
        rw [show Lattice.walk lat.arena (some 0) (f + 1)
            = if 0 = 0 then []
              else 0 :: Lattice.walk lat.arena
                (lat.arena.getD 0 default).bestPreviousNode f from rfl]
        rw [if_pos rfl]
        rfl
      rw [hpath]
      have hvep0 : Lattice.ValidEosPath lat connect [] := by
        refine ⟨⟨?_, List.Chain.nil⟩, ?_⟩
        · intro x hx
          cases hx
        · exact hadj0
      have hcost0 : Lattice.eosPathCost lat connect [] = lat.eosNode.totalCost := by
        rw [Lattice.eosPathCost_eq, Lattice.pathBosCost_nil lat connect hbos, htc]
        unfold Lattice.predCost
        rw [show (([] : List Nat).getLastD 0) = 0 from rfl, hbos]
        rw [show Lattice.bosNode.totalCost = 0 from rfl]
      refine ⟨hvep0, hcost0, fun mid h => ?_⟩
      rw [hcost0]
      exact hminall mid h
    · have hj01 : 1 ≤ j0 := by omega
      have hj0lt : j0 < lat.arena.length := by omega
      obtain ⟨midj, hvpej, hcostj, hwalkj, -⟩ := (global j0 hj01 hj0lt).1 hj0flag
      have hpath : Lattice.getBestPath lat = midj := by
        unfold Lattice.getBestPath
        rw [hbp, hwalkj lat.arena.length (by omega), List.reverse_reverse]
      rw [hpath]
      have hvepj : Lattice.ValidEosPath lat connect midj := by
        refine ⟨hvpej.1, ?_⟩
        rw [hvpej.2]
        exact hadj0
      have hcosteq : Lattice.eosPathCost lat connect midj = lat.eosNode.totalCost := by
        rw [Lattice.eosPathCost_eq, hvpej.2, hcostj, htc]
        unfold Lattice.predCost
        ring
      exact ⟨hvepj, hcosteq, fun mid h => by rw [hcosteq]; exact hminall mid h⟩
  · intro hcf mid hvep
    have hne : Lattice.eligiblePreds lat connect lat.eosNode ≠ [] := by
      intro he
      have := hj1elig mid hvep
      rw [he] at this
      cases this
    have hct := hiff.mpr hne
    rw [hcf] at hct
    exact Bool.noConfusion hct


/-- Witness for C1 at a concrete instance: one candidate spanning `[0, 1)`
with cost 5, unit connection costs; the best path's cost equals the EOS
total cost (7 = 0 + 1 + 5 + 1 + 0). -/
theorem lattice_c1_viterbi_witness :
    Lattice.eosPathCost
        (Lattice.buildLattice (fun _ _ => (1 : Int)) 1
          [{ start := 0, endPos := 1, leftId := 0, rightId := 0, cost := 5 }])
        (fun _ _ => (1 : Int))
        (Lattice.getBestPath (Lattice.buildLattice (fun _ _ => (1 : Int)) 1
          [{ start := 0, endPos := 1, leftId := 0, rightId := 0, cost := 5 }]))
      = (Lattice.buildLattice (fun _ _ => (1 : Int)) 1
          [{ start := 0, endPos := 1, leftId := 0, rightId := 0, cost := 5 }]).eosNode.totalCost :=
  by
  exact ((lattice_c1_viterbi (fun _ _ => (1 : Int)) 1
      [{ start := 0, endPos := 1, leftId := 0, rightId := 0, cost := 5 }] 5
      (Lattice.buildLattice (fun _ _ => (1 : Int)) 1
        [{ start := 0, endPos := 1, leftId := 0, rightId := 0, cost := 5 }]) rfl
      (by simp)
      (by decide)
      (by decide)
      (by decide)
      (fun _ _ => by show |(1 : Int)| ≤ 32767; decide)
      (by decide)).2.2.1 (by decide)).2.1
